import Mathlib

/-! DragonCompiler preprocessor: a shallow embedding of `preprocessor.c`.

The macro preprocessing engine is embedded as pure functions over an explicit
`compile_process` state.  Loops of the C code become recursive functions that
take a step budget; fatal diagnostics (`FAIL_ERR`) become `Outcome.halt`
carrying the state reached when the diagnostic fires.
-/

set_option autoImplicit false

namespace DragonCompiler

/-! ## Data model -/

/-- Modelled from the spec: `struct token` of `compiler.h`, a lexical unit tagged by
kind and carrying the payload of its kind (name for identifiers, value for
numbers, character for symbols, text for operators and strings). -/
inductive token where
  | identifier (sval : String)
  | number (llnum : Nat)
  | symbol (cval : Char)
  | operator (sval : String)
  | string (sval : String)
  | newline
  deriving DecidableEq, Repr

/-- Modelled from the spec: the `sval` member of `struct token`.  A token whose kind
carries no text reads as the null string. -/
def token.sval? : token → Option String
  | .identifier s => some s
  | .operator s => some s
  | .string s => some s
  | _ => none

/-- Modelled from the spec: the `S_EQ` string comparison of `compiler.h`; a null
string equals nothing. -/
def S_EQ : Option String → Option String → Bool
  | some a, some b => a == b
  | _, _ => false

/-- Modelled from the spec: `token_is_symbol` of `token.c`, false on an absent token. -/
def token_is_symbol : Option token → Char → Bool
  | some (.symbol c), sym => c == sym
  | _, _ => false

/-- Modelled from the spec: `token_is_operator` of `token.c`, false on an absent token. -/
def token_is_operator : Option token → String → Bool
  | some (.operator s), op => s == op
  | _, _ => false

/-- Modelled from the spec: `token_is_identifier` of `token.c`, false on an absent
token. -/
def token_is_identifier : Option token → String → Bool
  | some (.identifier s), iden => s == iden
  | _, _ => false

/-- Modelled from the spec: the Token Cursor (`struct vector` of `helpers/vector.h`
as used for `token_vec_original`): the token sequence, the peek position and
the stack of saved positions. -/
structure vector where
  data : List token
  pindex : Nat
  saves : List Nat
  deriving DecidableEq, Repr

/-- Modelled from the spec: `vector_peek_no_increment`, the token at the position
or nothing when the sequence is exhausted. -/
def vector_peek_no_increment (v : vector) : Option token :=
  (v.data.drop v.pindex).head?

/-- Modelled from the spec: `vector_peek`, returns the token at the position and
advances by one; on exhaustion returns nothing and stays. -/
def vector_peek (v : vector) : Option token × vector :=
  match v.data.drop v.pindex with
  | [] => (none, v)
  | t :: _ => (some t, { v with pindex := v.pindex + 1 })

/-- Modelled from the spec: `vector_set_peek_pointer`. -/
def vector_set_peek_pointer (v : vector) (index : Nat) : vector :=
  { v with pindex := index }

/-- Modelled from the spec: `vector_save`, pushes the current position. -/
def vector_save (v : vector) : vector :=
  { v with saves := v.pindex :: v.saves }

/-- Modelled from the spec: `vector_restore`, pops the most recent save and resets
the position to it. -/
def vector_restore (v : vector) : vector :=
  match v.saves with
  | [] => v
  | p :: rest => { v with pindex := p, saves := rest }

/-- Modelled from the spec: `vector_save_purge`, pops the most recent save and
keeps the position. -/
def vector_save_purge (v : vector) : vector :=
  { v with saves := v.saves.tail }

/-- The size of an element of the parameter vector of a definition,
`sizeof(const char *)`: 8 bytes on the 64-bit targets of the compiler. -/
def sizeof_const_char_pointer : Nat := 8

/-- Modelled from the spec: what `vector_push` copies into an element of the
parameter vector (created with element size `sizeof(const char *)`) when it is
handed the text of a name: the first 8 characters of the text, a character of
a text standing for one `char`.  A text of fewer than 8 characters is stored
whole, with its terminator; one of 8 or more is stored as its first 8
characters, without terminator. -/
def vector_slot (text : String) : String :=
  ⟨text.data.take sizeof_const_char_pointer⟩

/-- Modelled from the spec: `vector_push` of the text of a name into the parameter
vector. -/
def vector_push_text (v : List String) (text : String) : List String :=
  v ++ [vector_slot text]

/-- Modelled from the spec: the string read at the element `vector_peek` returns
from the parameter vector, given that element and the elements after it: the
characters of the element up to its terminator; an element filled by 8
characters holds no terminator, and the string runs on into the next element.
Nothing when no terminator is reached within the pushed elements: the memory
after them was never written by the vector and is taken to spell no name. -/
def vector_slot_string : List String → Option String
  | [] => none
  | slot :: rest =>
    if slot.length < sizeof_const_char_pointer then some slot
    else (vector_slot_string rest).map (fun s => slot ++ s)

/-- The two kinds of `struct preprocessor_definition`. -/
inductive definition_type where
  | PREPROCESSOR_DEFINITION_STANDARD
  | PREPROCESSOR_DEFINITION_MACRO_FUNCTION
  deriving DecidableEq, Repr

open definition_type


/-- Modelled from the spec: `struct preprocessor_definition` of `compiler.h`;
`arguments` holds the elements of the parameter vector, one per parameter. -/
structure preprocessor_definition where
  type : definition_type
  name : Option String
  value : List token
  arguments : List String
  deriving DecidableEq, Repr

/-- Modelled from the spec: `struct preprocessor` of `compiler.h`, reduced to the
definition table. -/
structure preprocessor where
  definitions : List preprocessor_definition
  deriving DecidableEq, Repr

/-- Modelled from the spec: `struct compile_process` of `compiler.h`, reduced to the
source cursor, the destination sequence and the preprocessor. -/
structure compile_process where
  token_vec_original : vector
  token_vec : List token
  preprocessor : preprocessor
  deriving DecidableEq, Repr

/-- `struct preprocessor_function_argument`. -/
structure preprocessor_function_argument where
  tokens : List token
  deriving DecidableEq, Repr

/-- `struct preprocessor_function_arguments`. -/
structure preprocessor_function_arguments where
  arguments : List preprocessor_function_argument
  deriving DecidableEq, Repr

/-- The ways a pass stops early: one constructor per `FAIL_ERR` site, one for a
field read through an absent (null) token or element, one for an exhausted step
budget. -/
inductive Fault where
  | no_identifier_in_definition
  | incomplete_argument_sequence
  | no_condition_token
  | definition_not_found
  | not_a_function_definition
  | wrong_argument_count
  | null_dereference
  | out_of_fuel
  deriving DecidableEq, Repr

/-- Result of a step: it returns `a` in state `c`, or halts with a fault in the
state reached when the fault fires. -/
inductive Outcome (α : Type) where
  | ok (a : α) (c : compile_process)
  | halt (e : Fault) (c : compile_process)
  deriving DecidableEq, Repr

/-! ## Operations of `preprocessor.c` -/

def preprocessor_function_arguments_create : preprocessor_function_arguments :=
  { arguments := [] }

def preprocessor_function_arguments_count (arguments : preprocessor_function_arguments) : Nat :=
  arguments.arguments.length

def preprocessor_function_argument_push (arguments : preprocessor_function_arguments)
    (value_vec : List token) : preprocessor_function_arguments :=
  { arguments := arguments.arguments ++ [{ tokens := value_vec }] }

def compiler_preprocessor (compiler : compile_process) : preprocessor :=
  compiler.preprocessor

def preprocessor_next_token (compiler : compile_process) : Option token × compile_process :=
  ((vector_peek compiler.token_vec_original).1,
    { compiler with token_vec_original := (vector_peek compiler.token_vec_original).2 })

def preprocessor_next_token_no_increment (compiler : compile_process) : Option token :=
  vector_peek_no_increment compiler.token_vec_original

def preprocessor_token_push_dst (compiler : compile_process) (t : token) : compile_process :=
  { compiler with token_vec := compiler.token_vec ++ [t] }

def preprocessor_token_vec_push_dst (compiler : compile_process) :
    List token → compile_process
  | [] => compiler
  | t :: rest =>
    preprocessor_token_vec_push_dst { compiler with token_vec := compiler.token_vec ++ [t] } rest

def preprocessor_token_is_preprocessor_keyword : token → Bool
  | .identifier s =>
    S_EQ (some s) (some "define") || S_EQ (some s) (some "if") || S_EQ (some s) (some "ifdef")
      || S_EQ (some s) (some "ifndef") || S_EQ (some s) (some "endif")
  | _ => false

def preprocessor_token_is_define (t : token) : Bool :=
  if !preprocessor_token_is_preprocessor_keyword t then false
  else S_EQ t.sval? (some "define")

def preprocessor_token_is_ifdef (t : token) : Bool :=
  if !preprocessor_token_is_preprocessor_keyword t then false
  else S_EQ t.sval? (some "ifdef")

def preprocessor_hashtag_and_identifier (compiler : compile_process) (str : String) :
    Option token × compile_process :=
  if (preprocessor_next_token_no_increment compiler).isNone then (none, compiler)
  else if !token_is_symbol (preprocessor_next_token_no_increment compiler) '#' then
    (none, compiler)
  else
    let c1 := { compiler with token_vec_original := vector_save compiler.token_vec_original }
    let c2 := (preprocessor_next_token c1).2
    let target_token := preprocessor_next_token_no_increment c2
    if token_is_identifier target_token str then
      let c3 := (preprocessor_next_token c2).2
      (target_token, { c3 with token_vec_original := vector_save_purge c3.token_vec_original })
    else
      (none, { c2 with token_vec_original := vector_restore c2.token_vec_original })

def preprocessor_get_definition :
    List preprocessor_definition → Option String → Option preprocessor_definition
  | [], _ => none
  | definition :: rest, name =>
    if S_EQ definition.name name then some definition
    else preprocessor_get_definition rest name

def preprocessor_token_is_definition_identifier (compiler : compile_process) : token → Bool
  | .identifier s =>
    (preprocessor_get_definition compiler.preprocessor.definitions (some s)).isSome
  | _ => false

def preprocessor_definition_create (name : Option String) (value_vec : List token)
    (arguments : List String) : preprocessor_definition :=
  let definition : preprocessor_definition :=
    { type := PREPROCESSOR_DEFINITION_STANDARD, name := name, value := value_vec,
      arguments := arguments }
  if definition.arguments.length ≠ 0 then
    { definition with type := PREPROCESSOR_DEFINITION_MACRO_FUNCTION }
  else definition

/-- The `while (value_token)` loop of `preprocessor_multi_value_insert_to_vector`. -/
def preprocessor_multi_value_insert_loop :
    Nat → compile_process → Option token → List token → Outcome (List token)
  | _, c, none, value_token_vec => .ok value_token_vec c
  | 0, c, some _, _ => .halt .out_of_fuel c
  | fuel + 1, c, some value_token, value_token_vec =>
    if value_token = .newline then .ok value_token_vec c
    else if token_is_symbol (some value_token) '\\' then
      let c1 := (preprocessor_next_token c).2
      let r := preprocessor_next_token c1
      preprocessor_multi_value_insert_loop fuel r.2 r.1 value_token_vec
    else
      let r := preprocessor_next_token c
      preprocessor_multi_value_insert_loop fuel r.2 r.1 (value_token_vec ++ [value_token])

def preprocessor_multi_value_insert_to_vector (fuel : Nat) (compiler : compile_process)
    (value_token_vec : List token) : Outcome (List token) :=
  let r := preprocessor_next_token compiler
  preprocessor_multi_value_insert_loop fuel r.2 r.1 value_token_vec

/-- The `while (!token_is_symbol(next_token, ')'))` loop of
`preprocessor_handle_definition_token`. -/
def preprocessor_handle_definition_arguments_loop (fuel : Nat) (c : compile_process)
    (next_token : Option token) (arguments : List String) : Outcome (List String) :=
  if token_is_symbol next_token ')' then .ok arguments c
  else
    match fuel with
    | 0 => .halt .out_of_fuel c
    | fuel + 1 =>
      match next_token with
      | none => .halt .null_dereference c
      | some (.identifier sval) =>
        let r := preprocessor_next_token c
        if !token_is_operator r.1 "," && !token_is_symbol r.1 ')' then
          .halt .incomplete_argument_sequence r.2
        else if token_is_symbol r.1 ')' then .ok (vector_push_text arguments sval) r.2
        else
          let r2 := preprocessor_next_token r.2
          preprocessor_handle_definition_arguments_loop fuel r2.2 r2.1
            (vector_push_text arguments sval)
      | some _ => .halt .no_identifier_in_definition c

def preprocessor_handle_definition_token (fuel : Nat) (compiler : compile_process) :
    Outcome Unit :=
  let r := preprocessor_next_token compiler
  let name_token := r.1
  let parsed : Outcome (List String) :=
    if token_is_operator (preprocessor_next_token_no_increment r.2) "(" then
      let c1 := (preprocessor_next_token r.2).2
      let r2 := preprocessor_next_token c1
      preprocessor_handle_definition_arguments_loop fuel r2.2 r2.1 []
    else .ok [] r.2
  match parsed with
  | .halt e c => .halt e c
  | .ok arguments c2 =>
    match preprocessor_multi_value_insert_to_vector fuel c2 [] with
    | .halt e c => .halt e c
    | .ok value_token_vec c3 =>
      match name_token with
      | none => .halt .null_dereference c3
      | some name_token =>
        let definition :=
          preprocessor_definition_create name_token.sval? value_token_vec arguments
        .ok () { c3 with preprocessor :=
          { definitions := c3.preprocessor.definitions ++ [definition] } }

/-- The `while` loop of `preprocessor_handle_ifdef_token`; `handle_token` is the
re-entry into `preprocessor_handle_token`. -/
def preprocessor_handle_ifdef_loop (handle_token : compile_process → Option token → Outcome Unit)
    (definition : Option preprocessor_definition) (fuel : Nat) (c : compile_process) :
    Outcome Unit :=
  if (preprocessor_next_token_no_increment c).isNone then .ok () c
  else
    let r := preprocessor_hashtag_and_identifier c "endif"
    if r.1.isSome then .ok () r.2
    else
      match fuel with
      | 0 => .halt .out_of_fuel r.2
      | fuel + 1 =>
        if definition.isSome then
          let n := preprocessor_next_token r.2
          match handle_token n.2 n.1 with
          | .halt e c1 => .halt e c1
          | .ok _ c1 => preprocessor_handle_ifdef_loop handle_token definition fuel c1
        else
          preprocessor_handle_ifdef_loop handle_token definition fuel
            (preprocessor_next_token r.2).2

def preprocessor_handle_ifdef_token (handle_token : compile_process → Option token → Outcome Unit)
    (fuel : Nat) (compiler : compile_process) : Outcome Unit :=
  let r := preprocessor_next_token compiler
  match r.1 with
  | none => .halt .no_condition_token r.2
  | some condition_token =>
    let definition :=
      preprocessor_get_definition (compiler_preprocessor r.2).definitions condition_token.sval?
    preprocessor_handle_ifdef_loop handle_token definition fuel r.2

def preprocessor_handle_identifier_macro_call_argument
    (arguments : preprocessor_function_arguments) (token_vec : List token) :
    preprocessor_function_arguments :=
  preprocessor_function_argument_push arguments token_vec

/-- Returns the next token to parse, the state, the accumulator `value_vec` and
the argument record. -/
def preprocessor_handle_identifier_macro_call_argument_parse (compiler : compile_process)
    (value_vec : List token) (arguments : preprocessor_function_arguments) (t : token) :
    Option token × compile_process × List token × preprocessor_function_arguments :=
  if token_is_symbol (some t) ')' then
    (none, compiler, value_vec,
      preprocessor_handle_identifier_macro_call_argument arguments value_vec)
  else if token_is_operator (some t) "," then
    let r := preprocessor_next_token compiler
    (r.1, r.2, [], preprocessor_handle_identifier_macro_call_argument arguments value_vec)
  else
    let r := preprocessor_next_token compiler
    (r.1, r.2, value_vec ++ [t], arguments)

/-- The counting loop of `preprocessor_definition_argument_exists` over the
elements of the parameter vector: `current` is read as the string that starts
at the element. -/
def preprocessor_definition_argument_exists_loop : List String → Option String → Int → Int
  | [], _, _ => -1
  | current :: rest, name, i =>
    if S_EQ (vector_slot_string (current :: rest)) name then i
    else preprocessor_definition_argument_exists_loop rest name (i + 1)

def preprocessor_definition_argument_exists (definition : preprocessor_definition)
    (name : Option String) : Int :=
  preprocessor_definition_argument_exists_loop definition.arguments name 0

def preprocessor_function_argument_at (arguments : preprocessor_function_arguments)
    (index : Int) : Option preprocessor_function_argument :=
  if index < 0 then none else arguments.arguments[index.toNat]?

/-- The `while (token)` loop of `preprocessor_function_argument_push_to_vec`. -/
def preprocessor_function_argument_push_to_vec_loop : List token → List token → List token
  | [], vector_out => vector_out
  | t :: rest, vector_out =>
    preprocessor_function_argument_push_to_vec_loop rest (vector_out ++ [t])

def preprocessor_function_argument_push_to_vec (argument : preprocessor_function_argument)
    (vector_out : List token) : List token :=
  preprocessor_function_argument_push_to_vec_loop argument.tokens vector_out

/-- The `while (token)` loop of `preprocessor_macro_function_execute` over the
definition's value, filling `value_vec_target`. -/
def preprocessor_macro_function_execute_loop (compiler : compile_process)
    (definition : preprocessor_definition) (arguments : preprocessor_function_arguments) :
    List token → List token → Outcome (List token)
  | [], value_vec_target => .ok value_vec_target compiler
  | t :: rest, value_vec_target =>
    match t with
    | .identifier sval =>
      let argument_index := preprocessor_definition_argument_exists definition (some sval)
      if argument_index ≠ -1 then
        match preprocessor_function_argument_at arguments argument_index with
        | none => .halt .null_dereference compiler
        | some argument =>
          preprocessor_macro_function_execute_loop compiler definition arguments rest
            (preprocessor_function_argument_push_to_vec argument value_vec_target)
      else
        preprocessor_macro_function_execute_loop compiler definition arguments rest
          (value_vec_target ++ [t])
    | _ =>
      preprocessor_macro_function_execute_loop compiler definition arguments rest
        (value_vec_target ++ [t])

def preprocessor_macro_function_execute (compiler : compile_process)
    (function_name : Option String) (arguments : preprocessor_function_arguments) :
    Outcome Unit :=
  match preprocessor_get_definition (compiler_preprocessor compiler).definitions
      function_name with
  | none => .halt .definition_not_found compiler
  | some definition =>
    if definition.type ≠ PREPROCESSOR_DEFINITION_MACRO_FUNCTION then
      .halt .not_a_function_definition compiler
    else if definition.arguments.length ≠ preprocessor_function_arguments_count arguments then
      .halt .wrong_argument_count compiler
    else
      match preprocessor_macro_function_execute_loop compiler definition arguments
          definition.value [] with
      | .halt e c => .halt e c
      | .ok value_vec_target c => .ok () (preprocessor_token_vec_push_dst c value_vec_target)

/-- The `while (token)` loop of `preprocessor_handle_identifier_macro_call_arguments`. -/
def preprocessor_handle_identifier_macro_call_arguments_loop :
    Nat → compile_process → List token → preprocessor_function_arguments → Option token →
      Outcome preprocessor_function_arguments
  | _, c, _, arguments, none => .ok arguments c
  | 0, c, _, _, some _ => .halt .out_of_fuel c
  | fuel + 1, c, value_vec, arguments, some t =>
    let r := preprocessor_handle_identifier_macro_call_argument_parse c value_vec arguments t
    preprocessor_handle_identifier_macro_call_arguments_loop fuel r.2.1 r.2.2.1 r.2.2.2 r.1

def preprocessor_handle_identifier_macro_call_arguments (fuel : Nat)
    (compiler : compile_process) : Outcome preprocessor_function_arguments :=
  let c1 := (preprocessor_next_token compiler).2
  let arguments := preprocessor_function_arguments_create
  let r := preprocessor_next_token c1
  preprocessor_handle_identifier_macro_call_arguments_loop fuel r.2 [] arguments r.1

def preprocessor_handle_identifier (fuel : Nat) (compiler : compile_process) (t : token) :
    Outcome Unit :=
  match preprocessor_get_definition compiler.preprocessor.definitions t.sval? with
  | none => .ok () (preprocessor_token_push_dst compiler t)
  | some definition =>
    if token_is_operator (preprocessor_next_token_no_increment compiler) "(" then
      match preprocessor_handle_identifier_macro_call_arguments fuel compiler with
      | .halt e c => .halt e c
      | .ok arguments c =>
        let function_name := t.sval?
        preprocessor_macro_function_execute c function_name arguments
    else .ok () (preprocessor_token_vec_push_dst compiler definition.value)

def preprocessor_handle_hashtag_token
    (handle_token : compile_process → Option token → Outcome Unit) (fuel : Nat)
    (compiler : compile_process) : Outcome Bool :=
  let r := preprocessor_next_token compiler
  match r.1 with
  | none => .halt .null_dereference r.2
  | some next_token =>
    if preprocessor_token_is_define next_token then
      match preprocessor_handle_definition_token fuel r.2 with
      | .halt e c => .halt e c
      | .ok _ c => .ok true c
    else if preprocessor_token_is_ifdef next_token then
      match preprocessor_handle_ifdef_token handle_token fuel r.2 with
      | .halt e c => .halt e c
      | .ok _ c => .ok true c
    else .ok false r.2

/-- Modelled from the spec: the `cval` member of `struct token`, the character of a
symbol token. -/
def token.cval? : token → Option Char
  | .symbol c => some c
  | _ => none

def preprocessor_handle_symbol (handle_token : compile_process → Option token → Outcome Unit)
    (fuel : Nat) (compiler : compile_process) (t : token) : Outcome Unit :=
  let r : Outcome Bool :=
    if t.cval? = some '#' then preprocessor_handle_hashtag_token handle_token fuel compiler
    else .ok false compiler
  match r with
  | .halt e c => .halt e c
  | .ok is_preprocessed c =>
    if !is_preprocessed then .ok () (preprocessor_token_push_dst c t) else .ok () c

/-- The dispatch on the token kind; `fuel` is the step budget handed down to the
loops and to the re-entry from a conditional block. -/
def preprocessor_handle_token : Nat → compile_process → Option token → Outcome Unit
  | 0, c, _ => .halt .out_of_fuel c
  | _ + 1, c, none => .halt .null_dereference c
  | fuel + 1, c, some t =>
    match t with
    | .symbol _ => preprocessor_handle_symbol (preprocessor_handle_token fuel) fuel c t
    | .identifier _ => preprocessor_handle_identifier fuel c t
    | .newline => .ok () c
    | _ => .ok () (preprocessor_token_push_dst c t)

/-- The `while (token)` loop of `preprocessor_run`; `fuel` bounds the iterations
left, and each dispatch gets a budget above it. -/
def preprocessor_run_loop : Nat → compile_process → Option token → Outcome Unit
  | _, c, none => .ok () c
  | 0, c, some _ => .halt .out_of_fuel c
  | fuel + 1, c, some t =>
    match preprocessor_handle_token (fuel + 2) c (some t) with
    | .halt e c1 => .halt e c1
    | .ok _ c1 =>
      let r := preprocessor_next_token c1
      preprocessor_run_loop fuel r.2 r.1

/-- The pass over the whole input (the unused `file` argument is left out); the
step budget is the input length, every loop iteration consuming a token. -/
def preprocessor_run (compiler : compile_process) : Outcome Unit :=
  let c0 := { compiler with
    token_vec_original := vector_set_peek_pointer compiler.token_vec_original 0 }
  let r := preprocessor_next_token c0
  preprocessor_run_loop compiler.token_vec_original.data.length r.2 r.1

/-! ## Vocabulary of the statements -/

open token

/-- The tokens of the source cursor that are not consumed yet. -/
def remaining (c : compile_process) : List token :=
  c.token_vec_original.data.drop c.token_vec_original.pindex

/-- The state with the source cursor moved `n` tokens forward, all else equal. -/
def advance (c : compile_process) (n : Nat) : compile_process :=
  { c with token_vec_original :=
      { c.token_vec_original with pindex := c.token_vec_original.pindex + n } }

/-- The state with input `data` read up to `pindex`, saved positions `saves`,
destination `dst` and table `defs`. -/
def state_of (data : List token) (pindex : Nat) (saves : List Nat) (dst : List token)
    (defs : List preprocessor_definition) : compile_process :=
  { token_vec_original := { data := data, pindex := pindex, saves := saves },
    token_vec := dst, preprocessor := { definitions := defs } }

/-- From the spec: the token sequence a replacement token stands for in a function
macro expansion: the token sequence of the call argument at the position of the
first parameter the identifier is named after, and the token itself when it is
not an identifier named after a parameter. -/
def substitute_token (parameters : List String) (arguments : List (List token))
    (t : token) : List token :=
  match t with
  | .identifier s =>
    match parameters.indexOf? s with
    | some i => (arguments[i]?).getD []
    | none => [t]
  | _ => [t]

/-- From the spec: the expansion of a function macro call, the concatenation over
the replacement tokens, in order, of what each stands for. -/
def macro_expansion (d : preprocessor_definition)
    (arguments : preprocessor_function_arguments) : List token :=
  d.value.flatMap (substitute_token d.arguments (arguments.arguments.map (fun a => a.tokens)))

/-- The definition stored for `#define ADD(a,b) a + b`. -/
def example_ADD : preprocessor_definition :=
  { type := PREPROCESSOR_DEFINITION_MACRO_FUNCTION, name := some "ADD",
    value := [identifier "a", operator "+", identifier "b"], arguments := ["a", "b"] }

/-- The definition stored for `#define X 5`. -/
def example_X : preprocessor_definition :=
  { type := PREPROCESSOR_DEFINITION_STANDARD, name := some "X", value := [number 5],
    arguments := [] }

/-- The state an outcome ends in. -/
def Outcome.state {α : Type} : Outcome α → compile_process
  | .ok _ c => c
  | .halt _ c => c

/-- The fault of an outcome, if it halted. -/
def Outcome.fault? {α : Type} : Outcome α → Option Fault
  | .ok _ _ => none
  | .halt e _ => some e

/-- Number of tokens of the source cursor that are not consumed yet. -/
def rlen (c : compile_process) : Nat := (remaining c).length

/-- State `c'` comes after `c` in a pass: same input sequence and saved
positions, the cursor not moved back, destination and table only appended to. -/
structure follows (c c' : compile_process) : Prop where
  data_eq : c'.token_vec_original.data = c.token_vec_original.data
  saves_eq : c'.token_vec_original.saves = c.token_vec_original.saves
  pindex_le : c.token_vec_original.pindex ≤ c'.token_vec_original.pindex
  dst_grows : c.token_vec <+: c'.token_vec
  defs_grows : c.preprocessor.definitions <+: c'.preprocessor.definitions

/-- What the conditional block handler needs of the routine it re-enters with
step budget `F`: it leaves a state that follows the one it got, and does not
exhaust the budget when the budget exceeds the tokens left. -/
def handler_ok (F : Nat) (h : compile_process → Option token → Outcome Unit) : Prop :=
  ∀ c tok, follows c (h c tok).state ∧
    (rlen c + 1 ≤ F → (h c tok).fault? ≠ some .out_of_fuel)

/-- A token sequence that `#define` stores verbatim as a value: it holds no
newline token and no `\` symbol. -/
def verbatim_value (V : List token) : Prop :=
  ∀ t ∈ V, t ≠ newline ∧ t ≠ symbol '\\'

/-- The state with definition `d` appended to the table, all else equal. -/
def with_definition (c : compile_process) (d : preprocessor_definition) : compile_process :=
  { c with preprocessor := { definitions := c.preprocessor.definitions ++ [d] } }

/-- The directive text `#define N V` on a line of its own. -/
def define_line (N : String) (V : List token) : List token :=
  symbol '#' :: identifier "define" :: identifier N :: (V ++ [newline])

/-- The state with `v` appended to the destination, all else equal. -/
def with_output (c : compile_process) (v : List token) : compile_process :=
  { c with token_vec := c.token_vec ++ v }

/-- A token the dispatcher does not act on: neither the `#` symbol nor an
identifier with a definition in `defs`. -/
def inert (defs : List preprocessor_definition) (t : token) : Prop :=
  t ≠ symbol '#' ∧ ∀ s, t = identifier s → preprocessor_get_definition defs (some s) = none

/-- The two tokens that close a conditional block. -/
def endif_pair : List token := [symbol '#', identifier "endif"]

/-- The definition stored for `#define N` (empty value). -/
def example_N : preprocessor_definition :=
  { type := PREPROCESSOR_DEFINITION_STANDARD, name := some "N", value := [], arguments := [] }

/-- The argument record the call parser ends with when, holding the accumulator
`value_vec` and the record `arguments`, it reads the tokens `A` (none of them
the `)` symbol) and then the closing `)`: every `,` operator closes the
current argument, the `)` closes the last one. -/
def collect_arguments (value_vec : List token) (arguments : preprocessor_function_arguments) :
    List token → preprocessor_function_arguments
  | [] => preprocessor_function_argument_push arguments value_vec
  | t :: rest =>
    if token_is_operator (some t) "," then
      collect_arguments [] (preprocessor_function_argument_push arguments value_vec) rest
    else collect_arguments (value_vec ++ [t]) arguments rest

/-- What dispatching a token appends when the token is neither `#` nor the start
of a macro call: nothing for a newline, the replacement for an identifier with
a definition, the token itself otherwise. -/
def dispatch_output (defs : List preprocessor_definition) (t : token) : List token :=
  match t with
  | .newline => []
  | .identifier s =>
    match preprocessor_get_definition defs (some s) with
    | some d => d.value
    | none => [t]
  | _ => [t]

/-- The state `c` with the source cursor replaced by `w`. -/
def set_cursor (c : compile_process) (w : vector) : compile_process :=
  { c with token_vec_original := w }

/-- Every call of a defined macro in the token sequence is closed inside it: an
identifier with a definition that is followed by the `(` operator is also
followed, further on in the sequence, by a `)` symbol (the first of which ends
the call), and what comes after that `)` is closed in the same way. -/
inductive calls_closed (defs : List preprocessor_definition) : List token → Prop where
  | nil : calls_closed defs []
  | no_call (t : token) (rest : List token) :
      (∀ s, t = identifier s → preprocessor_get_definition defs (some s) ≠ none →
        rest.head? ≠ some (operator "(")) →
      calls_closed defs rest → calls_closed defs (t :: rest)
  | call (s : String) (A rest : List token) :
      preprocessor_get_definition defs (some s) ≠ none → symbol ')' ∉ A →
      calls_closed defs rest →
      calls_closed defs (identifier s :: operator "(" :: (A ++ symbol ')' :: rest))

/-- Outcome `rb` is outcome `ra` up to the source cursor: the same success with
the cursor `w`, or the same fault, on states equal in destination and table. -/
def mirrors (w : vector) (ra rb : Outcome Unit) : Prop :=
  match ra with
  | .ok _ x => rb = .ok () (set_cursor x w)
  | .halt e x => ∃ w', rb = .halt e (set_cursor x w')

/-- The definition stored for `#define F(a) a`. -/
def example_F : preprocessor_definition :=
  { type := PREPROCESSOR_DEFINITION_MACRO_FUNCTION, name := some "F",
    value := [identifier "a"], arguments := ["a"] }

/-- The definition stored for `#define M 9`. -/
def example_M : preprocessor_definition :=
  { type := PREPROCESSOR_DEFINITION_STANDARD, name := some "M", value := [number 9],
    arguments := [] }

/-- The definition stored for `#define Y M + 1`. -/
def example_Y : preprocessor_definition :=
  { type := PREPROCESSOR_DEFINITION_STANDARD, name := some "Y",
    value := [identifier "M", operator "+", number 1], arguments := [] }

/-- `struct preprocessor_exp_node`: the child pointers (an address, or null) and
the operator text of an expression node. -/
structure preprocessor_exp_node where
  left : Option Nat
  right : Option Nat
  op : Option String
  deriving DecidableEq, Repr

/-- `struct preprocessor_node`, with the members the expression callbacks use:
the node kind, the constant value, the expression member and the name. -/
structure preprocessor_node where
  type : Nat
  const_val : Nat
  exp : preprocessor_exp_node
  sval : Option String
  deriving DecidableEq, Repr

def preprocessor_get_left_node (target_node : preprocessor_node) : Option Nat :=
  target_node.exp.left

def preprocessor_get_right_node (target_node : preprocessor_node) : Option Nat :=
  target_node.exp.right

def preprocessor_get_node_operator (target_node : preprocessor_node) : Option String :=
  target_node.exp.op

/-- The three assignments of the source, in order: `exp.left = left_node`,
`exp.right = left_node`, `exp.op = op`.  The argument `_right_node` is the
`right_node` of the source, which no assignment reads; the `expressionable`
argument of the callbacks is left out, none of them reads it. -/
def preprocessor_set_expression_node (node : preprocessor_node) (left_node : Option Nat)
    (_right_node : Option Nat) (op : Option String) : preprocessor_node :=
  let n1 := { node with exp := { node.exp with left := left_node } }
  let n2 := { n1 with exp := { n1.exp with right := left_node } }
  { n2 with exp := { n2.exp with op := op } }

/-! ## `helper.c` -/

namespace helper

/-- Modelled from the spec: a variable declaration node of `compiler.h` (absent), with
the members `struct_offset` reads: `var.name` and `var.type.size`. -/
structure var_node where
  name : Option String
  size : Nat
  deriving DecidableEq, Repr

/-- Modelled from the spec: the node kinds of `compiler.h` (absent) that
`struct_offset` tells apart. -/
inductive node_type where
  | NODE_TYPE_STRUCT
  | NODE_TYPE_OTHER
  deriving DecidableEq, Repr

/-- Modelled from the spec: `struct node` of `compiler.h` (absent), with the members
`struct_offset` reads: the kind and, for a struct, the statements of its body
(`_struct.body_n->body.statements`), a sequence of variable nodes. -/
structure node where
  type : node_type
  statements : List var_node
  deriving DecidableEq, Repr

/-- Modelled from the spec: the symbol kinds of `compiler.h` (absent). -/
inductive symbol_type where
  | SYMBOL_TYPE_NODE
  | SYMBOL_TYPE_NATIVE_FUNCTION
  | SYMBOL_TYPE_UNKNOWN
  deriving DecidableEq, Repr

/-- Modelled from the spec: `struct symbol` of `compiler.h` (absent): the kind and
the node it stands for. -/
structure symbol where
  type : symbol_type
  data : node
  deriving DecidableEq, Repr

/-- The `int` that `position += size` leaves: the sum reduced to 32 bits, two's
complement. -/
def int_add_size (position : Int) (size : Nat) : Int :=
  (position + size + 2 ^ 31) % 2 ^ 32 - 2 ^ 31

/-- The `while (var_node_cur)` loop of `struct_offset` over the statements from
the peek position on; returns `position` and what `*var_node_out` holds. -/
def struct_offset_loop : List var_node → Option String → Int → Option var_node →
    Int × Option var_node
  | [], _, position, var_node_out => (position, var_node_out)
  | var_node_cur :: rest, var_name, position, _ =>
    if S_EQ var_node_cur.name var_name then (position, some var_node_cur)
    else
      struct_offset_loop rest var_name (int_add_size position var_node_cur.size)
        (some var_node_cur)

/-- The function `struct_offset`; `symresolver_get_symbol` (of the absent symbol
resolver) is a parameter, `var_node_out` is what the out-pointer holds before
the call, and the result is nothing when an assertion fails or the symbol is
absent, else the returned position and what the out-pointer holds. -/
def struct_offset (symresolver_get_symbol : String → Option symbol) (struct_name : String)
    (var_name : Option String) (var_node_out : Option var_node) :
    Option (Int × Option var_node) :=
  match symresolver_get_symbol struct_name with
  | none => none
  | some struct_sym =>
    if struct_sym.type ≠ symbol_type.SYMBOL_TYPE_NODE then none
    else
      let node := struct_sym.data
      if node.type ≠ node_type.NODE_TYPE_STRUCT then none
      else some (struct_offset_loop node.statements var_name 0 var_node_out)

/-- The symbol of `struct abc { int a; int b; }` with 4-byte `int`. -/
def example_abc : symbol :=
  { type := symbol_type.SYMBOL_TYPE_NODE,
    data :=
      { type := node_type.NODE_TYPE_STRUCT,
        statements := [{ name := some "a", size := 4 }, { name := some "b", size := 4 }] } }

end helper

/-- The tokens of the well-formed start of a parameter list: each name of `ps`
followed by the `,` operator. -/
def parameter_start (ps : List String) : List token :=
  ps.flatMap (fun p => [identifier p, operator ","])

/-- A relation between states that every step of a pass respects: it is
reflexive and transitive, and holds from a state to the same state with the
cursor moved forward, with tokens appended to the destination, or with a
definition built by `preprocessor_definition_create` appended to the table. -/
structure pass_closed (R : compile_process → compile_process → Prop) : Prop where
  refl : ∀ c, R c c
  trans : ∀ a b c, R a b → R b c → R a c
  moved : ∀ c n, R c (advance c n)
  output : ∀ c v, R c (with_output c v)
  defined : ∀ c name value arguments,
    R c (with_definition c (preprocessor_definition_create name value arguments))

/-- The kind invariant of a definition: it is function-like exactly when its
parameter list is not empty. -/
def kind_invariant (d : preprocessor_definition) : Prop :=
  d.type = PREPROCESSOR_DEFINITION_MACRO_FUNCTION ↔ d.arguments ≠ []

/-- Every name of the list fits an element of the parameter vector together
with its terminator: it has fewer than `sizeof(const char *)` characters. -/
def short_names (ps : List String) : Prop :=
  ∀ p ∈ ps, p.length < sizeof_const_char_pointer

/-! ## The token cursor -/

theorem remaining_advance (c : compile_process) (n : Nat) :
    remaining (advance c n) = (remaining c).drop n := by
  simp [remaining, advance, List.drop_drop, Nat.add_comm]

theorem advance_zero (c : compile_process) : advance c 0 = c := rfl

theorem advance_advance (c : compile_process) (m n : Nat) :
    advance (advance c m) n = advance c (m + n) := by
  simp [advance, Nat.add_assoc]

theorem next_token_eq (c : compile_process) :
    preprocessor_next_token c =
      match remaining c with
      | [] => (none, c)
      | t :: _ => (some t, advance c 1) := by
  unfold preprocessor_next_token vector_peek remaining advance
  cases h : List.drop c.token_vec_original.pindex c.token_vec_original.data <;> simp

theorem next_token_nil {c : compile_process} (h : remaining c = []) :
    preprocessor_next_token c = (none, c) := by
  rw [next_token_eq, h]

theorem next_token_cons {c : compile_process} {t : token} {r : List token}
    (h : remaining c = t :: r) : preprocessor_next_token c = (some t, advance c 1) := by
  rw [next_token_eq, h]

theorem peek_eq (c : compile_process) :
    preprocessor_next_token_no_increment c = (remaining c).head? := rfl

theorem remaining_advance_one {c : compile_process} {t : token} {r : List token}
    (h : remaining c = t :: r) : remaining (advance c 1) = r := by
  rw [remaining_advance, h]; rfl

theorem hashtag_and_identifier_match {c : compile_process} {str : String} {rest : List token}
    (h : remaining c = symbol '#' :: identifier str :: rest) :
    preprocessor_hashtag_and_identifier c str = (some (identifier str), advance c 2) := by
  have h1 : remaining (advance { c with token_vec_original := vector_save c.token_vec_original } 1)
      = identifier str :: rest := by
    exact remaining_advance_one (c := { c with token_vec_original := vector_save c.token_vec_original }) h
  have h0 : remaining { c with token_vec_original := vector_save c.token_vec_original }
      = symbol '#' :: identifier str :: rest := h
  unfold preprocessor_hashtag_and_identifier
  simp only [peek_eq, h, next_token_cons h0, h1, next_token_cons h1]
  simp [token_is_symbol, token_is_identifier, advance, vector_save, vector_save_purge]

theorem hashtag_and_identifier_mismatch {c : compile_process} {str : String}
    (h : ¬ ∃ rest, remaining c = symbol '#' :: identifier str :: rest) :
    preprocessor_hashtag_and_identifier c str = (none, c) := by
  unfold preprocessor_hashtag_and_identifier
  simp only [peek_eq]
  cases hr : remaining c with
  | nil => simp
  | cons t r =>
    by_cases ht : t = symbol '#'
    · subst ht
      have h0 : remaining { c with token_vec_original := vector_save c.token_vec_original }
          = symbol '#' :: r := hr
      have h1 : remaining
          (advance { c with token_vec_original := vector_save c.token_vec_original } 1) = r :=
        remaining_advance_one h0
      have hid : token_is_identifier r.head? str = false := by
        cases r with
        | nil => rfl
        | cons u r' =>
          cases u <;> simp [token_is_identifier]
          rename_i s
          intro hs; subst hs
          exact h ⟨r', hr⟩
      simp only [next_token_cons h0, h1, hid]
      simp [token_is_symbol, advance, vector_save, vector_restore]
    · have : token_is_symbol (some t) '#' = false := by
        cases t <;> simp [token_is_symbol]
        rename_i ch
        intro hc; subst hc; exact ht rfl
      simp [this]

/-! ## Destination pushes -/

theorem token_vec_push_dst_eq (c : compile_process) (v : List token) :
    preprocessor_token_vec_push_dst c v = { c with token_vec := c.token_vec ++ v } := by
  induction v generalizing c with
  | nil => simp [preprocessor_token_vec_push_dst]
  | cons t r ih => simp [preprocessor_token_vec_push_dst, ih]

theorem argument_push_to_vec_loop_eq (v out : List token) :
    preprocessor_function_argument_push_to_vec_loop v out = out ++ v := by
  induction v generalizing out with
  | nil => simp [preprocessor_function_argument_push_to_vec_loop]
  | cons t r ih => simp [preprocessor_function_argument_push_to_vec_loop, ih]

/-! ## The definition table -/

theorem S_EQ_some_iff (a b : String) : S_EQ (some a) (some b) = true ↔ a = b := by
  simp [S_EQ]

theorem get_definition_eq_find (defs : List preprocessor_definition) (name : Option String) :
    preprocessor_get_definition defs name = defs.find? (fun d => S_EQ d.name name) := by
  induction defs with
  | nil => rfl
  | cons d r ih =>
    by_cases h : S_EQ d.name name = true
    · simp [preprocessor_get_definition, h]
    · simp [preprocessor_get_definition, h, ih]

theorem get_definition_append_of_none {defs : List preprocessor_definition}
    {name : Option String} (h : preprocessor_get_definition defs name = none)
    (more : List preprocessor_definition) :
    preprocessor_get_definition (defs ++ more) name = preprocessor_get_definition more name := by
  induction defs with
  | nil => rfl
  | cons d r ih =>
    by_cases hd : S_EQ d.name name = true
    · simp [preprocessor_get_definition, hd] at h
    · simp only [preprocessor_get_definition, hd] at h
      simp [preprocessor_get_definition, hd, ih h]

theorem get_definition_append_of_some {defs : List preprocessor_definition}
    {name : Option String} {d : preprocessor_definition}
    (h : preprocessor_get_definition defs name = some d)
    (more : List preprocessor_definition) :
    preprocessor_get_definition (defs ++ more) name = some d := by
  induction defs with
  | nil => simp [preprocessor_get_definition] at h
  | cons x r ih =>
    by_cases hd : S_EQ x.name name = true
    · simp only [preprocessor_get_definition, hd] at h
      simp [preprocessor_get_definition, hd]
      simpa using h
    · simp only [preprocessor_get_definition, hd] at h
      simp [preprocessor_get_definition, hd, ih h]

/-! ## Function-macro execution -/

theorem vector_slot_short {text : String} (h : text.length < sizeof_const_char_pointer) :
    vector_slot text = text := by
  unfold vector_slot
  rw [List.take_of_length_le (Nat.le_of_lt h)]

theorem vector_slot_string_short {slot : String} (rest : List String)
    (h : slot.length < sizeof_const_char_pointer) :
    vector_slot_string (slot :: rest) = some slot := by
  simp [vector_slot_string, h]

theorem short_names_cons {p : String} {ps : List String} (h : short_names (p :: ps)) :
    p.length < sizeof_const_char_pointer ∧ short_names ps :=
  ⟨h p (List.mem_cons_self _ _), fun q hq => h q (List.mem_cons_of_mem _ hq)⟩

theorem argument_exists_loop_eq (ps : List String) (s : String) (i : Int)
    (hshort : short_names ps) :
    preprocessor_definition_argument_exists_loop ps (some s) i =
      match ps.indexOf? s with
      | some k => i + (k : Int)
      | none => -1 := by
  induction ps generalizing i with
  | nil => simp [preprocessor_definition_argument_exists_loop, List.indexOf?]
  | cons p r ih =>
    have hp := short_names_cons hshort
    by_cases h : p = s
    · subst h
      simp [preprocessor_definition_argument_exists_loop, vector_slot_string_short r hp.1, S_EQ,
        List.indexOf?, List.findIdx?_cons]
    · have h' : (p == s) = false := by simpa using h
      simp only [preprocessor_definition_argument_exists_loop,
        vector_slot_string_short r hp.1, S_EQ, h', List.indexOf?,
        List.findIdx?_cons, ih _ hp.2]
      simp only [Bool.false_eq_true, ↓reduceIte]
      rw [List.findIdx?_succ]
      cases hk : List.findIdx? (fun x => x == s) r 0 with
      | none => simp [List.indexOf?, hk]
      | some k =>
        simp only [List.indexOf?, hk, Option.map_some']
        push_cast; ring

theorem indexOf?_lt {ps : List String} {s : String} {k : Nat}
    (h : ps.indexOf? s = some k) : k < ps.length := by
  unfold List.indexOf? at h
  rw [List.findIdx?_eq_some_iff_getElem] at h
  exact h.1

theorem execute_loop_eq (c : compile_process) (d : preprocessor_definition)
    (args : preprocessor_function_arguments)
    (hlen : d.arguments.length = args.arguments.length) (hshort : short_names d.arguments)
    (v target : List token) :
    preprocessor_macro_function_execute_loop c d args v target =
      .ok (target ++ v.flatMap
        (substitute_token d.arguments (args.arguments.map (fun a => a.tokens)))) c := by
  induction v generalizing target with
  | nil => simp [preprocessor_macro_function_execute_loop]
  | cons t r ih =>
    cases t with
    | identifier s =>
      simp only [preprocessor_macro_function_execute_loop,
        preprocessor_definition_argument_exists, argument_exists_loop_eq _ _ _ hshort]
      cases hk : d.arguments.indexOf? s with
      | none =>
        simp [ih, substitute_token, hk]
      | some k =>
        have hlt : k < args.arguments.length := hlen ▸ indexOf?_lt hk
        have hne : (0 : Int) + (k : Int) ≠ -1 := by omega
        simp only [hne, ne_eq, not_false_eq_true, ↓reduceIte, Int.zero_add]
        have hat : preprocessor_function_argument_at args (k : Int)
            = some args.arguments[k] := by
          unfold preprocessor_function_argument_at
          have : ¬ ((k : Int) < 0) := by omega
          simp [this, List.getElem?_eq_getElem hlt]
        simp [hat, ih, substitute_token, hk, preprocessor_function_argument_push_to_vec,
          argument_push_to_vec_loop_eq, List.getElem?_eq_getElem hlt]
    | _ => simp [preprocessor_macro_function_execute_loop, ih, substitute_token]

/-- Function-macro execution where every parameter name fits its element of the
parameter vector.  When `function_name` resolves to a function-like definition
`d` whose parameter names all have fewer than 8 characters, and the call has as
many arguments as `d` has parameters, `preprocessor_macro_function_execute`
succeeds and appends to the destination exactly the concatenation, over the
tokens of the replacement of `d` in order, of the argument's token sequence
for an identifier named after a parameter and of the token itself otherwise;
cursor and table are untouched. -/
theorem macro_function_execute_substitutes (c : compile_process) (function_name : String)
    (d : preprocessor_definition) (arguments : preprocessor_function_arguments)
    (hdef : preprocessor_get_definition c.preprocessor.definitions (some function_name) = some d)
    (hkind : d.type = PREPROCESSOR_DEFINITION_MACRO_FUNCTION)
    (hlen : preprocessor_function_arguments_count arguments = d.arguments.length)
    (hshort : short_names d.arguments) :
    preprocessor_macro_function_execute c (some function_name) arguments =
      .ok () { c with token_vec := c.token_vec ++ macro_expansion d arguments } := by
  unfold preprocessor_macro_function_execute compiler_preprocessor
  have hlen' : d.arguments.length = arguments.arguments.length := hlen.symm
  simp only [hdef, hkind, ne_eq, not_true_eq_false, ↓reduceIte,
    preprocessor_function_arguments_count, hlen', execute_loop_eq c d arguments hlen' hshort,
    token_vec_push_dst_eq, List.nil_append, macro_expansion]

/-- The instance of the spec: `ADD(a,b)` with value `a + b` invoked as `ADD(1,2)`
appends `1`, `+`, `2`. -/
theorem macro_function_execute_substitutes_witness :
    preprocessor_macro_function_execute (state_of [] 0 [] [] [example_ADD])
      (some "ADD") { arguments := [{ tokens := [number 1] }, { tokens := [number 2] }] } =
    .ok () (state_of [] 0 [] [number 1, operator "+", number 2] [example_ADD]) :=
  macro_function_execute_substitutes (state_of [] 0 [] [] [example_ADD]) "ADD" example_ADD
    { arguments := [{ tokens := [number 1] }, { tokens := [number 2] }] } (by decide) rfl rfl
    (by unfold short_names; decide)

/-- C3: object-macro expansion is a single verbatim copy.  When `X` has the
definition `d` and the peeked next token is not the `(` operator,
`preprocessor_handle_identifier` appends exactly the replacement of `d` to the
destination; the cursor and the definition table are those of the state
before. -/
theorem handle_identifier_object_copy (fuel : Nat) (c : compile_process) (X : String)
    (d : preprocessor_definition)
    (hdef : preprocessor_get_definition c.preprocessor.definitions (some X) = some d)
    (hnext : token_is_operator (preprocessor_next_token_no_increment c) "(" = false) :
    preprocessor_handle_identifier fuel c (identifier X) =
      .ok () { c with token_vec := c.token_vec ++ d.value } := by
  unfold preprocessor_handle_identifier
  simp [token.sval?, hdef, hnext, token_vec_push_dst_eq]

/-- C3, the instance of the spec: `X` defined with value `5`, referenced before
a `;`, expands to the single token `5`. -/
theorem handle_identifier_object_copy_witness :
    preprocessor_handle_identifier 0
      (state_of [identifier "X", symbol ';'] 1 [] [] [example_X]) (identifier "X") =
    .ok () (state_of [identifier "X", symbol ';'] 1 [] [number 5] [example_X]) :=
  handle_identifier_object_copy 0 (state_of [identifier "X", symbol ';'] 1 [] [] [example_X])
    "X" example_X (by decide) (by decide)

/-- C7: arity law.  When `function_name` resolves to a function-like definition
`d` and the number of call arguments differs from the number of parameters of
`d`, `preprocessor_macro_function_execute` halts with the argument-count
diagnostic in the very state it was called in: nothing is appended. -/
theorem macro_function_execute_arity (c : compile_process) (function_name : String)
    (d : preprocessor_definition) (arguments : preprocessor_function_arguments)
    (hdef : preprocessor_get_definition c.preprocessor.definitions (some function_name) = some d)
    (hkind : d.type = PREPROCESSOR_DEFINITION_MACRO_FUNCTION)
    (hne : preprocessor_function_arguments_count arguments ≠ d.arguments.length) :
    preprocessor_macro_function_execute c (some function_name) arguments =
      .halt .wrong_argument_count c := by
  unfold preprocessor_macro_function_execute compiler_preprocessor
  have hne' : d.arguments.length ≠ preprocessor_function_arguments_count arguments :=
    fun h => hne h.symm
  simp [hdef, hkind, hne']

/-- C7 at `ADD(a,b)` called with the single argument `1`. -/
theorem macro_function_execute_arity_witness :
    preprocessor_macro_function_execute (state_of [] 0 [] [number 7] [example_ADD])
      (some "ADD") { arguments := [{ tokens := [number 1] }] } =
    .halt .wrong_argument_count (state_of [] 0 [] [number 7] [example_ADD]) :=
  macro_function_execute_arity (state_of [] 0 [] [number 7] [example_ADD]) "ADD" example_ADD
    { arguments := [{ tokens := [number 1] }] } (by decide) rfl (by decide)

/-- C10: the hashtag-and-identifier probe is transactional.  It returns the
identifier token and leaves the state advanced by exactly two tokens if and
only if the next two tokens are the `#` symbol and the identifier `str`; in
every other case it returns no token and the state it was called in; in both
cases the stack of saved positions is the one before the call. -/
theorem hashtag_and_identifier_transactional (c : compile_process) (str : String) :
    (preprocessor_hashtag_and_identifier c str = (some (identifier str), advance c 2) ↔
      ∃ rest, remaining c = symbol '#' :: identifier str :: rest) ∧
    ((¬ ∃ rest, remaining c = symbol '#' :: identifier str :: rest) →
      preprocessor_hashtag_and_identifier c str = (none, c)) ∧
    (preprocessor_hashtag_and_identifier c str).2.token_vec_original.saves =
      c.token_vec_original.saves := by
  by_cases h : ∃ rest, remaining c = symbol '#' :: identifier str :: rest
  · obtain ⟨rest, hr⟩ := h
    have hm := hashtag_and_identifier_match hr
    exact ⟨⟨fun _ => ⟨rest, hr⟩, fun _ => hm⟩, fun hn => absurd ⟨rest, hr⟩ hn, by rw [hm]; rfl⟩
  · have hm := hashtag_and_identifier_mismatch h
    refine ⟨⟨fun he => ?_, fun hx => absurd hx h⟩, fun _ => hm, by rw [hm]⟩
    rw [hm] at he
    cases he

/-! ## Ordering of states -/

theorem follows.refl (c : compile_process) : follows c c :=
  ⟨rfl, rfl, Nat.le_refl _, List.prefix_refl _, List.prefix_refl _⟩

theorem follows.trans {a b c : compile_process} (h1 : follows a b) (h2 : follows b c) :
    follows a c :=
  ⟨h2.data_eq.trans h1.data_eq, h2.saves_eq.trans h1.saves_eq,
    Nat.le_trans h1.pindex_le h2.pindex_le, h1.dst_grows.trans h2.dst_grows,
    h1.defs_grows.trans h2.defs_grows⟩

theorem follows_advance (c : compile_process) (n : Nat) : follows c (advance c n) :=
  ⟨rfl, rfl, Nat.le_add_right _ _, List.prefix_refl _, List.prefix_refl _⟩

theorem follows.remaining_eq {c c' : compile_process} (h : follows c c') :
    remaining c' =
      (remaining c).drop (c'.token_vec_original.pindex - c.token_vec_original.pindex) := by
  unfold remaining
  rw [h.data_eq, List.drop_drop]
  congr 1
  have := h.pindex_le
  omega

theorem follows.rlen_le {c c' : compile_process} (h : follows c c') : rlen c' ≤ rlen c := by
  unfold rlen
  rw [h.remaining_eq]
  simp

theorem follows.remaining_suffix {c c' : compile_process} (h : follows c c') :
    remaining c' <:+ remaining c := by
  rw [h.remaining_eq]
  exact List.drop_suffix _ _

theorem rlen_advance_one {c : compile_process} {t : token} {r : List token}
    (h : remaining c = t :: r) : rlen (advance c 1) + 1 = rlen c := by
  unfold rlen
  rw [remaining_advance_one h, h]
  rfl

theorem next_token_cases (c : compile_process) :
    (remaining c = [] ∧ preprocessor_next_token c = (none, c)) ∨
    (∃ t r, remaining c = t :: r ∧ preprocessor_next_token c = (some t, advance c 1)) := by
  cases h : remaining c with
  | nil => exact Or.inl ⟨rfl, next_token_nil h⟩
  | cons t r => exact Or.inr ⟨t, r, rfl, next_token_cons h⟩

theorem next_token_follows (c : compile_process) : follows c (preprocessor_next_token c).2 := by
  rcases next_token_cases c with ⟨_, h⟩ | ⟨t, r, _, h⟩
  · rw [h]; exact follows.refl c
  · rw [h]; exact follows_advance c 1

theorem next_token_rlen {c : compile_process} {t : token}
    (h : (preprocessor_next_token c).1 = some t) :
    rlen (preprocessor_next_token c).2 + 1 = rlen c := by
  rcases next_token_cases c with ⟨_, h'⟩ | ⟨t', r, hr, h'⟩
  · rw [h'] at h; cases h
  · rw [h']; exact rlen_advance_one hr

theorem next_token_rlen_le (c : compile_process) :
    rlen (preprocessor_next_token c).2 ≤ rlen c :=
  (next_token_follows c).rlen_le

theorem hashtag_and_identifier_follows (c : compile_process) (str : String) :
    follows c (preprocessor_hashtag_and_identifier c str).2 := by
  by_cases h : ∃ rest, remaining c = symbol '#' :: identifier str :: rest
  · obtain ⟨rest, hr⟩ := h
    rw [hashtag_and_identifier_match hr]
    exact follows_advance c 2
  · rw [hashtag_and_identifier_mismatch h]
    exact follows.refl c

/-! ## Value collection of `#define` -/

theorem next_token_state (c : compile_process) :
    ∃ n, (preprocessor_next_token c).2 = advance c n := by
  rcases next_token_cases c with ⟨_, h⟩ | ⟨t, r, _, h⟩
  · exact ⟨0, by rw [h]; rfl⟩
  · exact ⟨1, by rw [h]⟩

theorem multi_value_insert_loop_state (fuel : Nat) (c : compile_process) (tok : Option token)
    (v : List token) :
    ∃ n, (preprocessor_multi_value_insert_loop fuel c tok v).state = advance c n := by
  induction fuel generalizing c tok v with
  | zero =>
    cases tok <;> exact ⟨0, by simp [preprocessor_multi_value_insert_loop, Outcome.state, advance_zero]⟩
  | succ f ih =>
    cases tok with
    | none => exact ⟨0, by simp [preprocessor_multi_value_insert_loop, Outcome.state, advance_zero]⟩
    | some t =>
      simp only [preprocessor_multi_value_insert_loop]
      split
      · exact ⟨0, by simp [Outcome.state, advance_zero]⟩
      · split
        · obtain ⟨n1, h1⟩ := next_token_state c
          obtain ⟨n2, h2⟩ := next_token_state (preprocessor_next_token c).2
          obtain ⟨n3, h3⟩ := ih (preprocessor_next_token (preprocessor_next_token c).2).2
            (preprocessor_next_token (preprocessor_next_token c).2).1 v
          exact ⟨n1 + n2 + n3, by rw [h3, h2, h1, advance_advance, advance_advance, Nat.add_assoc]⟩
        · obtain ⟨n1, h1⟩ := next_token_state c
          obtain ⟨n3, h3⟩ := ih (preprocessor_next_token c).2 (preprocessor_next_token c).1
            (v ++ [t])
          exact ⟨n1 + n3, by rw [h3, h1, advance_advance]⟩

theorem fuel_of_next {fuel : Nat} {c : compile_process} (h : rlen c ≤ fuel) :
    (preprocessor_next_token c).1 = none ∨ rlen (preprocessor_next_token c).2 + 1 ≤ fuel := by
  cases ht : (preprocessor_next_token c).1 with
  | none => exact Or.inl rfl
  | some t => exact Or.inr (by rw [next_token_rlen ht]; exact h)

theorem multi_value_insert_loop_fault (fuel : Nat) (c : compile_process) (tok : Option token)
    (v : List token) (h : tok = none ∨ rlen c + 1 ≤ fuel) :
    (preprocessor_multi_value_insert_loop fuel c tok v).fault? = none := by
  induction fuel generalizing c tok v with
  | zero =>
    rcases h with h | h
    · subst h; simp [preprocessor_multi_value_insert_loop, Outcome.fault?]
    · omega
  | succ f ih =>
    cases tok with
    | none => simp [preprocessor_multi_value_insert_loop, Outcome.fault?]
    | some t =>
      have hf : rlen c ≤ f := by
        rcases h with h | h
        · cases h
        · omega
      simp only [preprocessor_multi_value_insert_loop]
      split
      · rfl
      · split
        · apply ih
          apply fuel_of_next
          exact Nat.le_trans (next_token_rlen_le c) hf
        · apply ih
          exact fuel_of_next hf

theorem multi_value_insert_to_vector_state (fuel : Nat) (c : compile_process)
    (v : List token) :
    ∃ n, (preprocessor_multi_value_insert_to_vector fuel c v).state = advance c n := by
  unfold preprocessor_multi_value_insert_to_vector
  obtain ⟨n1, h1⟩ := next_token_state c
  obtain ⟨n2, h2⟩ := multi_value_insert_loop_state fuel (preprocessor_next_token c).2
    (preprocessor_next_token c).1 v
  exact ⟨n1 + n2, by rw [h2, h1, advance_advance]⟩

theorem multi_value_insert_to_vector_fault (fuel : Nat) (c : compile_process)
    (v : List token) (h : rlen c ≤ fuel) :
    (preprocessor_multi_value_insert_to_vector fuel c v).fault? = none := by
  unfold preprocessor_multi_value_insert_to_vector
  exact multi_value_insert_loop_fault fuel _ _ v (fuel_of_next h)

/-! ## Parameter list and `#define` -/

theorem definition_arguments_loop_state (fuel : Nat) (c : compile_process)
    (tok : Option token) (args : List String) :
    ∃ n, (preprocessor_handle_definition_arguments_loop fuel c tok args).state = advance c n := by
  induction fuel generalizing c tok args with
  | zero =>
    rw [preprocessor_handle_definition_arguments_loop.eq_def]
    split <;> exact ⟨0, rfl⟩
  | succ f ih =>
    rw [preprocessor_handle_definition_arguments_loop.eq_def]
    split
    · exact ⟨0, rfl⟩
    · simp only
      obtain ⟨n1, h1⟩ := next_token_state c
      obtain ⟨n2, h2⟩ := next_token_state (preprocessor_next_token c).2
      split
      · exact ⟨0, rfl⟩
      · split
        · exact ⟨n1, by simp only [Outcome.state, h1]⟩
        · split
          · exact ⟨n1, by simp only [Outcome.state, h1]⟩
          · obtain ⟨n3, h3⟩ := ih (preprocessor_next_token (preprocessor_next_token c).2).2
              (preprocessor_next_token (preprocessor_next_token c).2).1
              (vector_push_text args ‹String›)
            exact ⟨n1 + n2 + n3, by
              rw [h3, h2, h1, advance_advance, advance_advance, Nat.add_assoc]⟩
      · exact ⟨0, rfl⟩

theorem definition_arguments_loop_fuel (fuel : Nat) (c : compile_process)
    (tok : Option token) (args : List String) (h : rlen c + 1 ≤ fuel) :
    (preprocessor_handle_definition_arguments_loop fuel c tok args).fault? ≠
      some .out_of_fuel := by
  induction fuel generalizing c tok args with
  | zero => omega
  | succ f ih =>
    rw [preprocessor_handle_definition_arguments_loop.eq_def]
    split
    · simp [Outcome.fault?]
    · simp only
      split
      · simp [Outcome.fault?]
      · split
        · simp [Outcome.fault?]
        · split
          · simp [Outcome.fault?]
          · rename_i hnot _
            apply ih
            have hsome : ∃ t, (preprocessor_next_token c).1 = some t := by
              cases ht : (preprocessor_next_token c).1 with
              | none => simp [ht, token_is_operator, token_is_symbol] at hnot
              | some t => exact ⟨t, rfl⟩
            obtain ⟨t, ht⟩ := hsome
            have := next_token_rlen ht
            have := next_token_rlen_le (preprocessor_next_token c).2
            omega
      · simp [Outcome.fault?]

theorem follows_of_state_advance {c c0 c' : compile_process} {n : Nat}
    (h0 : follows c c0) (h : c' = advance c0 n) : follows c c' :=
  h ▸ h0.trans (follows_advance c0 n)

theorem follows_push_definition (c : compile_process) (d : preprocessor_definition) :
    follows c { c with preprocessor :=
      { definitions := c.preprocessor.definitions ++ [d] } } :=
  ⟨rfl, rfl, Nat.le_refl _, List.prefix_refl _, List.prefix_append _ _⟩

theorem follows_push_dst (c : compile_process) (v : List token) :
    follows c { c with token_vec := c.token_vec ++ v } :=
  ⟨rfl, rfl, Nat.le_refl _, List.prefix_append _ _, List.prefix_refl _⟩

theorem handle_definition_token_follows (fuel : Nat) (c : compile_process) :
    follows c (preprocessor_handle_definition_token fuel c).state := by
  unfold preprocessor_handle_definition_token
  simp only
  generalize hp : (if token_is_operator
      (preprocessor_next_token_no_increment (preprocessor_next_token c).2) "(" = true then
      preprocessor_handle_definition_arguments_loop fuel
        (preprocessor_next_token (preprocessor_next_token (preprocessor_next_token c).2).2).2
        (preprocessor_next_token (preprocessor_next_token (preprocessor_next_token c).2).2).1 []
      else Outcome.ok [] (preprocessor_next_token c).2) = parsed
  have hpf : follows c parsed.state := by
    rw [← hp]
    split
    · obtain ⟨n, hn⟩ := definition_arguments_loop_state fuel
        (preprocessor_next_token (preprocessor_next_token (preprocessor_next_token c).2).2).2
        (preprocessor_next_token (preprocessor_next_token (preprocessor_next_token c).2).2).1 []
      exact follows_of_state_advance (((next_token_follows c).trans
        (next_token_follows _)).trans (next_token_follows _)) hn
    · exact next_token_follows c
  cases parsed with
  | halt e c1 => exact hpf
  | ok args c2 =>
    simp only
    obtain ⟨n, hn⟩ := multi_value_insert_to_vector_state fuel c2 []
    cases hm : preprocessor_multi_value_insert_to_vector fuel c2 [] with
    | halt e c3 =>
      rw [hm] at hn
      exact follows_of_state_advance hpf hn
    | ok v c3 =>
      rw [hm] at hn
      have h3 : follows c c3 := follows_of_state_advance hpf hn
      simp only
      split
      · exact h3
      · exact h3.trans (follows_push_definition c3 _)

theorem handle_definition_token_fuel (fuel : Nat) (c : compile_process) (h : rlen c ≤ fuel) :
    (preprocessor_handle_definition_token fuel c).fault? ≠ some .out_of_fuel := by
  unfold preprocessor_handle_definition_token
  simp only
  generalize hp : (if token_is_operator
      (preprocessor_next_token_no_increment (preprocessor_next_token c).2) "(" = true then
      preprocessor_handle_definition_arguments_loop fuel
        (preprocessor_next_token (preprocessor_next_token (preprocessor_next_token c).2).2).2
        (preprocessor_next_token (preprocessor_next_token (preprocessor_next_token c).2).2).1 []
      else Outcome.ok [] (preprocessor_next_token c).2) = parsed
  have hpf : follows c parsed.state ∧ parsed.fault? ≠ some .out_of_fuel := by
    rw [← hp]
    split
    · rename_i hop
      obtain ⟨n, hn⟩ := definition_arguments_loop_state fuel
        (preprocessor_next_token (preprocessor_next_token (preprocessor_next_token c).2).2).2
        (preprocessor_next_token (preprocessor_next_token (preprocessor_next_token c).2).2).1 []
      refine ⟨follows_of_state_advance (((next_token_follows c).trans
        (next_token_follows _)).trans (next_token_follows _)) hn, ?_⟩
      apply definition_arguments_loop_fuel
      have h1 := next_token_rlen_le c
      have h3 := next_token_rlen_le
        (preprocessor_next_token (preprocessor_next_token c).2).2
      have h2 : rlen (preprocessor_next_token (preprocessor_next_token c).2).2 + 1 =
          rlen (preprocessor_next_token c).2 := by
        rcases next_token_cases (preprocessor_next_token c).2 with ⟨hr, _⟩ | ⟨t, r, hr, hn⟩
        · rw [peek_eq, hr] at hop
          simp [token_is_operator] at hop
        · rw [hn]; exact rlen_advance_one hr
      omega
    · exact ⟨next_token_follows c, by simp [Outcome.fault?]⟩
  cases parsed with
  | halt e c1 => exact hpf.2
  | ok args c2 =>
    simp only
    have hm := multi_value_insert_to_vector_fault fuel c2 []
      (Nat.le_trans hpf.1.rlen_le h)
    cases hm' : preprocessor_multi_value_insert_to_vector fuel c2 [] with
    | halt e c3 => rw [hm'] at hm; simp [Outcome.fault?] at hm
    | ok v c3 =>
      simp only
      split <;> simp [Outcome.fault?]

/-! ## Macro calls -/

theorem macro_call_argument_parse_state (c : compile_process) (vv : List token)
    (args : preprocessor_function_arguments) (t : token) :
    ∃ n, (preprocessor_handle_identifier_macro_call_argument_parse c vv args t).2.1 =
      advance c n := by
  unfold preprocessor_handle_identifier_macro_call_argument_parse
  obtain ⟨n1, h1⟩ := next_token_state c
  split
  · exact ⟨0, rfl⟩
  · split
    · exact ⟨n1, h1⟩
    · exact ⟨n1, h1⟩

theorem macro_call_argument_parse_fuel {fuel : Nat} (c : compile_process) (vv : List token)
    (args : preprocessor_function_arguments) (t : token) (h : rlen c ≤ fuel) :
    (preprocessor_handle_identifier_macro_call_argument_parse c vv args t).1 = none ∨
    rlen (preprocessor_handle_identifier_macro_call_argument_parse c vv args t).2.1 + 1
      ≤ fuel := by
  unfold preprocessor_handle_identifier_macro_call_argument_parse
  split
  · exact Or.inl rfl
  · split
    · exact fuel_of_next h
    · exact fuel_of_next h

theorem macro_call_arguments_loop_state (fuel : Nat) (c : compile_process) (vv : List token)
    (args : preprocessor_function_arguments) (tok : Option token) :
    ∃ n, (preprocessor_handle_identifier_macro_call_arguments_loop fuel c vv args tok).state =
      advance c n := by
  induction fuel generalizing c vv args tok with
  | zero =>
    cases tok <;>
      exact ⟨0, by simp [preprocessor_handle_identifier_macro_call_arguments_loop,
        Outcome.state, advance_zero]⟩
  | succ f ih =>
    cases tok with
    | none =>
      exact ⟨0, by simp [preprocessor_handle_identifier_macro_call_arguments_loop,
        Outcome.state, advance_zero]⟩
    | some t =>
      simp only [preprocessor_handle_identifier_macro_call_arguments_loop]
      obtain ⟨n1, h1⟩ := macro_call_argument_parse_state c vv args t
      obtain ⟨n2, h2⟩ := ih
        (preprocessor_handle_identifier_macro_call_argument_parse c vv args t).2.1
        (preprocessor_handle_identifier_macro_call_argument_parse c vv args t).2.2.1
        (preprocessor_handle_identifier_macro_call_argument_parse c vv args t).2.2.2
        (preprocessor_handle_identifier_macro_call_argument_parse c vv args t).1
      exact ⟨n1 + n2, by rw [h2, h1, advance_advance]⟩

theorem macro_call_arguments_loop_fault (fuel : Nat) (c : compile_process) (vv : List token)
    (args : preprocessor_function_arguments) (tok : Option token)
    (h : tok = none ∨ rlen c + 1 ≤ fuel) :
    (preprocessor_handle_identifier_macro_call_arguments_loop fuel c vv args tok).fault? =
      none := by
  induction fuel generalizing c vv args tok with
  | zero =>
    rcases h with h | h
    · subst h; simp [preprocessor_handle_identifier_macro_call_arguments_loop, Outcome.fault?]
    · omega
  | succ f ih =>
    cases tok with
    | none => simp [preprocessor_handle_identifier_macro_call_arguments_loop, Outcome.fault?]
    | some t =>
      have hf : rlen c ≤ f := by
        rcases h with h | h
        · cases h
        · omega
      simp only [preprocessor_handle_identifier_macro_call_arguments_loop]
      exact ih _ _ _ _ (macro_call_argument_parse_fuel c vv args t hf)

theorem macro_call_arguments_state (fuel : Nat) (c : compile_process) :
    ∃ n, (preprocessor_handle_identifier_macro_call_arguments fuel c).state = advance c n := by
  unfold preprocessor_handle_identifier_macro_call_arguments
  simp only
  obtain ⟨n1, h1⟩ := next_token_state c
  obtain ⟨n2, h2⟩ := next_token_state (preprocessor_next_token c).2
  obtain ⟨n3, h3⟩ := macro_call_arguments_loop_state fuel
    (preprocessor_next_token (preprocessor_next_token c).2).2 []
    preprocessor_function_arguments_create
    (preprocessor_next_token (preprocessor_next_token c).2).1
  exact ⟨n1 + n2 + n3, by rw [h3, h2, h1, advance_advance, advance_advance, Nat.add_assoc]⟩

theorem macro_call_arguments_fault (fuel : Nat) (c : compile_process) (h : rlen c ≤ fuel) :
    (preprocessor_handle_identifier_macro_call_arguments fuel c).fault? = none := by
  unfold preprocessor_handle_identifier_macro_call_arguments
  simp only
  apply macro_call_arguments_loop_fault
  exact fuel_of_next (Nat.le_trans (next_token_rlen_le c) h)

theorem execute_loop_state (c : compile_process) (d : preprocessor_definition)
    (args : preprocessor_function_arguments) (v target : List token) :
    (preprocessor_macro_function_execute_loop c d args v target).state = c ∧
    (preprocessor_macro_function_execute_loop c d args v target).fault? ≠
      some .out_of_fuel := by
  induction v generalizing target with
  | nil => simp [preprocessor_macro_function_execute_loop, Outcome.state, Outcome.fault?]
  | cons t r ih =>
    cases t with
    | identifier s =>
      simp only [preprocessor_macro_function_execute_loop]
      split
      · split
        · simp [Outcome.state, Outcome.fault?]
        · exact ih _
      · exact ih _
    | _ => simp only [preprocessor_macro_function_execute_loop]; exact ih _

theorem macro_function_execute_follows (c : compile_process) (name : Option String)
    (args : preprocessor_function_arguments) :
    follows c (preprocessor_macro_function_execute c name args).state ∧
    (preprocessor_macro_function_execute c name args).fault? ≠ some .out_of_fuel := by
  unfold preprocessor_macro_function_execute
  split
  · exact ⟨follows.refl c, by simp [Outcome.fault?]⟩
  · split
    · exact ⟨follows.refl c, by simp [Outcome.fault?]⟩
    · split
      · exact ⟨follows.refl c, by simp [Outcome.fault?]⟩
      · rename_i d _ _ _
        have hl := execute_loop_state c d args d.value []
        split
        · rename_i heq
          rw [heq] at hl
          simp only [Outcome.state, Outcome.fault?] at hl
          exact ⟨hl.1 ▸ follows.refl c, fun h => hl.2 h⟩
        · rename_i heq
          rw [heq] at hl
          simp only [Outcome.state] at hl
          rw [hl.1, token_vec_push_dst_eq]
          exact ⟨follows_push_dst c _, by simp [Outcome.fault?]⟩

theorem handle_identifier_follows (fuel : Nat) (c : compile_process) (t : token) :
    follows c (preprocessor_handle_identifier fuel c t).state := by
  unfold preprocessor_handle_identifier
  split
  · exact follows_push_dst c [t]
  · split
    · obtain ⟨n, hn⟩ := macro_call_arguments_state fuel c
      split
      · rename_i heq
        rw [heq] at hn
        exact follows_of_state_advance (follows.refl c) hn
      · rename_i heq
        rw [heq] at hn
        exact (follows_of_state_advance (follows.refl c) hn).trans
          (macro_function_execute_follows _ _ _).1
    · rw [token_vec_push_dst_eq]
      exact follows_push_dst c _

theorem handle_identifier_fuel (fuel : Nat) (c : compile_process) (t : token)
    (h : rlen c ≤ fuel) :
    (preprocessor_handle_identifier fuel c t).fault? ≠ some .out_of_fuel := by
  unfold preprocessor_handle_identifier
  split
  · simp [Outcome.fault?]
  · split
    · have hf := macro_call_arguments_fault fuel c h
      split
      · rename_i heq
        rw [heq] at hf
        simp [Outcome.fault?] at hf
      · exact (macro_function_execute_follows _ _ _).2
    · simp [Outcome.fault?]

/-! ## Conditional blocks and dispatch -/

theorem hashtag_and_identifier_none {c : compile_process} {str : String}
    (h : (preprocessor_hashtag_and_identifier c str).1 = none) :
    preprocessor_hashtag_and_identifier c str = (none, c) := by
  by_cases hm : ∃ rest, remaining c = symbol '#' :: identifier str :: rest
  · obtain ⟨rest, hr⟩ := hm
    rw [hashtag_and_identifier_match hr] at h
    cases h
  · exact hashtag_and_identifier_mismatch hm

theorem peek_some_next {c : compile_process}
    (h : ¬ (preprocessor_next_token_no_increment c).isNone = true) :
    ∃ t r, remaining c = t :: r ∧ preprocessor_next_token c = (some t, advance c 1) := by
  rcases next_token_cases c with ⟨hr, _⟩ | h'
  · rw [peek_eq, hr] at h; simp at h
  · exact h'

theorem handle_ifdef_loop_follows {F : Nat}
    {h : compile_process → Option token → Outcome Unit} (hh : handler_ok F h)
    (d : Option preprocessor_definition) (fuel : Nat) (c : compile_process) :
    follows c (preprocessor_handle_ifdef_loop h d fuel c).state ∧
    (rlen c ≤ fuel → fuel ≤ F →
      (preprocessor_handle_ifdef_loop h d fuel c).fault? ≠ some .out_of_fuel) := by
  induction fuel generalizing c with
  | zero =>
    rw [preprocessor_handle_ifdef_loop.eq_def]
    split
    · exact ⟨follows.refl c, by simp [Outcome.fault?]⟩
    · rename_i hp
      simp only
      split
      · exact ⟨hashtag_and_identifier_follows c _, by simp [Outcome.fault?]⟩
      · refine ⟨hashtag_and_identifier_follows c _, fun h0 _ => ?_⟩
        obtain ⟨t, r, hr, _⟩ := peek_some_next hp
        simp [rlen, hr] at h0
  | succ f ih =>
    rw [preprocessor_handle_ifdef_loop.eq_def]
    split
    · exact ⟨follows.refl c, by simp [Outcome.fault?]⟩
    · rename_i hp
      simp only
      split
      · exact ⟨hashtag_and_identifier_follows c _, by simp [Outcome.fault?]⟩
      · rename_i hs
        have hnone : preprocessor_hashtag_and_identifier c "endif" = (none, c) :=
          hashtag_and_identifier_none (by simpa using hs)
        rw [hnone]
        simp only
        obtain ⟨t, r, hr, hn⟩ := peek_some_next hp
        have hlen : rlen (advance c 1) + 1 = rlen c := rlen_advance_one hr
        rw [hn]
        simp only
        split
        · have hh1 := hh (advance c 1) (some t)
          split
          · rename_i heq
            rw [heq] at hh1
            refine ⟨(follows_advance c 1).trans hh1.1, fun h1 h2 => ?_⟩
            exact hh1.2 (by omega)
          · rename_i c1 heq
            rw [heq] at hh1
            have hf : follows c c1 := (follows_advance c 1).trans hh1.1
            refine ⟨hf.trans (ih c1).1, fun h1 h2 => ?_⟩
            apply (ih c1).2 _ (by omega)
            have := hh1.1.rlen_le
            simp only [Outcome.state] at this
            omega
        · refine ⟨(follows_advance c 1).trans (ih _).1, fun h1 h2 => ?_⟩
          exact (ih _).2 (by omega) (by omega)

theorem handle_ifdef_token_follows {F : Nat}
    {h : compile_process → Option token → Outcome Unit} (hh : handler_ok F h)
    (fuel : Nat) (c : compile_process) :
    follows c (preprocessor_handle_ifdef_token h fuel c).state ∧
    (rlen c ≤ fuel → fuel ≤ F →
      (preprocessor_handle_ifdef_token h fuel c).fault? ≠ some .out_of_fuel) := by
  unfold preprocessor_handle_ifdef_token
  simp only
  split
  · exact ⟨next_token_follows c, by simp [Outcome.fault?]⟩
  · have hl := handle_ifdef_loop_follows hh
      (preprocessor_get_definition (compiler_preprocessor (preprocessor_next_token c).2).definitions
        (‹token›).sval?) fuel (preprocessor_next_token c).2
    refine ⟨(next_token_follows c).trans hl.1, fun h1 h2 => ?_⟩
    exact hl.2 (Nat.le_trans (next_token_rlen_le c) h1) h2

theorem handle_hashtag_token_follows {F : Nat}
    {h : compile_process → Option token → Outcome Unit} (hh : handler_ok F h)
    (fuel : Nat) (c : compile_process) :
    follows c (preprocessor_handle_hashtag_token h fuel c).state ∧
    (rlen c ≤ fuel → fuel ≤ F →
      (preprocessor_handle_hashtag_token h fuel c).fault? ≠ some .out_of_fuel) := by
  unfold preprocessor_handle_hashtag_token
  simp only
  have hn := next_token_follows c
  have hnl := next_token_rlen_le c
  split
  · exact ⟨hn, by simp [Outcome.fault?]⟩
  · split
    · have h1 := handle_definition_token_follows fuel (preprocessor_next_token c).2
      have h2 := handle_definition_token_fuel fuel (preprocessor_next_token c).2
      split
      · rename_i heq
        rw [heq] at h1 h2
        exact ⟨hn.trans h1, fun a _ => h2 (Nat.le_trans hnl a)⟩
      · rename_i heq
        rw [heq] at h1
        exact ⟨hn.trans h1, by simp [Outcome.fault?]⟩
    · split
      · have h1 := handle_ifdef_token_follows hh fuel (preprocessor_next_token c).2
        split
        · rename_i heq
          rw [heq] at h1
          exact ⟨hn.trans h1.1, fun a b => h1.2 (Nat.le_trans hnl a) b⟩
        · rename_i heq
          rw [heq] at h1
          exact ⟨hn.trans h1.1, by simp [Outcome.fault?]⟩
      · exact ⟨hn, by simp [Outcome.fault?]⟩

theorem handle_symbol_follows {F : Nat}
    {h : compile_process → Option token → Outcome Unit} (hh : handler_ok F h)
    (fuel : Nat) (c : compile_process) (t : token) :
    follows c (preprocessor_handle_symbol h fuel c t).state ∧
    (rlen c ≤ fuel → fuel ≤ F →
      (preprocessor_handle_symbol h fuel c t).fault? ≠ some .out_of_fuel) := by
  unfold preprocessor_handle_symbol
  simp only
  by_cases hc : t.cval? = some '#'
  · simp only [hc, ↓reduceIte]
    have h1 := handle_hashtag_token_follows hh fuel c
    split
    · rename_i heq
      rw [heq] at h1
      exact h1
    · rename_i heq
      rw [heq] at h1
      split
      · exact ⟨h1.1.trans (follows_push_dst _ [t]), by simp [Outcome.fault?]⟩
      · exact ⟨h1.1, by simp [Outcome.fault?]⟩
  · simp only [hc, ↓reduceIte, Bool.not_false]
    exact ⟨follows_push_dst _ [t], by simp [Outcome.fault?]⟩

theorem handle_token_handler_ok (F : Nat) : handler_ok F (preprocessor_handle_token F) := by
  induction F with
  | zero =>
    intro c tok
    exact ⟨follows.refl c, fun h => by omega⟩
  | succ f ih =>
    intro c tok
    cases tok with
    | none => exact ⟨follows.refl c, by simp [preprocessor_handle_token, Outcome.fault?]⟩
    | some t =>
      cases t with
      | symbol ch =>
        have := handle_symbol_follows ih f c (symbol ch)
        exact ⟨this.1, fun h => this.2 (by omega) (Nat.le_refl _)⟩
      | identifier s =>
        exact ⟨handle_identifier_follows f c _,
          fun h => handle_identifier_fuel f c _ (by omega)⟩
      | newline => exact ⟨follows.refl c, by simp [preprocessor_handle_token, Outcome.fault?]⟩
      | number n =>
        exact ⟨follows_push_dst c _, by simp [preprocessor_handle_token, Outcome.fault?]⟩
      | operator s =>
        exact ⟨follows_push_dst c _, by simp [preprocessor_handle_token, Outcome.fault?]⟩
      | string s =>
        exact ⟨follows_push_dst c _, by simp [preprocessor_handle_token, Outcome.fault?]⟩

/-! ## Exact results on directive text -/

theorem remaining_advance_append {c : compile_process} {A B : List token}
    (h : remaining c = A ++ B) : remaining (advance c A.length) = B := by
  rw [remaining_advance, h, List.drop_left]

theorem multi_value_insert_verbatim (V : List token) (fuel : Nat) (c : compile_process)
    (acc rest : List token) (hV : verbatim_value V)
    (hr : remaining c = V ++ newline :: rest) (hf : V.length + 1 ≤ fuel) :
    preprocessor_multi_value_insert_to_vector fuel c acc =
      .ok (acc ++ V) (advance c (V.length + 1)) := by
  induction V generalizing fuel c acc with
  | nil =>
    obtain ⟨f, rfl⟩ : ∃ f, fuel = f + 1 := ⟨fuel - 1, by simp at hf; omega⟩
    simp only [preprocessor_multi_value_insert_to_vector, next_token_cons hr,
      preprocessor_multi_value_insert_loop]
    simp
  | cons v V ih =>
    obtain ⟨f, rfl⟩ : ∃ f, fuel = f + 1 := ⟨fuel - 1, by simp at hf; omega⟩
    have hv := hV v (List.mem_cons_self _ _)
    have hsym : token_is_symbol (some v) '\\' = false := by
      cases v <;> simp [token_is_symbol]
      rename_i ch
      intro hc; subst hc; exact hv.2 rfl
    have hr' : remaining (advance c 1) = V ++ newline :: rest := remaining_advance_one hr
    have := ih f (advance c 1) (acc ++ [v]) (fun t ht => hV t (List.mem_cons_of_mem _ ht)) hr'
      (by simp at hf; omega)
    simp only [preprocessor_multi_value_insert_to_vector] at this ⊢
    simp only [next_token_cons hr, preprocessor_multi_value_insert_loop, hv.1, hsym,
      ↓reduceIte, Bool.false_eq_true]
    rw [this, advance_advance]
    simp [Nat.add_comm, Nat.add_left_comm]

theorem handle_definition_token_object (fuel : Nat) (c : compile_process) (N : String)
    (V rest : List token) (hV : verbatim_value V)
    (hopen : V.head? ≠ some (operator "("))
    (hr : remaining c = identifier N :: (V ++ newline :: rest)) (hf : V.length + 1 ≤ fuel) :
    preprocessor_handle_definition_token fuel c =
      .ok () (with_definition (advance c (V.length + 2))
        (preprocessor_definition_create (some N) V [])) := by
  have hr1 : remaining (advance c 1) = V ++ newline :: rest := remaining_advance_one hr
  have hpeek : token_is_operator (preprocessor_next_token_no_increment (advance c 1)) "("
      = false := by
    rw [peek_eq, hr1]
    cases V with
    | nil => rfl
    | cons v V' =>
      cases v <;> simp [token_is_operator]
      rename_i s
      intro hs; subst hs; exact hopen rfl
  unfold preprocessor_handle_definition_token
  simp only [next_token_cons hr, hpeek, Bool.false_eq_true, ↓reduceIte,
    multi_value_insert_verbatim V fuel (advance c 1) [] rest hV hr1 hf, List.nil_append,
    token.sval?, advance_advance]
  rw [show 1 + (V.length + 1) = V.length + 2 by omega]
  rfl

theorem handle_token_define_object (fuel : Nat) (c : compile_process) (N : String)
    (V rest : List token) (hV : verbatim_value V)
    (hopen : V.head? ≠ some (operator "("))
    (hr : remaining c = identifier "define" :: identifier N :: (V ++ newline :: rest))
    (hf : V.length + 1 ≤ fuel) :
    preprocessor_handle_token (fuel + 1) c (some (symbol '#')) =
      .ok () (with_definition (advance c (V.length + 3))
        (preprocessor_definition_create (some N) V [])) := by
  have hr1 : remaining (advance c 1) = identifier N :: (V ++ newline :: rest) :=
    remaining_advance_one hr
  have hd : preprocessor_token_is_define (identifier "define") = true := by decide
  simp only [preprocessor_handle_token, preprocessor_handle_symbol, token.cval?, ↓reduceIte,
    preprocessor_handle_hashtag_token, next_token_cons hr, hd,
    handle_definition_token_object fuel (advance c 1) N V rest hV hopen hr1 hf,
    advance_advance]
  rw [show 1 + (V.length + 2) = V.length + 3 by omega]
  rfl

/-! ## Lookup is first-wins -/

theorem S_EQ_name_iff (n : Option String) (name : String) :
    S_EQ n (some name) = true ↔ n = some name := by
  cases n <;> simp [S_EQ]

theorem get_definition_eq_some_iff (table : List preprocessor_definition) (name : String)
    (d : preprocessor_definition) :
    preprocessor_get_definition table (some name) = some d ↔
      ∃ pre post, table = pre ++ d :: post ∧ d.name = some name ∧
        ∀ x ∈ pre, x.name ≠ some name := by
  rw [get_definition_eq_find, List.find?_eq_some]
  constructor
  · rintro ⟨hd, pre, post, ht, hpre⟩
    refine ⟨pre, post, ht, (S_EQ_name_iff _ _).1 hd, fun x hx hn => ?_⟩
    have := hpre x hx
    rw [(S_EQ_name_iff _ _).2 hn] at this
    simp at this
  · rintro ⟨pre, post, ht, hd, hpre⟩
    refine ⟨(S_EQ_name_iff _ _).2 hd, pre, post, ht, fun x hx => ?_⟩
    have := hpre x hx
    cases hs : S_EQ x.name (some name) with
    | false => rfl
    | true => exact absurd ((S_EQ_name_iff _ _).1 hs) this

theorem get_definition_eq_none_iff (table : List preprocessor_definition) (name : String) :
    preprocessor_get_definition table (some name) = none ↔
      ∀ x ∈ table, x.name ≠ some name := by
  rw [get_definition_eq_find, List.find?_eq_none]
  constructor
  · intro h x hx hn
    exact h x hx ((S_EQ_name_iff _ _).2 hn)
  · intro h x hx hs
    exact h x hx ((S_EQ_name_iff _ _).1 hs)

theorem run_loop_step (f : Nat) (c : compile_process) (t : token) :
    preprocessor_run_loop (f + 1) c (some t) =
      match preprocessor_handle_token (f + 2) c (some t) with
      | .halt e c1 => .halt e c1
      | .ok _ c1 =>
        preprocessor_run_loop f (preprocessor_next_token c1).2 (preprocessor_next_token c1).1 :=
  rfl

theorem run_two_defines (defs : List preprocessor_definition) (dst : List token)
    (saves : List Nat) (p : Nat) (N : String) (V1 V2 : List token)
    (hV1 : verbatim_value V1) (hV2 : verbatim_value V2)
    (hopen1 : V1.head? ≠ some (operator "(")) (hopen2 : V2.head? ≠ some (operator "(")) :
    preprocessor_run (state_of (define_line N V1 ++ define_line N V2) p saves dst defs) =
    .ok () (state_of (define_line N V1 ++ define_line N V2)
      (define_line N V1 ++ define_line N V2).length saves dst
      (defs ++ [preprocessor_definition_create (some N) V1 [],
        preprocessor_definition_create (some N) V2 []])) := by
  obtain ⟨c0, hc0⟩ : ∃ c0 : compile_process,
      state_of (define_line N V1 ++ define_line N V2) 0 saves dst defs = c0 := ⟨_, rfl⟩
  have hr0 : remaining c0 = symbol '#' :: identifier "define" :: identifier N ::
      (V1 ++ newline :: define_line N V2) := by
    subst hc0
    simp [remaining, define_line, state_of]
  have hlen : (define_line N V1 ++ define_line N V2).length
      = (V1.length + V2.length + 6) + 1 + 1 := by
    simp [define_line]; omega
  unfold preprocessor_run vector_set_peek_pointer
  simp only [state_of] at hc0 ⊢
  simp only [hc0, hlen]
  rw [next_token_cons hr0]
  have hr1 := remaining_advance_one hr0
  rw [run_loop_step, handle_token_define_object _ (advance c0 1) N V1 (define_line N V2) hV1
    hopen1 hr1 (by omega)]
  simp only
  generalize hc1 : with_definition (advance (advance c0 1) (V1.length + 3))
    (preprocessor_definition_create (some N) V1 []) = c1
  have hr2 : remaining c1 = symbol '#' :: identifier "define" :: identifier N ::
      (V2 ++ newline :: []) := by
    subst hc1
    show remaining (advance (advance c0 1) (V1.length + 3)) = _
    rw [advance_advance, remaining_advance, hr0,
      show symbol '#' :: identifier "define" :: identifier N ::
        (V1 ++ newline :: define_line N V2) = define_line N V1 ++ define_line N V2 by
          simp [define_line]]
    rw [List.drop_left' (by simp [define_line]; omega)]
    simp [define_line]
  rw [next_token_cons hr2]
  have hr3 := remaining_advance_one hr2
  rw [show V1.length + V2.length + 6 = (V1.length + V2.length + 5) + 1 by omega,
    run_loop_step, handle_token_define_object _ (advance c1 1) N V2 [] hV2 hopen2 hr3
      (by omega)]
  simp only
  generalize hc2 : with_definition (advance (advance c1 1) (V2.length + 3))
    (preprocessor_definition_create (some N) V2 []) = c2
  have hr4 : remaining c2 = [] := by
    subst hc2
    show remaining (advance (advance c1 1) (V2.length + 3)) = _
    rw [advance_advance, remaining_advance, hr2]
    apply List.drop_eq_nil_of_le
    simp
    omega
  rw [next_token_nil hr4]
  simp only [preprocessor_run_loop]
  subst hc2 hc1 hc0
  simp [with_definition, advance, define_line, state_of]
  omega

/-! ## Pass-through -/

theorem with_output_nil (c : compile_process) : with_output c [] = c := by
  simp [with_output]

theorem with_output_with_output (c : compile_process) (u v : List token) :
    with_output (with_output c u) v = with_output c (u ++ v) := by
  simp [with_output]

theorem advance_with_output (c : compile_process) (v : List token) (n : Nat) :
    advance (with_output c v) n = with_output (advance c n) v := rfl

theorem remaining_with_output (c : compile_process) (v : List token) :
    remaining (with_output c v) = remaining c := rfl

theorem handle_token_inert (fuel : Nat) (c : compile_process) (t : token)
    (h : inert c.preprocessor.definitions t) :
    preprocessor_handle_token (fuel + 1) c (some t) =
      .ok () (with_output c (if t = newline then [] else [t])) := by
  cases t with
  | symbol ch =>
    have hc : ch ≠ '#' := fun hc => h.1 (by rw [hc])
    simp [preprocessor_handle_token, preprocessor_handle_symbol, token.cval?, hc,
      preprocessor_token_push_dst, with_output]
  | identifier s =>
    simp [preprocessor_handle_token, preprocessor_handle_identifier, token.sval?,
      h.2 s rfl, preprocessor_token_push_dst, with_output]
  | newline => simp [preprocessor_handle_token, with_output]
  | number n => simp [preprocessor_handle_token, preprocessor_token_push_dst, with_output]
  | operator s => simp [preprocessor_handle_token, preprocessor_token_push_dst, with_output]
  | string s => simp [preprocessor_handle_token, preprocessor_token_push_dst, with_output]

theorem run_loop_inert (L : List token) (fuel : Nat) (c : compile_process)
    (hr : remaining c = L) (hL : ∀ t ∈ L, inert c.preprocessor.definitions t)
    (hf : L.length ≤ fuel) :
    preprocessor_run_loop fuel (preprocessor_next_token c).2 (preprocessor_next_token c).1 =
      .ok () (with_output (advance c L.length) (L.filter (fun t => t ≠ newline))) := by
  induction L generalizing fuel c with
  | nil =>
    rw [next_token_nil hr]
    cases fuel <;> simp [preprocessor_run_loop, with_output, advance]
  | cons t L ih =>
    obtain ⟨f, rfl⟩ : ∃ f, fuel = f + 1 := ⟨fuel - 1, by simp at hf; omega⟩
    rw [next_token_cons hr]
    simp only
    rw [run_loop_step, handle_token_inert (f + 1) (advance c 1) t (hL t (List.mem_cons_self _ _))]
    simp only
    have hr' : remaining (with_output (advance c 1) (if t = newline then [] else [t])) = L :=
      remaining_advance_one hr
    rw [ih f _ hr' (fun u hu => hL u (List.mem_cons_of_mem _ hu)) (by simp at hf; omega)]
    rw [advance_with_output, with_output_with_output, advance_advance]
    congr 2
    · simp [Nat.add_comm]
    · by_cases hn : t = newline <;> simp [hn, List.filter_cons]

theorem run_inert (defs : List preprocessor_definition) (dst : List token)
    (saves : List Nat) (p : Nat) (input : List token) (h : ∀ t ∈ input, inert defs t) :
    preprocessor_run (state_of input p saves dst defs) =
      .ok () (state_of input input.length saves
        (dst ++ input.filter (fun t => t ≠ newline)) defs) := by
  unfold preprocessor_run vector_set_peek_pointer
  have := run_loop_inert input input.length (state_of input 0 saves dst defs)
    (by simp [remaining, state_of]) h (Nat.le_refl _)
  simp only [state_of] at this ⊢
  rw [this]
  simp [with_output, advance]

/-- C4, as stated, fails: the input `1`, newline, `2` holds no `#` symbol and no
identifier at all, yet the pass over it yields the two tokens `1`, `2`, not the
three tokens of the input. -/
theorem pass_through_counterexample :
    (∀ t ∈ [number 1, newline, number 2], inert [] t) ∧
    preprocessor_run (state_of [number 1, newline, number 2] 0 [] [] []) =
      .ok () (state_of [number 1, newline, number 2] 3 [] [number 1, number 2] []) ∧
    [number 1, number 2] ≠ [] ++ [number 1, newline, number 2] := by
  refine ⟨?_, by decide, by decide⟩
  intro t ht
  refine ⟨?_, ?_⟩
  · simp at ht
    rcases ht with h | h | h <;> subst h <;> decide
  · intro s hs
    rfl

/-- C4, amended: for every table and every input that holds no `#` symbol, no
newline token and no identifier with a definition in the table,
`preprocessor_run` ends with the cursor at the end of the input and the
destination extended by exactly the input: same tokens, same order, same
count; the table is unchanged. -/
theorem pass_through_without_newline (defs : List preprocessor_definition)
    (dst : List token) (saves : List Nat) (p : Nat) (input : List token)
    (h : ∀ t ∈ input, inert defs t) (hnl : ∀ t ∈ input, t ≠ newline) :
    preprocessor_run (state_of input p saves dst defs) =
      .ok () (state_of input input.length saves (dst ++ input) defs) := by
  rw [run_inert defs dst saves p input h]
  congr 3
  rw [List.filter_eq_self]
  intro t ht
  simpa using hnl t ht

/-- C4 amended, at the input `a + 1` and a table that defines only `X`. -/
theorem pass_through_without_newline_witness :
    preprocessor_run
      (state_of [identifier "a", operator "+", number 1] 0 [] [] [example_X]) =
    .ok () (state_of [identifier "a", operator "+", number 1] 3 [] 
      [identifier "a", operator "+", number 1] [example_X]) :=
  pass_through_without_newline [example_X] [] [] 0 [identifier "a", operator "+", number 1]
    (by
      intro t ht
      simp at ht
      rcases ht with h | h | h <;> subst h
      · exact ⟨by decide, fun s hs => by cases hs; decide⟩
      · exact ⟨by decide, fun s hs => by cases hs⟩
      · exact ⟨by decide, fun s hs => by cases hs⟩)
    (by
      intro t ht
      simp at ht
      rcases ht with h | h | h <;> subst h <;> decide)

/-! ## Skipped and unterminated conditional blocks -/

theorem not_endif_pair_cons {b : token} {body : List token}
    (h : ¬ endif_pair <:+: b :: body) : ¬ endif_pair <:+: body :=
  fun hi => h (List.infix_cons_iff.2 (Or.inr hi))

theorem probe_mismatch_of_no_pair {c : compile_process} {b : token} {body tail : List token}
    (h : ¬ endif_pair <:+: b :: body) (hr : remaining c = b :: (body ++ tail))
    (ht : tail.head? ≠ some (identifier "endif")) :
    preprocessor_hashtag_and_identifier c "endif" = (none, c) := by
  apply hashtag_and_identifier_mismatch
  rintro ⟨rest, hrest⟩
  rw [hr] at hrest
  injection hrest with hb hrest
  subst hb
  cases body with
  | nil =>
    simp only [List.nil_append] at hrest
    rw [hrest] at ht
    exact ht rfl
  | cons u body' =>
    simp only [List.cons_append] at hrest
    injection hrest with hu _
    subst hu
    exact h (List.infix_cons_iff.2 (Or.inl ⟨body', rfl⟩))

theorem handle_ifdef_loop_skip (h : compile_process → Option token → Outcome Unit)
    (body cont : List token) (fuel : Nat) (c : compile_process)
    (hno : ¬ endif_pair <:+: body)
    (hr : remaining c = body ++ symbol '#' :: identifier "endif" :: cont)
    (hf : body.length ≤ fuel) :
    preprocessor_handle_ifdef_loop h none fuel c = .ok () (advance c (body.length + 2)) := by
  induction body generalizing fuel c with
  | nil =>
    rw [preprocessor_handle_ifdef_loop.eq_def]
    simp only [peek_eq, hr, List.nil_append, List.head?_cons, Option.isNone_some,
      Bool.false_eq_true, ↓reduceIte]
    rw [@hashtag_and_identifier_match c "endif" cont hr]
    simp
  | cons b body ih =>
    obtain ⟨f, rfl⟩ : ∃ f, fuel = f + 1 := ⟨fuel - 1, by simp at hf; omega⟩
    have hr' : remaining c = b :: (body ++ symbol '#' :: identifier "endif" :: cont) := hr
    rw [preprocessor_handle_ifdef_loop.eq_def]
    simp only [peek_eq, hr', List.head?_cons, Option.isNone_some, Bool.false_eq_true,
      ↓reduceIte, probe_mismatch_of_no_pair hno hr' (by simp), Option.isSome_none,
      next_token_cons hr']
    rw [ih f (advance c 1) (not_endif_pair_cons hno) (remaining_advance_one hr')
      (by simp at hf; omega), advance_advance]
    congr 2
    simp only [List.length_cons]
    omega

theorem handle_ifdef_loop_skip_to_end (h : compile_process → Option token → Outcome Unit)
    (body : List token) (fuel : Nat) (c : compile_process)
    (hno : ¬ endif_pair <:+: body) (hr : remaining c = body) (hf : body.length ≤ fuel) :
    preprocessor_handle_ifdef_loop h none fuel c = .ok () (advance c body.length) := by
  induction body generalizing fuel c with
  | nil =>
    rw [preprocessor_handle_ifdef_loop.eq_def]
    simp [peek_eq, hr, advance_zero]
  | cons b body ih =>
    obtain ⟨f, rfl⟩ : ∃ f, fuel = f + 1 := ⟨fuel - 1, by simp at hf; omega⟩
    have hr' : remaining c = b :: (body ++ []) := by simpa using hr
    rw [preprocessor_handle_ifdef_loop.eq_def]
    simp only [peek_eq, hr', List.head?_cons, Option.isNone_some, Bool.false_eq_true,
      ↓reduceIte, probe_mismatch_of_no_pair hno hr' (by simp), Option.isSome_none,
      next_token_cons hr']
    rw [ih f (advance c 1) (not_endif_pair_cons hno)
      (by simpa using remaining_advance_one hr') (by simp at hf; omega), advance_advance]
    congr 2
    simp only [List.length_cons]
    omega

/-- C5: skipped conditional block.  In a table where `N` has no definition, for
a body without an adjacent `#` `endif` pair and any continuation, dispatching
the `#` of `# ifdef N body # endif` ends in the state it started in moved
forward just past `endif`: nothing is appended to the destination and no
definition is added, whatever the body holds. -/
theorem ifdef_undefined_skips (fuel : Nat) (c : compile_process) (N : String)
    (body cont : List token)
    (hundef : preprocessor_get_definition c.preprocessor.definitions (some N) = none)
    (hno : ¬ endif_pair <:+: body)
    (hr : remaining c = identifier "ifdef" :: identifier N ::
      (body ++ symbol '#' :: identifier "endif" :: cont))
    (hf : body.length ≤ fuel) :
    preprocessor_handle_token (fuel + 1) c (some (symbol '#')) =
      .ok () (advance c (body.length + 4)) := by
  have hr1 := remaining_advance_one hr
  have hr2 := remaining_advance_one hr1
  have hd : preprocessor_token_is_define (identifier "ifdef") = false := by decide
  have hi : preprocessor_token_is_ifdef (identifier "ifdef") = true := by decide
  have hu : preprocessor_get_definition (advance (advance c 1) 1).preprocessor.definitions
      (some N) = none := hundef
  simp only [preprocessor_handle_token, preprocessor_handle_symbol, token.cval?, ↓reduceIte,
    preprocessor_handle_hashtag_token, next_token_cons hr, hd, hi, Bool.false_eq_true,
    preprocessor_handle_ifdef_token, next_token_cons hr1, compiler_preprocessor, token.sval?,
    hu, handle_ifdef_loop_skip _ body cont fuel _ hno hr2 hf]
  simp only [Bool.not_true, Bool.false_eq_true, ↓reduceIte, advance_advance]
  rw [show 1 + 1 + (body.length + 2) = body.length + 4 by omega]

/-- C5 at a body that holds a `#define` directive and an unclosed macro call. -/
theorem ifdef_undefined_skips_witness :
    preprocessor_handle_token 8
      (state_of [symbol '#', identifier "ifdef", identifier "N", symbol '#',
        identifier "define", identifier "X", number 5, newline, identifier "X", operator "(",
        symbol '#', identifier "endif", number 7] 1 [] [number 0] [example_X])
      (some (symbol '#')) =
    .ok () (advance (state_of [symbol '#', identifier "ifdef", identifier "N", symbol '#',
        identifier "define", identifier "X", number 5, newline, identifier "X", operator "(",
        symbol '#', identifier "endif", number 7] 1 [] [number 0] [example_X]) (7 + 4)) :=
  ifdef_undefined_skips 7 _ "N"
    [symbol '#', identifier "define", identifier "X", number 5, newline, identifier "X",
      operator "("]
    [number 7] (by decide) (by decide) rfl (by decide)

theorem macro_call_arguments_ok (fuel : Nat) (c : compile_process) (h : rlen c ≤ fuel) :
    ∃ arguments n,
      preprocessor_handle_identifier_macro_call_arguments fuel c = .ok arguments (advance c n) := by
  obtain ⟨n, hn⟩ := macro_call_arguments_state fuel c
  have hf := macro_call_arguments_fault fuel c h
  cases hr : preprocessor_handle_identifier_macro_call_arguments fuel c with
  | halt e c1 => rw [hr] at hf; simp [Outcome.fault?] at hf
  | ok a c1 =>
    rw [hr] at hn
    exact ⟨a, n, by rw [← hn]; rfl⟩

/-- C8: call syntax on an object macro is fatal.  When `X` resolves to a
definition built with no parameters and the peeked next token is the `(`
operator, dispatching the identifier `X` parses an argument list (consuming
`n` tokens) and then halts with the not-a-function diagnostic; in the halt
state the destination and the table are those before the call, so the
replacement of `X` is not appended. -/
theorem call_on_object_macro_fatal (fuel : Nat) (c : compile_process) (X : String)
    (d : preprocessor_definition)
    (hdef : preprocessor_get_definition c.preprocessor.definitions (some X) = some d)
    (hparams : d.arguments = [])
    (hmade : d = preprocessor_definition_create d.name d.value d.arguments)
    (hnext : token_is_operator (preprocessor_next_token_no_increment c) "(" = true)
    (hf : rlen c ≤ fuel) :
    ∃ arguments n,
      preprocessor_handle_identifier_macro_call_arguments fuel c =
        .ok arguments (advance c n) ∧
      preprocessor_handle_identifier fuel c (identifier X) =
        .halt .not_a_function_definition (advance c n) := by
  obtain ⟨arguments, n, ha⟩ := macro_call_arguments_ok fuel c hf
  refine ⟨arguments, n, ha, ?_⟩
  have hty : d.type = PREPROCESSOR_DEFINITION_STANDARD := by
    rw [hmade, hparams]; rfl
  have hdef' : preprocessor_get_definition (advance c n).preprocessor.definitions (some X)
      = some d := hdef
  unfold preprocessor_handle_identifier
  simp only [token.sval?, hdef, hnext, ↓reduceIte, ha, preprocessor_macro_function_execute,
    compiler_preprocessor, hdef', hty]
  simp

/-- C8 at `X ( 1 )` with `X` defined as the object macro of value `5`. -/
theorem call_on_object_macro_fatal_witness :
    ∃ arguments n,
      preprocessor_handle_identifier_macro_call_arguments 3
        (state_of [identifier "X", operator "(", number 1, symbol ')'] 1 [] [] [example_X]) =
        .ok arguments (advance
          (state_of [identifier "X", operator "(", number 1, symbol ')'] 1 [] [] [example_X])
          n) ∧
      preprocessor_handle_identifier 3
        (state_of [identifier "X", operator "(", number 1, symbol ')'] 1 [] [] [example_X])
        (identifier "X") =
        .halt .not_a_function_definition (advance
          (state_of [identifier "X", operator "(", number 1, symbol ')'] 1 [] [] [example_X])
          n) :=
  call_on_object_macro_fatal 3
    (state_of [identifier "X", operator "(", number 1, symbol ')'] 1 [] [] [example_X]) "X"
    example_X (by decide) rfl rfl (by decide) (by decide)

theorem handle_ifdef_loop_unterminated {F : Nat}
    {h : compile_process → Option token → Outcome Unit} (hh : handler_ok F h)
    (d : Option preprocessor_definition) (fuel : Nat) (c : compile_process)
    (hno : ¬ endif_pair <:+: remaining c) :
    (∀ c', preprocessor_handle_ifdef_loop h d fuel c = .ok () c' → remaining c' = []) ∧
    (∀ e c', preprocessor_handle_ifdef_loop h d fuel c = .halt e c' →
      e = .out_of_fuel ∨ ∃ c1 t, t ∈ remaining c ∧ h c1 (some t) = .halt e c') := by
  induction fuel generalizing c with
  | zero =>
    rw [preprocessor_handle_ifdef_loop.eq_def]
    split
    · rename_i hp
      refine ⟨fun c' hc => ?_, fun e c' hc => by cases hc⟩
      cases hc
      rw [peek_eq] at hp
      cases hr : remaining c with
      | nil => rfl
      | cons t r => rw [hr] at hp; simp at hp
    · simp only
      split
      · rename_i hs
        exfalso
        by_cases hm : ∃ rest, remaining c = symbol '#' :: identifier "endif" :: rest
        · obtain ⟨rest, hr⟩ := hm
          exact hno (hr ▸ ⟨[], rest, rfl⟩)
        · rw [hashtag_and_identifier_mismatch hm] at hs
          simp at hs
      · exact ⟨fun c' hc => (by cases hc), fun e c' hc => by cases hc; exact Or.inl rfl⟩
  | succ f ih =>
    rw [preprocessor_handle_ifdef_loop.eq_def]
    split
    · rename_i hp
      refine ⟨fun c' hc => ?_, fun e c' hc => by cases hc⟩
      cases hc
      rw [peek_eq] at hp
      cases hr : remaining c with
      | nil => rfl
      | cons t r => rw [hr] at hp; simp at hp
    · rename_i hp
      simp only
      split
      · rename_i hs
        exfalso
        by_cases hm : ∃ rest, remaining c = symbol '#' :: identifier "endif" :: rest
        · obtain ⟨rest, hr⟩ := hm
          exact hno (hr ▸ ⟨[], rest, rfl⟩)
        · rw [hashtag_and_identifier_mismatch hm] at hs
          simp at hs
      · rename_i hs
        have hnone : preprocessor_hashtag_and_identifier c "endif" = (none, c) :=
          hashtag_and_identifier_none (by simpa using hs)
        rw [hnone]
        simp only
        obtain ⟨t, r, hr, hn⟩ := peek_some_next hp
        rw [hn]
        simp only
        have hsuf : ∀ c1, follows (advance c 1) c1 →
            (¬ endif_pair <:+: remaining c1) ∧ ∀ u ∈ remaining c1, u ∈ remaining c := by
          intro c1 hf1
          have hs1 : remaining c1 <:+ remaining c :=
            hf1.remaining_suffix.trans ((follows_advance c 1).remaining_suffix)
          exact ⟨fun hi => hno (hi.trans hs1.isInfix), fun u hu => hs1.subset hu⟩
        split
        · have hh1 := (hh (advance c 1) (some t)).1
          split
          · rename_i e1 c1 heq
            refine ⟨fun c' hc => (by cases hc), fun e c' hc => ?_⟩
            cases hc
            exact Or.inr ⟨advance c 1, t, by rw [hr]; exact List.mem_cons_self _ _, heq⟩
          · rename_i c1 heq
            rw [heq] at hh1
            have hs1 := hsuf c1 hh1
            refine ⟨(ih c1 hs1.1).1, fun e c' hc => ?_⟩
            rcases (ih c1 hs1.1).2 e c' hc with h1 | ⟨c2, u, hu, h2⟩
            · exact Or.inl h1
            · exact Or.inr ⟨c2, u, hs1.2 u hu, h2⟩
        · have hs1 := hsuf (advance c 1) (follows.refl _)
          refine ⟨(ih _ hs1.1).1, fun e c' hc => ?_⟩
          rcases (ih _ hs1.1).2 e c' hc with h1 | ⟨c2, u, hu, h2⟩
          · exact Or.inl h1
          · exact Or.inr ⟨c2, u, hs1.2 u hu, h2⟩

/-- C9: unterminated conditional block.  Let the `#ifdef` handler run on the
condition identifier `N` followed by a body without an adjacent `#` `endif`
pair up to the end of the stream, with a step budget above the body length,
and let `r` be its outcome.  If `N` has no definition, `r` is success at the
end of the stream with destination and table untouched.  In every case `r`
is not a budget exhaustion (the handler terminates); if `r` is a success the
stream is exhausted; if `r` is a halt, its fault and halt state are those of
a dispatch of a body token (the handler raises no error of its own); and the
destination before the block is a prefix of the destination of `r`. -/
theorem ifdef_unterminated (fuel : Nat) (c : compile_process) (N : String)
    (body : List token) (r : Outcome Unit)
    (hrun : r = preprocessor_handle_ifdef_token (preprocessor_handle_token fuel) fuel c)
    (hr : remaining c = identifier N :: body) (hno : ¬ endif_pair <:+: body)
    (hf : body.length + 1 ≤ fuel) :
    (preprocessor_get_definition c.preprocessor.definitions (some N) = none →
      r = .ok () (advance c (body.length + 1))) ∧
    r.fault? ≠ some .out_of_fuel ∧
    (∀ c', r = .ok () c' → remaining c' = []) ∧
    (∀ e c', r = .halt e c' →
      ∃ c1 t, t ∈ body ∧ preprocessor_handle_token fuel c1 (some t) = .halt e c') ∧
    c.token_vec <+: r.state.token_vec := by
  have hh := handle_token_handler_ok fuel
  have hinv := handle_ifdef_token_follows hh fuel c
  rw [← hrun] at hinv
  have hfuel : r.fault? ≠ some .out_of_fuel :=
    hinv.2 (by simp [rlen, hr]; omega) (Nat.le_refl _)
  have hr1 : remaining (advance c 1) = body := remaining_advance_one hr
  have hloop : r = preprocessor_handle_ifdef_loop (preprocessor_handle_token fuel)
      (preprocessor_get_definition c.preprocessor.definitions (some N)) fuel (advance c 1) := by
    rw [hrun]
    unfold preprocessor_handle_ifdef_token
    simp only [next_token_cons hr, token.sval?, compiler_preprocessor]
    rfl
  have hun := handle_ifdef_loop_unterminated hh
    (preprocessor_get_definition c.preprocessor.definitions (some N)) fuel (advance c 1)
    (by rw [hr1]; exact hno)
  rw [← hloop, hr1] at hun
  refine ⟨fun hundef => ?_, hfuel, hun.1, fun e c' he => ?_, hinv.1.dst_grows⟩
  · rw [hloop, hundef, handle_ifdef_loop_skip_to_end _ body fuel (advance c 1) hno hr1
      (by omega), advance_advance, Nat.add_comm]
  · rcases hun.2 e c' he with h1 | h2
    · rw [he, h1] at hfuel
      exact absurd rfl hfuel
    · exact h2

/-- C9 at `#ifdef N a X` cut off by the end of the stream, `N` and `X` defined,
the destination holding `0` before the block. -/
theorem ifdef_unterminated_witness :
    (preprocessor_handle_ifdef_token (preprocessor_handle_token 3) 3
      (state_of [symbol '#', identifier "ifdef", identifier "N", identifier "a",
        identifier "X"] 2 [] [number 0] [example_N, example_X])).fault? ≠ some .out_of_fuel ∧
    [number 0] <+: (preprocessor_handle_ifdef_token (preprocessor_handle_token 3) 3
      (state_of [symbol '#', identifier "ifdef", identifier "N", identifier "a",
        identifier "X"] 2 [] [number 0] [example_N, example_X])).state.token_vec :=
  have h := ifdef_unterminated 3
    (state_of [symbol '#', identifier "ifdef", identifier "N", identifier "a",
      identifier "X"] 2 [] [number 0] [example_N, example_X]) "N"
    [identifier "a", identifier "X"] _ rfl rfl (by decide) (by decide)
  ⟨h.2.1, h.2.2.2.2⟩

/-! ## Exact results on macro calls -/

theorem macro_call_arguments_loop_exact (A : List token) (fuel : Nat) (c : compile_process)
    (vv : List token) (args : preprocessor_function_arguments) (rest : List token)
    (hA : symbol ')' ∉ A) (hr : remaining c = A ++ symbol ')' :: rest)
    (hf : A.length + 1 ≤ fuel) :
    preprocessor_handle_identifier_macro_call_arguments_loop fuel (preprocessor_next_token c).2
      vv args (preprocessor_next_token c).1 =
      .ok (collect_arguments vv args A) (advance c (A.length + 1)) := by
  induction A generalizing fuel c vv args with
  | nil =>
    obtain ⟨f, rfl⟩ : ∃ f, fuel = f + 1 := ⟨fuel - 1, by simp at hf; omega⟩
    rw [next_token_cons hr]
    simp only [preprocessor_handle_identifier_macro_call_arguments_loop,
      preprocessor_handle_identifier_macro_call_argument_parse]
    have : token_is_symbol (some (symbol ')')) ')' = true := by decide
    simp only [this, ↓reduceIte]
    cases f <;>
      simp [preprocessor_handle_identifier_macro_call_arguments_loop, collect_arguments,
        preprocessor_handle_identifier_macro_call_argument]
  | cons a A ih =>
    obtain ⟨f, rfl⟩ : ∃ f, fuel = f + 1 := ⟨fuel - 1, by simp at hf; omega⟩
    have ha : token_is_symbol (some a) ')' = false := by
      cases a <;> simp [token_is_symbol]
      rename_i ch
      intro hc; subst hc; exact hA (List.mem_cons_self _ _)
    have hA' : symbol ')' ∉ A := fun h => hA (List.mem_cons_of_mem _ h)
    have hr' : remaining (advance c 1) = A ++ symbol ')' :: rest := remaining_advance_one hr
    rw [next_token_cons hr]
    simp only [preprocessor_handle_identifier_macro_call_arguments_loop,
      preprocessor_handle_identifier_macro_call_argument_parse, ha, Bool.false_eq_true,
      ↓reduceIte]
    by_cases hcomma : token_is_operator (some a) "," = true
    · simp only [hcomma, ↓reduceIte, collect_arguments,
        preprocessor_handle_identifier_macro_call_argument]
      rw [ih f (advance c 1) [] _ hA' hr' (by simp at hf; omega), advance_advance]
      congr 2
      simp only [List.length_cons]; omega
    · simp only [hcomma, Bool.false_eq_true, ↓reduceIte, collect_arguments]
      rw [ih f (advance c 1) _ _ hA' hr' (by simp at hf; omega), advance_advance]
      congr 2
      simp only [List.length_cons]; omega

theorem macro_call_arguments_exact (A : List token) (fuel : Nat) (c : compile_process)
    (rest : List token) (hA : symbol ')' ∉ A)
    (hr : remaining c = operator "(" :: (A ++ symbol ')' :: rest))
    (hf : A.length + 1 ≤ fuel) :
    preprocessor_handle_identifier_macro_call_arguments fuel c =
      .ok (collect_arguments [] preprocessor_function_arguments_create A)
        (advance c (A.length + 2)) := by
  unfold preprocessor_handle_identifier_macro_call_arguments
  simp only [next_token_cons hr]
  rw [macro_call_arguments_loop_exact A fuel (advance c 1) [] _ rest hA
    (remaining_advance_one hr) hf, advance_advance]
  congr 2
  omega

theorem handle_token_call (k : Nat) (c : compile_process) (s : String)
    (A rest : List token)
    (hdef : preprocessor_get_definition c.preprocessor.definitions (some s) ≠ none)
    (hA : symbol ')' ∉ A)
    (hr : remaining c = operator "(" :: (A ++ symbol ')' :: rest))
    (hf : A.length + 1 ≤ k) :
    preprocessor_handle_token (k + 1) c (some (identifier s)) =
      preprocessor_macro_function_execute (advance c (A.length + 2)) (some s)
        (collect_arguments [] preprocessor_function_arguments_create A) := by
  obtain ⟨d, hd⟩ := Option.ne_none_iff_exists'.1 hdef
  have hp : token_is_operator (preprocessor_next_token_no_increment c) "(" = true := by
    rw [peek_eq, hr]; simp [token_is_operator]
  simp only [preprocessor_handle_token, preprocessor_handle_identifier, token.sval?, hd, hp,
    ↓reduceIte, macro_call_arguments_exact A k c rest hA hr hf]

theorem handle_token_no_call (k : Nat) (c : compile_process) (t : token)
    (hhash : t ≠ symbol '#')
    (hcall : ∀ s, t = identifier s →
      preprocessor_get_definition c.preprocessor.definitions (some s) ≠ none →
      token_is_operator (preprocessor_next_token_no_increment c) "(" = false) :
    preprocessor_handle_token (k + 1) c (some t) =
      .ok () (with_output c (dispatch_output c.preprocessor.definitions t)) := by
  cases t with
  | symbol ch =>
    have hc : ch ≠ '#' := fun hc => hhash (by rw [hc])
    simp [preprocessor_handle_token, preprocessor_handle_symbol, token.cval?, hc,
      preprocessor_token_push_dst, with_output, dispatch_output]
  | identifier s =>
    cases hd : preprocessor_get_definition c.preprocessor.definitions (some s) with
    | none =>
      simp [preprocessor_handle_token, preprocessor_handle_identifier, token.sval?, hd,
        preprocessor_token_push_dst, with_output, dispatch_output]
    | some d =>
      have := hcall s rfl (by rw [hd]; simp)
      simp [preprocessor_handle_token, preprocessor_handle_identifier, token.sval?, hd, this,
        token_vec_push_dst_eq, with_output, dispatch_output]
  | newline => simp [preprocessor_handle_token, with_output, dispatch_output]
  | number n =>
    simp [preprocessor_handle_token, preprocessor_token_push_dst, with_output, dispatch_output]
  | operator s =>
    simp [preprocessor_handle_token, preprocessor_token_push_dst, with_output, dispatch_output]
  | string s =>
    simp [preprocessor_handle_token, preprocessor_token_push_dst, with_output, dispatch_output]

theorem execute_loop_set_cursor (c : compile_process) (w : vector)
    (d : preprocessor_definition) (args : preprocessor_function_arguments)
    (v target : List token) :
    preprocessor_macro_function_execute_loop (set_cursor c w) d args v target =
      match preprocessor_macro_function_execute_loop c d args v target with
      | .ok u x => .ok u (set_cursor x w)
      | .halt e x => .halt e (set_cursor x w) := by
  induction v generalizing target with
  | nil => simp [preprocessor_macro_function_execute_loop]
  | cons t r ih =>
    cases t with
    | identifier s =>
      simp only [preprocessor_macro_function_execute_loop]
      split
      · split
        · rfl
        · exact ih _
      · exact ih _
    | _ => simp only [preprocessor_macro_function_execute_loop]; exact ih _

theorem execute_set_cursor (c : compile_process) (w : vector) (name : Option String)
    (args : preprocessor_function_arguments) :
    preprocessor_macro_function_execute (set_cursor c w) name args =
      match preprocessor_macro_function_execute c name args with
      | .ok u x => .ok u (set_cursor x w)
      | .halt e x => .halt e (set_cursor x w) := by
  unfold preprocessor_macro_function_execute compiler_preprocessor
  have hp : (set_cursor c w).preprocessor = c.preprocessor := rfl
  rw [hp]
  split
  · rfl
  · split
    · rfl
    · split
      · rfl
      · rw [execute_loop_set_cursor]
        rename_i d _ _ _
        have hs := (execute_loop_state c d args d.value []).1
        cases hl : preprocessor_macro_function_execute_loop c d args d.value [] with
        | halt e x => rfl
        | ok u x =>
          simp only [token_vec_push_dst_eq]
          rfl

theorem execute_cursor (c : compile_process) (name : Option String)
    (args : preprocessor_function_arguments) :
    (preprocessor_macro_function_execute c name args).state.token_vec_original =
      c.token_vec_original := by
  unfold preprocessor_macro_function_execute
  split
  · rfl
  · split
    · rfl
    · split
      · rfl
      · rename_i d _ _ _
        have hs := (execute_loop_state c d args d.value []).1
        cases hl : preprocessor_macro_function_execute_loop c d args d.value [] with
        | halt e x => rw [hl] at hs; simp only [Outcome.state] at hs ⊢; rw [hs]
        | ok u x =>
          rw [hl] at hs
          simp only [Outcome.state] at hs ⊢
          rw [hs, token_vec_push_dst_eq]

/-! ## Included conditional blocks -/

theorem token_is_operator_false_of_ne {o : Option token} {op : String}
    (h : o ≠ some (operator op)) : token_is_operator o op = false := by
  cases o with
  | none => rfl
  | some t =>
    cases t <;> simp [token_is_operator]
    rename_i s
    intro hs; subst hs; exact h rfl

theorem execute_ok_form {c x : compile_process} {name : Option String}
    {args : preprocessor_function_arguments}
    (h : preprocessor_macro_function_execute c name args = .ok () x) :
    ∃ v, x = with_output c v := by
  unfold preprocessor_macro_function_execute at h
  split at h
  · cases h
  · split at h
    · cases h
    · split at h
      · cases h
      · rename_i d _ _ _
        have hs := (execute_loop_state c d args d.value []).1
        cases hl : preprocessor_macro_function_execute_loop c d args d.value [] with
        | halt e y => rw [hl] at h; cases h
        | ok u y =>
          rw [hl] at h hs
          simp only [Outcome.state] at hs
          subst hs
          simp only [token_vec_push_dst_eq] at h
          cases h
          exact ⟨u, rfl⟩

theorem probe_mismatch_of_head {c : compile_process} {t : token} {r : List token}
    (hr : remaining c = t :: r) (ht : t ≠ symbol '#') :
    preprocessor_hashtag_and_identifier c "endif" = (none, c) := by
  apply hashtag_and_identifier_mismatch
  rintro ⟨rest, hrest⟩
  rw [hr] at hrest
  injection hrest with h1 _
  exact ht h1

theorem ifdef_loop_step (F fb : Nat) (d : preprocessor_definition) (cb : compile_process)
    (t : token) (r : List token) (hr : remaining cb = t :: r) (ht : t ≠ symbol '#') :
    preprocessor_handle_ifdef_loop (preprocessor_handle_token F) (some d) (fb + 1) cb =
      match preprocessor_handle_token F (advance cb 1) (some t) with
      | .halt e c1 => .halt e c1
      | .ok _ c1 => preprocessor_handle_ifdef_loop (preprocessor_handle_token F) (some d) fb c1 := by
  rw [preprocessor_handle_ifdef_loop.eq_def]
  simp only [peek_eq, hr, List.head?_cons, Option.isNone_some, Bool.false_eq_true, ↓reduceIte,
    probe_mismatch_of_head hr ht, Option.isSome_none, Option.isSome_some, next_token_cons hr]

theorem ifdef_loop_mirrors_run (defs : List preprocessor_definition)
    (d : preprocessor_definition) (cont L : List token) (hcc : calls_closed defs L) :
    ∀ (ca : compile_process) (w : vector) (fa fb F : Nat),
      ca.preprocessor.definitions = defs →
      (∀ t ∈ L, t ≠ symbol '#') →
      remaining ca = L →
      remaining (set_cursor ca w) = L ++ symbol '#' :: identifier "endif" :: cont →
      L.length ≤ fa → L.length ≤ fb → L.length + 1 ≤ F →
      mirrors { w with pindex := w.pindex + (L.length + 2) }
        (preprocessor_run_loop fa (preprocessor_next_token ca).2 (preprocessor_next_token ca).1)
        (preprocessor_handle_ifdef_loop (preprocessor_handle_token F) (some d) fb
          (set_cursor ca w)) := by
  induction hcc with
  | nil =>
    intro ca w fa fb F _ _ hra hrb _ _ _
    rw [next_token_nil hra]
    have hrun : preprocessor_run_loop fa ca none = .ok () ca := by
      cases fa <;> rfl
    rw [hrun, preprocessor_handle_ifdef_loop.eq_def]
    simp only [List.nil_append] at hrb
    simp only [peek_eq, hrb, List.head?_cons, Option.isNone_some, Bool.false_eq_true,
      ↓reduceIte, hashtag_and_identifier_match hrb, Option.isSome_some, mirrors]
    rfl
  | no_call t rest hnc hcc' ih =>
    intro ca w fa fb F hdefs hhash hra hrb hfa hfb hF
    obtain ⟨fa', rfl⟩ : ∃ f, fa = f + 1 := ⟨fa - 1, by simp at hfa; omega⟩
    obtain ⟨fb', rfl⟩ : ∃ f, fb = f + 1 := ⟨fb - 1, by simp at hfb; omega⟩
    obtain ⟨F', rfl⟩ : ∃ f, F = f + 1 := ⟨F - 1, by omega⟩
    have ht : t ≠ symbol '#' := hhash t (List.mem_cons_self _ _)
    have hrb' : remaining (set_cursor ca w) =
        t :: (rest ++ symbol '#' :: identifier "endif" :: cont) := hrb
    have hra1 : remaining (advance ca 1) = rest := remaining_advance_one hra
    have hrb1 : remaining (advance (set_cursor ca w) 1) =
        rest ++ symbol '#' :: identifier "endif" :: cont := remaining_advance_one hrb'
    have hca : preprocessor_handle_token (fa' + 2) (advance ca 1) (some t) =
        .ok () (with_output (advance ca 1) (dispatch_output defs t)) := by
      rw [handle_token_no_call (fa' + 1) (advance ca 1) t ht]
      · rw [show (advance ca 1).preprocessor.definitions = defs from hdefs]
      · intro s hs hd
        rw [peek_eq, hra1]
        exact token_is_operator_false_of_ne
          (hnc s hs (by rw [← hdefs]; exact hd))
    have hcb : preprocessor_handle_token (F' + 1) (advance (set_cursor ca w) 1) (some t) =
        .ok () (with_output (advance (set_cursor ca w) 1) (dispatch_output defs t)) := by
      rw [handle_token_no_call F' (advance (set_cursor ca w) 1) t ht]
      · rw [show (advance (set_cursor ca w) 1).preprocessor.definitions = defs from hdefs]
      · intro s hs hd
        rw [peek_eq, hrb1]
        apply token_is_operator_false_of_ne
        have h1 := hnc s hs (by rw [← hdefs]; exact hd)
        cases rest with
        | nil => simp
        | cons u rest' => simpa using h1
    rw [next_token_cons hra, run_loop_step, hca, ifdef_loop_step _ _ _ _ t _ hrb' ht, hcb]
    simp only
    have := ih (with_output (advance ca 1) (dispatch_output defs t))
      { w with pindex := w.pindex + 1 } fa' fb' (F' + 1) hdefs
      (fun u hu => hhash u (List.mem_cons_of_mem _ hu)) hra1 hrb1
      (by simp at hfa; omega) (by simp at hfb; omega) (by simp at hF; omega)
    have hw : ({ w with pindex := w.pindex + 1 + (rest.length + 2) } : vector) =
        { w with pindex := w.pindex + ((t :: rest).length + 2) } := by
      simp only [List.length_cons]
      congr 1
      omega
    rw [← hw]
    exact this
  | call s A rest hdef hA hcc' ih =>
    intro ca w fa fb F hdefs hhash hra hrb hfa hfb hF
    obtain ⟨fa', rfl⟩ : ∃ f, fa = f + 1 := ⟨fa - 1, by simp at hfa; omega⟩
    obtain ⟨fb', rfl⟩ : ∃ f, fb = f + 1 := ⟨fb - 1, by simp at hfb; omega⟩
    obtain ⟨F', rfl⟩ : ∃ f, F = f + 1 := ⟨F - 1, by omega⟩
    have hlen : (identifier s :: operator "(" :: (A ++ symbol ')' :: rest)).length =
        A.length + rest.length + 3 := by
      simp; omega
    rw [hlen] at hfa hfb hF
    have ht : identifier s ≠ symbol '#' := by intro h; cases h
    have hrb' : remaining (set_cursor ca w) = identifier s :: operator "(" ::
        (A ++ symbol ')' :: (rest ++ symbol '#' :: identifier "endif" :: cont)) := by
      rw [hrb]; simp
    have hra1 := remaining_advance_one hra
    have hrb1 := remaining_advance_one hrb'
    have hca := handle_token_call (fa' + 1) (advance ca 1) s A rest
      (by rw [show (advance ca 1).preprocessor.definitions = defs from hdefs]; exact hdef)
      hA hra1 (by omega)
    have hcb := handle_token_call F' (advance (set_cursor ca w) 1) s A
      (rest ++ symbol '#' :: identifier "endif" :: cont)
      (by
        rw [show (advance (set_cursor ca w) 1).preprocessor.definitions = defs from hdefs]
        exact hdef)
      hA hrb1 (by omega)
    have hset : advance (advance (set_cursor ca w) 1) (A.length + 2) =
        set_cursor (advance (advance ca 1) (A.length + 2))
          { w with pindex := w.pindex + 1 + (A.length + 2) } := rfl
    rw [hset, execute_set_cursor] at hcb
    rw [next_token_cons hra, run_loop_step, hca, ifdef_loop_step _ _ _ _ _ _ hrb' ht, hcb]
    cases hex : preprocessor_macro_function_execute (advance (advance ca 1) (A.length + 2))
        (some s) (collect_arguments [] preprocessor_function_arguments_create A) with
    | halt e x =>
      simp only [mirrors]
      exact ⟨_, rfl⟩
    | ok u x =>
      simp only
      obtain ⟨v, hv⟩ := execute_ok_form hex
      have hrx : remaining x = rest := by
        rw [hv, remaining_with_output, advance_advance, remaining_advance, hra,
          show 1 + (A.length + 2) = (identifier s :: operator "(" :: (A ++ [symbol ')'])).length
            by simp; omega,
          show identifier s :: operator "(" :: (A ++ symbol ')' :: rest) =
            (identifier s :: operator "(" :: (A ++ [symbol ')'])) ++ rest by simp,
          List.drop_left]
      have hrxb : remaining (set_cursor x { w with pindex := w.pindex + 1 + (A.length + 2) }) =
          rest ++ symbol '#' :: identifier "endif" :: cont := by
        rw [hv]
        show remaining (advance (advance (set_cursor ca w) 1) (A.length + 2)) = _
        rw [advance_advance, remaining_advance, hrb',
          show 1 + (A.length + 2) = (identifier s :: operator "(" :: (A ++ [symbol ')'])).length
            by simp; omega,
          show identifier s :: operator "(" ::
              (A ++ symbol ')' :: (rest ++ symbol '#' :: identifier "endif" :: cont)) =
            (identifier s :: operator "(" :: (A ++ [symbol ')'])) ++
              (rest ++ symbol '#' :: identifier "endif" :: cont) by simp,
          List.drop_left]
      have := ih x { w with pindex := w.pindex + 1 + (A.length + 2) } fa' fb' (F' + 1)
        (by rw [hv]; exact hdefs)
        (fun u hu => hhash u (by simp; right; right; right; exact Or.inr hu))
        hrx hrxb (by omega) (by omega) (by omega)
      have hw : ({ w with pindex := w.pindex + 1 + (A.length + 2) + (rest.length + 2) }
          : vector) = { w with pindex := w.pindex +
            ((identifier s :: operator "(" :: (A ++ symbol ')' :: rest)).length + 2) } := by
        rw [hlen]
        congr 1
        omega
      rw [← hw]
      exact this

theorem handle_token_ifdef_defined (fuel : Nat) (c : compile_process) (N : String)
    (d : preprocessor_definition) (rest : List token)
    (hdef : preprocessor_get_definition c.preprocessor.definitions (some N) = some d)
    (hr : remaining c = identifier "ifdef" :: identifier N :: rest) :
    preprocessor_handle_token (fuel + 1) c (some (symbol '#')) =
      match preprocessor_handle_ifdef_loop (preprocessor_handle_token fuel) (some d) fuel
          (advance c 2) with
      | .halt e x => .halt e x
      | .ok _ x => .ok () x := by
  have hr1 := remaining_advance_one hr
  have hd : preprocessor_token_is_define (identifier "ifdef") = false := by decide
  have hi : preprocessor_token_is_ifdef (identifier "ifdef") = true := by decide
  have hu : preprocessor_get_definition (advance (advance c 1) 1).preprocessor.definitions
      (some N) = some d := hdef
  simp only [preprocessor_handle_token, preprocessor_handle_symbol, token.cval?, ↓reduceIte,
    preprocessor_handle_hashtag_token, next_token_cons hr, hd, hi, Bool.false_eq_true,
    preprocessor_handle_ifdef_token, next_token_cons hr1, compiler_preprocessor, token.sval?,
    hu]
  rw [advance_advance]
  cases preprocessor_handle_ifdef_loop (preprocessor_handle_token fuel) (some d) fuel
    (advance c (1 + 1)) <;> rfl

/-- C6, as stated, fails: with `N` defined and `F(a)` defined as `a`, the body
`F ( 1 , 2` holds no `#`; dispatched alone it succeeds and appends `1`, but
`# ifdef N F ( 1 , 2 # endif )` halts with the argument-count diagnostic, the
call having read on through `# endif` up to the `)` behind it, and appends
nothing. -/
theorem ifdef_defined_counterexample :
    preprocessor_get_definition [example_N, example_F] (some "N") = some example_N ∧
    (∀ t ∈ [identifier "F", operator "(", number 1, operator ",", number 2],
      t ≠ symbol '#') ∧
    preprocessor_run
      (state_of [identifier "F", operator "(", number 1, operator ",", number 2] 0 [] []
        [example_N, example_F]) =
      .ok () (state_of [identifier "F", operator "(", number 1, operator ",", number 2] 5 []
        [number 1] [example_N, example_F]) ∧
    preprocessor_handle_token 12
      (state_of [symbol '#', identifier "ifdef", identifier "N", identifier "F", operator "(",
        number 1, operator ",", number 2, symbol '#', identifier "endif", symbol ')'] 1 [] []
        [example_N, example_F]) (some (symbol '#')) =
      .halt .wrong_argument_count
        (state_of [symbol '#', identifier "ifdef", identifier "N", identifier "F",
          operator "(", number 1, operator ",", number 2, symbol '#', identifier "endif",
          symbol ')'] 11 [] [] [example_N, example_F]) := by
  refine ⟨by decide, by decide, by decide, by decide⟩

/-- C6, amended: included conditional block.  In a table where `N` is defined,
for a body that holds no `#` symbol and in which every call of a defined macro
is closed by a `)` inside the body, dispatching the `#` of
`# ifdef N body # endif` does what the dispatch loop run over the body tokens
alone, from the same destination and table, does: if that run succeeds, the
block succeeds in the same final destination and table with the cursor just
past `endif`; if that run halts, the block halts with the same fault in the
same destination and table. -/
theorem ifdef_defined_runs_body (fuel : Nat) (c : compile_process) (N : String)
    (d : preprocessor_definition) (body cont : List token)
    (hdef : preprocessor_get_definition c.preprocessor.definitions (some N) = some d)
    (hhash : ∀ t ∈ body, t ≠ symbol '#')
    (hcc : calls_closed c.preprocessor.definitions body)
    (hr : remaining c = identifier "ifdef" :: identifier N ::
      (body ++ symbol '#' :: identifier "endif" :: cont))
    (hf : body.length + 1 ≤ fuel) :
    (∀ c1, preprocessor_run (state_of body 0 [] c.token_vec c.preprocessor.definitions) =
        .ok () c1 →
      preprocessor_handle_token (fuel + 1) c (some (symbol '#')) =
        .ok () (set_cursor c1 (advance c (body.length + 4)).token_vec_original)) ∧
    (∀ e c1, preprocessor_run (state_of body 0 [] c.token_vec c.preprocessor.definitions) =
        .halt e c1 →
      ∃ w, preprocessor_handle_token (fuel + 1) c (some (symbol '#')) =
        .halt e (set_cursor c1 w)) := by
  have hm := ifdef_loop_mirrors_run c.preprocessor.definitions d cont body hcc
    (state_of body 0 [] c.token_vec c.preprocessor.definitions)
    (advance c 2).token_vec_original body.length fuel fuel rfl hhash
    (by simp [remaining, state_of])
    (by
      show remaining (advance c 2) = _
      rw [← advance_advance c 1 1]
      exact remaining_advance_one (remaining_advance_one hr))
    (Nat.le_refl _) (by omega) hf
  have hrun : preprocessor_run (state_of body 0 [] c.token_vec c.preprocessor.definitions) =
      preprocessor_run_loop body.length
        (preprocessor_next_token (state_of body 0 [] c.token_vec c.preprocessor.definitions)).2
        (preprocessor_next_token (state_of body 0 [] c.token_vec c.preprocessor.definitions)).1 :=
    rfl
  have hset : set_cursor (state_of body 0 [] c.token_vec c.preprocessor.definitions)
      (advance c 2).token_vec_original = advance c 2 := rfl
  have hw : ({ (advance c 2).token_vec_original with
      pindex := (advance c 2).token_vec_original.pindex + (body.length + 2) } : vector) =
      (advance c (body.length + 4)).token_vec_original := by
    simp only [advance]
    congr 1
    omega
  rw [← hrun, hset, hw] at hm
  rw [handle_token_ifdef_defined fuel c N d _ hdef hr]
  constructor
  · intro c1 h1
    rw [h1] at hm
    simp only [mirrors] at hm
    rw [hm]
  · intro e c1 h1
    rw [h1] at hm
    simp only [mirrors] at hm
    obtain ⟨w, hw'⟩ := hm
    exact ⟨w, by rw [hw']⟩

/-- C6 amended, at `# ifdef N ADD ( 1 , 2 ) X # endif z` with `N`, `ADD(a,b)` and
`X` defined: the block appends `1 + 2 5`, as the pass over `ADD ( 1 , 2 ) X`
does, and leaves the cursor before `z`. -/
theorem ifdef_defined_runs_body_witness :
    preprocessor_handle_token 9
      (state_of [symbol '#', identifier "ifdef", identifier "N", identifier "ADD",
        operator "(", number 1, operator ",", number 2, symbol ')', identifier "X",
        symbol '#', identifier "endif", identifier "z"] 1 [] []
        [example_N, example_ADD, example_X]) (some (symbol '#')) =
    .ok () (state_of [symbol '#', identifier "ifdef", identifier "N", identifier "ADD",
        operator "(", number 1, operator ",", number 2, symbol ')', identifier "X",
        symbol '#', identifier "endif", identifier "z"] 12 []
        [number 1, operator "+", number 2, number 5] [example_N, example_ADD, example_X]) :=
  (ifdef_defined_runs_body 8
    (state_of [symbol '#', identifier "ifdef", identifier "N", identifier "ADD",
        operator "(", number 1, operator ",", number 2, symbol ')', identifier "X",
        symbol '#', identifier "endif", identifier "z"] 1 [] []
        [example_N, example_ADD, example_X]) "N" example_N
    [identifier "ADD", operator "(", number 1, operator ",", number 2, symbol ')',
      identifier "X"] [identifier "z"] (by decide) (by decide)
    (calls_closed.call "ADD" [number 1, operator ",", number 2] [identifier "X"]
      (by decide) (by decide)
      (calls_closed.no_call (identifier "X") [] (fun _ _ _ => by decide) calls_closed.nil))
    rfl (by decide)).1
    (state_of [identifier "ADD", operator "(", number 1, operator ",", number 2, symbol ')',
      identifier "X"] 7 [] [number 1, operator "+", number 2, number 5]
      [example_N, example_ADD, example_X]) (by decide)

/-! ## Expansion is single-pass -/

theorem macro_function_execute_ok (c : compile_process) (name : String)
    (d : preprocessor_definition) (arguments : preprocessor_function_arguments)
    (hdef : preprocessor_get_definition c.preprocessor.definitions (some name) = some d)
    (hkind : d.type = PREPROCESSOR_DEFINITION_MACRO_FUNCTION)
    (hlen : d.arguments.length = arguments.arguments.length)
    (hshort : short_names d.arguments) :
    preprocessor_macro_function_execute c (some name) arguments =
      .ok () (with_output c (macro_expansion d arguments)) := by
  unfold preprocessor_macro_function_execute compiler_preprocessor
  simp only [hdef, hkind, ne_eq, not_true_eq_false, ↓reduceIte,
    preprocessor_function_arguments_count, hlen, execute_loop_eq c d arguments hlen hshort,
    token_vec_push_dst_eq, List.nil_append, macro_expansion, with_output]

theorem macro_expansion_single (d : preprocessor_definition) (a : String) (v : List token)
    (hparams : d.arguments = [a]) :
    macro_expansion d { arguments := [{ tokens := v }] } =
      d.value.flatMap (fun t => if t = identifier a then v else [t]) := by
  unfold macro_expansion
  congr 1
  funext t
  cases t with
  | identifier s =>
    by_cases h : s = a
    · subst h
      simp [substitute_token, hparams, List.indexOf?, List.findIdx?_cons]
    · have h' : (a == s) = false := by simpa using fun h' => h h'.symm
      simp [substitute_token, hparams, List.indexOf?, List.findIdx?_cons, h', h]
  | _ => simp [substitute_token]

theorem flatMap_rename (R : List token) (a M : String) :
    R.flatMap (fun t => if t = identifier a then [identifier M] else [t]) =
      R.map (fun t => if t = identifier a then identifier M else t) := by
  induction R with
  | nil => rfl
  | cons t R ih =>
    by_cases h : t = identifier a <;> simp [List.flatMap_cons, h, ih]

theorem run_function_call_of_name (defs : List preprocessor_definition) (dst : List token)
    (saves : List Nat) (p : Nat) (F a M : String) (dF : preprocessor_definition)
    (hF : preprocessor_get_definition defs (some F) = some dF)
    (hkind : dF.type = PREPROCESSOR_DEFINITION_MACRO_FUNCTION)
    (hparams : dF.arguments = [a]) (hshort : a.length < sizeof_const_char_pointer) :
    preprocessor_run
      (state_of [identifier F, operator "(", identifier M, symbol ')'] p saves dst defs) =
    .ok () (state_of [identifier F, operator "(", identifier M, symbol ')'] 4 saves
      (dst ++ dF.value.map (fun t => if t = identifier a then identifier M else t)) defs) := by
  obtain ⟨c0, hc0⟩ : ∃ c0 : compile_process,
      state_of [identifier F, operator "(", identifier M, symbol ')'] 0 saves dst defs = c0 :=
    ⟨_, rfl⟩
  have hr0 : remaining c0 = [identifier F, operator "(", identifier M, symbol ')'] := by
    subst hc0; rfl
  have hd0 : c0.preprocessor.definitions = defs := by subst hc0; rfl
  have hr1 : remaining (advance c0 1) = operator "(" :: ([identifier M] ++ symbol ')' :: []) :=
    remaining_advance_one hr0
  have hcall := handle_token_call 4 (advance c0 1) F [identifier M] []
    (by rw [show (advance c0 1).preprocessor.definitions = defs from hd0, hF]; simp)
    (by simp) hr1 (by simp)
  have hargs : collect_arguments [] preprocessor_function_arguments_create [identifier M] =
      { arguments := [{ tokens := [identifier M] }] } := by
    simp [collect_arguments, token_is_operator, preprocessor_function_argument_push,
      preprocessor_function_arguments_create]
  have hex := macro_function_execute_ok (advance (advance c0 1) ([identifier M].length + 2)) F
    dF { arguments := [{ tokens := [identifier M] }] }
    (by rw [show (advance (advance c0 1) ([identifier M].length + 2)).preprocessor.definitions
      = defs from hd0]; exact hF) hkind (by rw [hparams]; rfl)
    (by rw [hparams]; intro q hq; rw [List.mem_singleton.1 hq]; exact hshort)
  rw [hargs, hex, macro_expansion_single dF a [identifier M] hparams, flatMap_rename] at hcall
  have hrun : preprocessor_run
      (state_of [identifier F, operator "(", identifier M, symbol ')'] p saves dst defs) =
      preprocessor_run_loop 4 (preprocessor_next_token c0).2 (preprocessor_next_token c0).1 := by
    rw [← hc0]; rfl
  rw [hrun, next_token_cons hr0]
  simp only
  rw [run_loop_step, hcall]
  simp only
  have hr4 : remaining (with_output (advance (advance c0 1) ([identifier M].length + 2))
      (dF.value.map (fun t => if t = identifier a then identifier M else t))) = [] := by
    rw [remaining_with_output, advance_advance, remaining_advance, hr0]; rfl
  rw [next_token_nil hr4]
  simp only [preprocessor_run_loop]
  subst hc0
  rfl

theorem run_object_reference (defs : List preprocessor_definition) (dst : List token)
    (saves : List Nat) (p : Nat) (X : String) (dX : preprocessor_definition)
    (hX : preprocessor_get_definition defs (some X) = some dX) :
    preprocessor_run (state_of [identifier X] p saves dst defs) =
      .ok () (state_of [identifier X] 1 saves (dst ++ dX.value) defs) := by
  obtain ⟨c0, hc0⟩ : ∃ c0 : compile_process,
      state_of [identifier X] 0 saves dst defs = c0 := ⟨_, rfl⟩
  have hr0 : remaining c0 = [identifier X] := by subst hc0; rfl
  have hd0 : c0.preprocessor.definitions = defs := by subst hc0; rfl
  have hr1 : remaining (advance c0 1) = [] := remaining_advance_one hr0
  have hstep := handle_token_no_call 1 (advance c0 1) (identifier X) (by intro h; cases h)
    (by intro s _ _; rw [peek_eq, hr1]; rfl)
  have hout : dispatch_output (advance c0 1).preprocessor.definitions (identifier X) =
      dX.value := by
    rw [show (advance c0 1).preprocessor.definitions = defs from hd0]
    simp [dispatch_output, hX]
  rw [hout] at hstep
  have hrun : preprocessor_run (state_of [identifier X] p saves dst defs) =
      preprocessor_run_loop 1 (preprocessor_next_token c0).2 (preprocessor_next_token c0).1 := by
    rw [← hc0]; rfl
  rw [hrun, next_token_cons hr0]
  simp only
  rw [run_loop_step, hstep]
  simp only
  have hr2 : remaining (with_output (advance c0 1) dX.value) = [] := hr1
  rw [next_token_nil hr2]
  simp only [preprocessor_run_loop]
  subst hc0
  rfl

/-- Expansion is single-pass where the parameter name fits its element of the
parameter vector.  Let `M` be a defined macro.  If `F` is a function-like macro
with the one parameter `a` of fewer than 8 characters, which occurs in its
replacement, the pass over `F ( M )` appends the replacement of `F` with every
identifier `a` replaced by the identifier token `M` itself, so `M` is in the
destination unexpanded.  Likewise, if the replacement of the object macro `X`
holds the identifier `M`, the pass over `X` appends that replacement verbatim,
`M` included.  In both cases the pass ends there: what was appended is not
dispatched again. -/
theorem expansion_is_single_pass (defs : List preprocessor_definition) (dst : List token)
    (saves : List Nat) (p : Nat) (F a M X : String) (dF dM dX : preprocessor_definition)
    (_hM : preprocessor_get_definition defs (some M) = some dM)
    (hF : preprocessor_get_definition defs (some F) = some dF)
    (hkind : dF.type = PREPROCESSOR_DEFINITION_MACRO_FUNCTION)
    (hparams : dF.arguments = [a]) (hshort : a.length < sizeof_const_char_pointer)
    (ha : identifier a ∈ dF.value)
    (hX : preprocessor_get_definition defs (some X) = some dX)
    (hXM : identifier M ∈ dX.value) :
    (preprocessor_run
        (state_of [identifier F, operator "(", identifier M, symbol ')'] p saves dst defs) =
      .ok () (state_of [identifier F, operator "(", identifier M, symbol ')'] 4 saves
        (dst ++ dF.value.map (fun t => if t = identifier a then identifier M else t)) defs) ∧
      identifier M ∈ dF.value.map (fun t => if t = identifier a then identifier M else t)) ∧
    (preprocessor_run (state_of [identifier X] p saves dst defs) =
      .ok () (state_of [identifier X] 1 saves (dst ++ dX.value) defs) ∧
      identifier M ∈ dX.value) := by
  refine ⟨⟨run_function_call_of_name defs dst saves p F a M dF hF hkind hparams hshort, ?_⟩,
    run_object_reference defs dst saves p X dX hX, hXM⟩
  rw [List.mem_map]
  exact ⟨identifier a, ha, by simp⟩

/-- At a table that defines `M` as `9`, `F(a)` as `a` and `Y` as `M + 1`:
`F ( M )` yields the token `M`, and `Y` yields `M + 1`. -/
theorem expansion_is_single_pass_witness :
    preprocessor_run
      (state_of [identifier "F", operator "(", identifier "M", symbol ')'] 0 [] []
        [example_M, example_F, example_Y]) =
      .ok () (state_of [identifier "F", operator "(", identifier "M", symbol ')'] 4 [] 
        [identifier "M"] [example_M, example_F, example_Y]) ∧
    preprocessor_run (state_of [identifier "Y"] 0 [] [] [example_M, example_F, example_Y]) =
      .ok () (state_of [identifier "Y"] 1 [] [identifier "M", operator "+", number 1]
        [example_M, example_F, example_Y]) :=
  have h := expansion_is_single_pass [example_M, example_F, example_Y] [] [] 0 "F" "a" "M" "Y"
    example_F example_M example_Y (by decide) (by decide) rfl rfl (by decide) (by decide)
    (by decide) (by decide)
  ⟨h.1.1, h.2.1⟩

/-! ## Behaviour of the code where it departs from the specification -/

/-- C12, the code at `#define X a \ b c`: the `\` is not followed by a newline,
yet it is dropped together with the token `b` after it, and the stored
replacement is `a c`. -/
theorem define_value_drops_token_after_backslash :
    preprocessor_run (state_of [symbol '#', identifier "define", identifier "X",
      identifier "a", symbol '\\', identifier "b", identifier "c", newline] 0 [] [] []) =
    .ok () (state_of [symbol '#', identifier "define", identifier "X",
      identifier "a", symbol '\\', identifier "b", identifier "c", newline] 8 [] []
      [{ type := PREPROCESSOR_DEFINITION_STANDARD, name := some "X",
         value := [identifier "a", identifier "c"], arguments := [] }]) := by
  decide

/-- C13, the code at `# if N` and at a stray `# endif 1`: the `#` is appended, the
directive name after it is consumed and appended nowhere. -/
theorem unhandled_directive_drops_name :
    preprocessor_run (state_of [symbol '#', identifier "if", identifier "N"] 0 [] [] []) =
      .ok () (state_of [symbol '#', identifier "if", identifier "N"] 3 []
        [symbol '#', identifier "N"] []) ∧
    preprocessor_run (state_of [symbol '#', identifier "endif", number 1] 0 [] [] []) =
      .ok () (state_of [symbol '#', identifier "endif", number 1] 3 []
        [symbol '#', number 1] []) := by
  decide

/-- C18, the code at `# ifdef` followed by a newline, `a # endif b`: the token
after `ifdef` is no identifier, yet handling goes on as for an undefined name,
skips to `# endif` and the pass succeeds with `b`. -/
theorem ifdef_condition_kind_unchecked :
    preprocessor_run (state_of [symbol '#', identifier "ifdef", newline, identifier "a",
      symbol '#', identifier "endif", identifier "b"] 0 [] [] []) =
    .ok () (state_of [symbol '#', identifier "ifdef", newline, identifier "a",
      symbol '#', identifier "endif", identifier "b"] 7 [] [identifier "b"] []) := by
  decide

/-- C19, the code: after `preprocessor_set_expression_node(node, L, R, op)` the left
child and the operator read back as stored, but the right child reads back as
`L`, whatever `R` was. -/
theorem set_expression_node_right_is_left (node : preprocessor_node) (L R : Option Nat)
    (op : Option String) :
    preprocessor_get_left_node (preprocessor_set_expression_node node L R op) = L ∧
    preprocessor_get_right_node (preprocessor_set_expression_node node L R op) = L ∧
    preprocessor_get_node_operator (preprocessor_set_expression_node node L R op) = op :=
  ⟨rfl, rfl, rfl⟩

/-! ## Newlines at dispatch -/

/-- C20: newline tokens are discarded at dispatch.  For every table and every
input that holds no `#` symbol and no identifier with a definition,
`preprocessor_run` ends at the end of the input with the destination extended
by exactly the input without its newline tokens, every other token copied in
order, and the table unchanged; and `preprocessor_handle_token` applied to a
newline token returns the state it was given: destination, table and cursor
are unchanged. -/
theorem newlines_discarded (defs : List preprocessor_definition) (dst : List token)
    (saves : List Nat) (p : Nat) (input : List token) (fuel : Nat) (c : compile_process)
    (h : ∀ t ∈ input, inert defs t) :
    preprocessor_run (state_of input p saves dst defs) =
      .ok () (state_of input input.length saves
        (dst ++ input.filter (fun t => t ≠ newline)) defs) ∧
    preprocessor_handle_token (fuel + 1) c (some newline) = .ok () c :=
  ⟨run_inert defs dst saves p input h, rfl⟩

/-- C20 at the input `a`, newline, `+`, newline, `1` with only `X` defined. -/
theorem newlines_discarded_witness :
    preprocessor_run (state_of [identifier "a", newline, operator "+", newline, number 1]
      0 [] [number 0] [example_X]) =
    .ok () (state_of [identifier "a", newline, operator "+", newline, number 1] 5 []
      [number 0, identifier "a", operator "+", number 1] [example_X]) :=
  (newlines_discarded [example_X] [number 0] [] 0
    [identifier "a", newline, operator "+", newline, number 1] 0
    (state_of [] 0 [] [] [])
    (by
      intro t ht
      simp at ht
      rcases ht with h | h | h | h | h <;> subst h
      · exact ⟨by decide, fun s hs => by cases hs; decide⟩
      all_goals exact ⟨by decide, fun s hs => by cases hs⟩)).1

/-! ## Flat argument-list splitting -/

theorem token_is_operator_comma (t : token) :
    token_is_operator (some t) "," = (t == operator ",") := by
  cases t <;> simp [token_is_operator]

theorem modifyHead_nil_append (l : List (List token)) :
    l.modifyHead (fun x => ([] : List token) ++ x) = l := by
  cases l <;> simp [List.modifyHead]

theorem collect_arguments_eq (A vv : List token) (args : preprocessor_function_arguments) :
    collect_arguments vv args A =
      { arguments := args.arguments ++
          ((A.splitOn (operator ",")).modifyHead (fun x => vv ++ x)).map
            (fun ts => { tokens := ts }) } := by
  induction A generalizing vv args with
  | nil =>
    simp [collect_arguments, preprocessor_function_argument_push, List.splitOn,
      List.modifyHead]
  | cons t A ih =>
    simp only [collect_arguments, token_is_operator_comma, List.splitOn, List.splitOnP_cons]
    by_cases h : (t == operator ",") = true
    · simp only [h, ↓reduceIte, ih, preprocessor_function_argument_push]
      simp only [List.splitOn, modifyHead_nil_append, List.modifyHead, List.append_nil,
        List.map_cons, List.append_assoc, List.singleton_append]
      cases List.splitOnP (fun x => x == operator ",") A <;> simp
    · simp only [h, Bool.false_eq_true, ↓reduceIte, ih]
      simp only [List.splitOn, List.modifyHead_modifyHead]
      have hf : (fun x => vv ++ [t] ++ x) = ((fun x => vv ++ x) ∘ List.cons t) := by
        funext x; simp
      rw [hf]

theorem length_splitOn_comma (A : List token) :
    (A.splitOn (operator ",")).length = A.count (operator ",") + 1 := by
  induction A with
  | nil => rfl
  | cons t A ih =>
    simp only [List.splitOn, List.splitOnP_cons] at ih ⊢
    by_cases h : (t == operator ",") = true
    · have ht : t = operator "," := by simpa using h
      subst ht
      simp [ih]
    · have ht : t ≠ operator "," := by simpa using h
      have hc : List.count (operator ",") (t :: A) = List.count (operator ",") A := by
        rw [List.count_cons]
        simp [ht]
      rw [if_neg h, hc, ← ih]
      cases List.splitOnP (fun x => x == operator ",") A <;> simp [List.modifyHead]

theorem not_mem_of_mem_splitOn_comma (A piece : List token)
    (h : piece ∈ A.splitOn (operator ",")) : operator "," ∉ piece := by
  induction A generalizing piece with
  | nil =>
    simp [List.splitOn] at h
    subst h
    simp
  | cons t A ih =>
    simp only [List.splitOn, List.splitOnP_cons] at h ih
    by_cases ht : (t == operator ",") = true
    · rw [if_pos ht] at h
      rcases List.mem_cons.1 h with h1 | h1
      · subst h1; simp
      · exact ih piece h1
    · rw [if_neg ht] at h
      have hne : t ≠ operator "," := by simpa using ht
      cases hs : List.splitOnP (fun x => x == operator ",") A with
      | nil => rw [hs] at h; simp [List.modifyHead] at h
      | cons first others =>
        rw [hs] at h ih
        simp only [List.modifyHead, List.mem_cons] at h
        rcases h with h1 | h1
        · subst h1
          intro hm
          rcases List.mem_cons.1 hm with h2 | h2
          · exact hne h2.symm
          · exact ih first (List.mem_cons_self _ _) h2
        · exact ih piece (List.mem_cons_of_mem _ h1)

/-- C16: flat argument-list splitting.  On `(` `A` `)` `rest`, where `A` holds no
`)` symbol, `preprocessor_handle_identifier_macro_call_arguments` returns the
arguments obtained by splitting `A` at every `,` operator and leaves the
cursor at the start of `rest`.  The pieces are the maximal comma-free runs,
empty ones included: none holds a `,`, joined by `,` they give back `A` (so
every other token, a nested `(` included, stays in its argument in order),
and their number is the number of `,` in `A` plus one. -/
theorem call_arguments_split_flat (fuel : Nat) (c : compile_process) (A rest : List token)
    (hA : symbol ')' ∉ A) (hr : remaining c = operator "(" :: (A ++ symbol ')' :: rest))
    (hf : A.length + 1 ≤ fuel) :
    preprocessor_handle_identifier_macro_call_arguments fuel c =
      .ok { arguments := (A.splitOn (operator ",")).map (fun ts => { tokens := ts }) }
        (advance c (A.length + 2)) ∧
    remaining (advance c (A.length + 2)) = rest ∧
    (∀ piece ∈ A.splitOn (operator ","), operator "," ∉ piece) ∧
    [operator ","].intercalate (A.splitOn (operator ",")) = A ∧
    preprocessor_function_arguments_count
      { arguments := (A.splitOn (operator ",")).map (fun ts => { tokens := ts }) } =
      A.count (operator ",") + 1 := by
  refine ⟨?_, ?_, not_mem_of_mem_splitOn_comma A, List.intercalate_splitOn A (operator ","), ?_⟩
  · rw [macro_call_arguments_exact A fuel c rest hA hr hf, collect_arguments_eq]
    have hid : ∀ l : List (List token), l.modifyHead (fun x => x) = l := by
      intro l; cases l <;> rfl
    simp only [preprocessor_function_arguments_create, List.nil_append, hid]
  · rw [remaining_advance, hr,
      show A.length + 2 = (operator "(" :: (A ++ [symbol ')'])).length by simp,
      show operator "(" :: (A ++ symbol ')' :: rest) =
        (operator "(" :: (A ++ [symbol ')'])) ++ rest by simp,
      List.drop_left]
  · simp [preprocessor_function_arguments_count, length_splitOn_comma]

/-- C16 at `( x ( y , ) z` and at `( )`: the first gives the two arguments
`x ( y` and the empty one, the second gives one empty argument. -/
theorem call_arguments_split_flat_witness :
    preprocessor_handle_identifier_macro_call_arguments 5
      (state_of [identifier "F", operator "(", identifier "x", operator "(", identifier "y",
        operator ",", symbol ')', identifier "z"] 1 [] [] []) =
      .ok { arguments := [{ tokens := [identifier "x", operator "(", identifier "y"] },
          { tokens := [] }] }
        (state_of [identifier "F", operator "(", identifier "x", operator "(", identifier "y",
          operator ",", symbol ')', identifier "z"] 7 [] [] []) ∧
    preprocessor_handle_identifier_macro_call_arguments 1
      (state_of [identifier "F", operator "(", symbol ')'] 1 [] [] []) =
      .ok { arguments := [{ tokens := [] }] }
        (state_of [identifier "F", operator "(", symbol ')'] 3 [] [] []) :=
  ⟨(call_arguments_split_flat 5
      (state_of [identifier "F", operator "(", identifier "x", operator "(", identifier "y",
        operator ",", symbol ')', identifier "z"] 1 [] [] [])
      [identifier "x", operator "(", identifier "y", operator ","] [identifier "z"]
      (by decide) rfl (by decide)).1,
    (call_arguments_split_flat 1 (state_of [identifier "F", operator "(", symbol ')'] 1 [] [] [])
      [] [] (by decide) rfl (by decide)).1⟩

/-! ## Member offsets -/

theorem int_add_size_eq {position : Int} {size : Nat} (h0 : 0 ≤ position)
    (h1 : position + size < 2 ^ 31) :
    helper.int_add_size position size = position + size := by
  unfold helper.int_add_size
  rw [Int.emod_eq_of_lt (by omega) (by omega)]
  omega

theorem struct_offset_loop_eq (pre post : List helper.var_node) (v : helper.var_node)
    (var_name : String) (position : Int) (out : Option helper.var_node) (hv : v.name = some var_name)
    (hpre : ∀ u ∈ pre, u.name ≠ some var_name) (h0 : 0 ≤ position)
    (h1 : position + ((pre.map (fun u => u.size)).sum : Nat) < 2 ^ 31) :
    helper.struct_offset_loop (pre ++ v :: post) (some var_name) position out =
      (position + ((pre.map (fun u => u.size)).sum : Nat), some v) := by
  induction pre generalizing position out with
  | nil =>
    simp [helper.struct_offset_loop, hv, S_EQ]
  | cons u pre ih =>
    have hu : S_EQ u.name (some var_name) = false := by
      cases hs : S_EQ u.name (some var_name) with
      | false => rfl
      | true => exact absurd ((S_EQ_name_iff _ _).1 hs) (hpre u (List.mem_cons_self _ _))
    simp only [List.map_cons, List.sum_cons, Nat.cast_add] at h1 ⊢
    have hstep : helper.int_add_size position u.size = position + u.size :=
      int_add_size_eq h0 (by omega)
    show helper.struct_offset_loop (u :: (pre ++ v :: post)) (some var_name) position out = _
    rw [helper.struct_offset_loop]
    simp only [hu, Bool.false_eq_true, ↓reduceIte, hstep]
    rw [ih (position + u.size) (some u) (fun w hw => hpre w (List.mem_cons_of_mem _ hw))
      (by omega) (by omega)]
    congr 1
    omega

/-- C15: `struct_offset` returns the byte position of a member as the sum of the
sizes of the members declared before it.  When `struct_name` resolves to a
struct whose body holds a variable named `var_name`, `v` being the first such
and `pre` the variables before it, and the sum of the sizes of `pre` is in the
range of `int`, the result is that sum (0 for the first member) and the
out-pointer holds `v`. -/
theorem struct_offset_sums_preceding
    (symresolver_get_symbol : String → Option helper.symbol)
    (struct_name var_name : String) (var_node_out : Option helper.var_node)
    (struct_sym : helper.symbol) (pre post : List helper.var_node) (v : helper.var_node)
    (hsym : symresolver_get_symbol struct_name = some struct_sym)
    (hty : struct_sym.type = helper.symbol_type.SYMBOL_TYPE_NODE)
    (hnode : struct_sym.data.type = helper.node_type.NODE_TYPE_STRUCT)
    (hbody : struct_sym.data.statements = pre ++ v :: post)
    (hv : v.name = some var_name) (hpre : ∀ u ∈ pre, u.name ≠ some var_name)
    (hfit : (pre.map (fun u => u.size)).sum < 2 ^ 31) :
    helper.struct_offset symresolver_get_symbol struct_name (some var_name) var_node_out =
      some ((((pre.map (fun u => u.size)).sum : Nat) : Int), some v) := by
  unfold helper.struct_offset
  simp only [hsym, hty, hnode, ne_eq, not_true_eq_false, ↓reduceIte, hbody]
  rw [struct_offset_loop_eq pre post v var_name 0 var_node_out hv hpre (Int.le_refl 0)
    (by omega)]
  simp

/-- C15 at `struct abc { int a; int b; }` with 4-byte `int`: `a` is at 0 and `b`
at 4, each with its own node in the out-pointer. -/
theorem struct_offset_sums_preceding_witness :
    helper.struct_offset (fun _ => some helper.example_abc) "abc" (some "a") none =
      some (0, some { name := some "a", size := 4 }) ∧
    helper.struct_offset (fun _ => some helper.example_abc) "abc" (some "b") none =
      some (4, some { name := some "b", size := 4 }) :=
  ⟨struct_offset_sums_preceding (fun _ => some helper.example_abc) "abc" "a" none
      helper.example_abc []
      [{ name := some "b", size := 4 }] { name := some "a", size := 4 } rfl (by decide)
      (by decide) (by decide) rfl (by simp) (by decide),
    struct_offset_sums_preceding (fun _ => some helper.example_abc) "abc" "b" none
      helper.example_abc
      [{ name := some "a", size := 4 }] [] { name := some "b", size := 4 } rfl (by decide) (by decide) (by decide) rfl
      (by decide) (by decide)⟩

/-! ## Malformed parameter lists -/

theorem definition_arguments_loop_identifier (f : Nat) (c : compile_process) (p : String)
    (args : List String) :
    preprocessor_handle_definition_arguments_loop (f + 1) c (some (identifier p)) args =
      if !token_is_operator (preprocessor_next_token c).1 "," &&
          !token_is_symbol (preprocessor_next_token c).1 ')' then
        .halt .incomplete_argument_sequence (preprocessor_next_token c).2
      else if token_is_symbol (preprocessor_next_token c).1 ')' then
        .ok (vector_push_text args p) (preprocessor_next_token c).2
      else
        preprocessor_handle_definition_arguments_loop f
          (preprocessor_next_token (preprocessor_next_token c).2).2
          (preprocessor_next_token (preprocessor_next_token c).2).1
          (vector_push_text args p) := by
  rw [preprocessor_handle_definition_arguments_loop.eq_def]
  simp [token_is_symbol]

theorem definition_arguments_loop_start (ps : List String) (fuel : Nat)
    (c : compile_process) (args : List String) (tail : List token)
    (hr : remaining c = parameter_start ps ++ tail) :
    preprocessor_handle_definition_arguments_loop (fuel + ps.length)
        (preprocessor_next_token c).2 (preprocessor_next_token c).1 args =
      preprocessor_handle_definition_arguments_loop fuel
        (preprocessor_next_token (advance c (2 * ps.length))).2
        (preprocessor_next_token (advance c (2 * ps.length))).1
        (args ++ ps.map vector_slot) := by
  induction ps generalizing c args with
  | nil => simp [advance_zero]
  | cons p ps ih =>
    have hr0 : remaining c = identifier p :: operator "," :: (parameter_start ps ++ tail) := by
      rw [hr]; simp [parameter_start]
    have hr1 := remaining_advance_one hr0
    have hr2 := remaining_advance_one hr1
    rw [next_token_cons hr0, show fuel + (p :: ps).length = (fuel + ps.length) + 1 by
      simp; omega]
    simp only
    rw [definition_arguments_loop_identifier, next_token_cons hr1]
    simp only [token_is_operator, token_is_symbol, beq_self_eq_true, Bool.not_true,
      Bool.false_and, Bool.false_eq_true, ↓reduceIte]
    rw [ih (advance (advance c 1) 1) (vector_push_text args p) hr2, advance_advance,
      advance_advance]
    simp only [vector_push_text, List.length_cons, List.append_assoc, List.singleton_append,
      List.map_cons]
    rw [show 1 + (1 + 2 * ps.length) = 2 * (ps.length + 1) by omega]

theorem definition_arguments_loop_bad_token (f : Nat) (c : compile_process) (t : token)
    (rest : List token) (args : List String) (hid : ∀ s, t ≠ identifier s)
    (hclose : t ≠ symbol ')') (hr : remaining c = t :: rest) :
    preprocessor_handle_definition_arguments_loop (f + 1)
        (preprocessor_next_token c).2 (preprocessor_next_token c).1 args =
      .halt .no_identifier_in_definition (advance c 1) := by
  rw [next_token_cons hr, preprocessor_handle_definition_arguments_loop.eq_def]
  cases t with
  | identifier s => exact absurd rfl (hid s)
  | symbol ch =>
    have : ch ≠ ')' := fun h => hclose (by rw [h])
    simp [token_is_symbol, this]
  | _ => simp [token_is_symbol]

theorem definition_arguments_loop_bad_separator (f : Nat) (c : compile_process) (p : String)
    (u : token) (rest : List token) (args : List String) (hcomma : u ≠ operator ",")
    (hclose : u ≠ symbol ')') (hr : remaining c = identifier p :: u :: rest) :
    preprocessor_handle_definition_arguments_loop (f + 1)
        (preprocessor_next_token c).2 (preprocessor_next_token c).1 args =
      .halt .incomplete_argument_sequence (advance c 2) := by
  have hr1 := remaining_advance_one hr
  rw [next_token_cons hr]
  simp only
  rw [definition_arguments_loop_identifier, next_token_cons hr1]
  have h1 : token_is_operator (some u) "," = false :=
    token_is_operator_false_of_ne (by intro h; cases h; exact hcomma rfl)
  have h2 : token_is_symbol (some u) ')' = false := by
    cases u <;> simp [token_is_symbol]
    rename_i ch
    intro hc; subst hc; exact hclose rfl
  simp [h1, h2, advance_advance]

theorem handle_token_define_parameters (fuel : Nat) (c : compile_process) (NAME : String)
    (stream : List token)
    (hr : remaining c = identifier "define" :: identifier NAME :: operator "(" :: stream) :
    preprocessor_handle_token (fuel + 1) c (some (symbol '#')) =
      match preprocessor_handle_definition_arguments_loop fuel
          (preprocessor_next_token (advance c 3)).2 (preprocessor_next_token (advance c 3)).1
          [] with
      | .halt e x => .halt e x
      | .ok arguments x =>
        match preprocessor_multi_value_insert_to_vector fuel x [] with
        | .halt e y => .halt e y
        | .ok value_token_vec y =>
          .ok () (with_definition y
            (preprocessor_definition_create (some NAME) value_token_vec arguments)) := by
  have hr1 := remaining_advance_one hr
  have hr2 := remaining_advance_one hr1
  have hd : preprocessor_token_is_define (identifier "define") = true := by decide
  have hp : token_is_operator (preprocessor_next_token_no_increment (advance (advance c 1) 1))
      "(" = true := by
    rw [peek_eq, hr2]; simp [token_is_operator]
  have h3 : advance (advance (advance c 1) 1) 1 = advance c 3 := by
    rw [advance_advance, advance_advance]
  simp only [preprocessor_handle_token, preprocessor_handle_symbol, token.cval?, ↓reduceIte,
    preprocessor_handle_hashtag_token, next_token_cons hr, hd,
    preprocessor_handle_definition_token, next_token_cons hr1, hp, next_token_cons hr2,
    h3, token.sval?]
  cases preprocessor_handle_definition_arguments_loop fuel
      (preprocessor_next_token (advance c 3)).2
      (preprocessor_next_token (advance c 3)).1 [] with
  | halt e x => rfl
  | ok arguments x =>
    simp only
    cases preprocessor_multi_value_insert_to_vector fuel x [] with
    | halt e y => rfl
    | ok v y => rfl

theorem length_parameter_start (ps : List String) :
    (parameter_start ps).length = 2 * ps.length := by
  induction ps with
  | nil => rfl
  | cons p ps ih =>
    have : parameter_start (p :: ps) =
        identifier p :: operator "," :: parameter_start ps := by
      simp [parameter_start]
    rw [this]
    simp only [List.length_cons, ih]
    omega

theorem define_parameters_halt (fuel : Nat) (c : compile_process) (NAME : String)
    (ps : List String) (tail : List token) (e : Fault) (k : Nat)
    (hf : ps.length + 1 ≤ fuel)
    (hr : remaining c = identifier "define" :: identifier NAME :: operator "(" ::
      (parameter_start ps ++ tail))
    (hlast : ∀ (f : Nat) (x : compile_process) (args : List String), remaining x = tail →
      preprocessor_handle_definition_arguments_loop (f + 1)
        (preprocessor_next_token x).2 (preprocessor_next_token x).1 args =
      .halt e (advance x k)) :
    preprocessor_handle_token (fuel + 1) c (some (symbol '#')) =
      .halt e (advance c (2 * ps.length + 3 + k)) := by
  obtain ⟨f, rfl⟩ : ∃ f, fuel = (f + 1) + ps.length := ⟨fuel - ps.length - 1, by omega⟩
  have hr3 : remaining (advance c 3) = parameter_start ps ++ tail := by
    rw [← advance_advance c 1 2, ← advance_advance (advance c 1) 1 1]
    exact remaining_advance_one (remaining_advance_one (remaining_advance_one hr))
  have hr4 : remaining (advance (advance c 3) (2 * ps.length)) = tail := by
    rw [remaining_advance, hr3, List.drop_left' (length_parameter_start ps)]
  rw [handle_token_define_parameters _ c NAME _ hr,
    definition_arguments_loop_start ps (f + 1) (advance c 3) [] tail hr3,
    hlast f _ _ hr4, advance_advance, advance_advance]
  simp only
  rw [show 3 + (2 * ps.length + k) = 2 * ps.length + 3 + k by omega]

/-- Where the parameter loop of `#define` does refuse a malformed list.  While parsing
`#define NAME (` after any well-formed start `p1 , p2 , ...` of the list: if
the next parameter position holds a token `t` that is neither an identifier
nor the `)` symbol, dispatching the `#` halts with the identifier
diagnostic; if a parameter identifier is followed by a token `u`
that is neither the `,` operator nor the `)` symbol, it halts with the
incomplete-sequence diagnostic.  In both cases the halt state is the start
state with only the cursor moved: no definition was added to the table. -/
theorem malformed_parameter_list_fatal (fuel : Nat) (c : compile_process) (NAME : String)
    (ps : List String) (rest : List token) (hf : ps.length + 1 ≤ fuel) :
    (∀ t, (∀ s, t ≠ identifier s) → t ≠ symbol ')' →
      remaining c = identifier "define" :: identifier NAME :: operator "(" ::
        (parameter_start ps ++ t :: rest) →
      preprocessor_handle_token (fuel + 1) c (some (symbol '#')) =
        .halt .no_identifier_in_definition (advance c (2 * ps.length + 3 + 1))) ∧
    (∀ p u, u ≠ operator "," → u ≠ symbol ')' →
      remaining c = identifier "define" :: identifier NAME :: operator "(" ::
        (parameter_start ps ++ identifier p :: u :: rest) →
      preprocessor_handle_token (fuel + 1) c (some (symbol '#')) =
        .halt .incomplete_argument_sequence (advance c (2 * ps.length + 3 + 2))) := by
  constructor
  · intro t hid hclose hr
    exact define_parameters_halt fuel c NAME ps (t :: rest) _ 1 hf hr
      (fun f x args hx => definition_arguments_loop_bad_token f x t rest args hid hclose hx)
  · intro p u hcomma hclose hr
    exact define_parameters_halt fuel c NAME ps (identifier p :: u :: rest) _ 2 hf hr
      (fun f x args hx =>
        definition_arguments_loop_bad_separator f x p u rest args hcomma hclose hx)

/-- The refusals at `# define F ( a , 5 )` and at `# define F ( a b )`, the table
holding `X`: both halt, and the table still holds only `X`. -/
theorem malformed_parameter_list_fatal_witness :
    preprocessor_handle_token 3
      (state_of [symbol '#', identifier "define", identifier "F", operator "(",
        identifier "a", operator ",", number 5, symbol ')'] 1 [] [] [example_X])
      (some (symbol '#')) =
      .halt .no_identifier_in_definition
        (state_of [symbol '#', identifier "define", identifier "F", operator "(",
          identifier "a", operator ",", number 5, symbol ')'] 7 [] [] [example_X]) ∧
    preprocessor_handle_token 2
      (state_of [symbol '#', identifier "define", identifier "F", operator "(",
        identifier "a", identifier "b", symbol ')'] 1 [] [] [example_X])
      (some (symbol '#')) =
      .halt .incomplete_argument_sequence
        (state_of [symbol '#', identifier "define", identifier "F", operator "(",
          identifier "a", identifier "b", symbol ')'] 6 [] [] [example_X]) :=
  ⟨(malformed_parameter_list_fatal 2
      (state_of [symbol '#', identifier "define", identifier "F", operator "(",
        identifier "a", operator ",", number 5, symbol ')'] 1 [] [] [example_X])
      "F" ["a"] [symbol ')'] (by decide)).1 (number 5) (fun s h => by cases h)
      (by decide) rfl,
    (malformed_parameter_list_fatal 1
      (state_of [symbol '#', identifier "define", identifier "F", operator "(",
        identifier "a", identifier "b", symbol ')'] 1 [] [] [example_X])
      "F" [] [symbol ')'] (by decide)).2 "a" (identifier "b") (by decide) (by decide) rfl⟩

/-! ## Relations respected by every step of a pass -/

theorem next_token_closed {R : compile_process → compile_process → Prop}
    (hR : pass_closed R) (c : compile_process) : R c (preprocessor_next_token c).2 := by
  obtain ⟨n, hn⟩ := next_token_state c
  rw [hn]
  exact hR.moved c n

theorem hashtag_and_identifier_closed {R : compile_process → compile_process → Prop}
    (hR : pass_closed R) (c : compile_process) (str : String) :
    R c (preprocessor_hashtag_and_identifier c str).2 := by
  by_cases h : ∃ rest, remaining c = symbol '#' :: identifier str :: rest
  · obtain ⟨rest, hr⟩ := h
    rw [hashtag_and_identifier_match hr]
    exact hR.moved c 2
  · rw [hashtag_and_identifier_mismatch h]
    exact hR.refl c

theorem handle_definition_token_closed {R : compile_process → compile_process → Prop}
    (hR : pass_closed R) (fuel : Nat) (c : compile_process) :
    R c (preprocessor_handle_definition_token fuel c).state := by
  unfold preprocessor_handle_definition_token
  simp only
  generalize hp : (if token_is_operator
      (preprocessor_next_token_no_increment (preprocessor_next_token c).2) "(" = true then
      preprocessor_handle_definition_arguments_loop fuel
        (preprocessor_next_token (preprocessor_next_token (preprocessor_next_token c).2).2).2
        (preprocessor_next_token (preprocessor_next_token (preprocessor_next_token c).2).2).1 []
      else Outcome.ok [] (preprocessor_next_token c).2) = parsed
  have hpf : R c parsed.state := by
    rw [← hp]
    split
    · obtain ⟨n, hn⟩ := definition_arguments_loop_state fuel
        (preprocessor_next_token (preprocessor_next_token (preprocessor_next_token c).2).2).2
        (preprocessor_next_token (preprocessor_next_token (preprocessor_next_token c).2).2).1 []
      rw [hn]
      exact hR.trans _ _ _ (hR.trans _ _ _ (hR.trans _ _ _ (next_token_closed hR c)
        (next_token_closed hR _)) (next_token_closed hR _)) (hR.moved _ n)
    · exact next_token_closed hR c
  cases parsed with
  | halt e c1 => exact hpf
  | ok args c2 =>
    simp only
    obtain ⟨n, hn⟩ := multi_value_insert_to_vector_state fuel c2 []
    cases hm : preprocessor_multi_value_insert_to_vector fuel c2 [] with
    | halt e c3 =>
      rw [hm] at hn
      simp only [Outcome.state] at hn hpf ⊢
      rw [hn]
      exact hR.trans _ _ _ hpf (hR.moved _ n)
    | ok v c3 =>
      rw [hm] at hn
      simp only [Outcome.state] at hn hpf
      have h3 : R c c3 := by rw [hn]; exact hR.trans _ _ _ hpf (hR.moved _ n)
      simp only
      split
      · exact h3
      · exact hR.trans _ _ _ h3 (hR.defined c3 _ _ _)

theorem execute_state_form (c : compile_process) (name : Option String)
    (args : preprocessor_function_arguments) :
    (preprocessor_macro_function_execute c name args).state = c ∨
    ∃ v, (preprocessor_macro_function_execute c name args).state = with_output c v := by
  unfold preprocessor_macro_function_execute
  split
  · exact Or.inl rfl
  · split
    · exact Or.inl rfl
    · split
      · exact Or.inl rfl
      · rename_i d _ _ _
        have hs := (execute_loop_state c d args d.value []).1
        cases hl : preprocessor_macro_function_execute_loop c d args d.value [] with
        | halt e y =>
          rw [hl] at hs
          exact Or.inl hs
        | ok u y =>
          rw [hl] at hs
          simp only [Outcome.state] at hs
          subst hs
          exact Or.inr ⟨u, by simp only [token_vec_push_dst_eq, Outcome.state, with_output]⟩

theorem macro_function_execute_closed {R : compile_process → compile_process → Prop}
    (hR : pass_closed R) (c : compile_process) (name : Option String)
    (args : preprocessor_function_arguments) :
    R c (preprocessor_macro_function_execute c name args).state := by
  rcases execute_state_form c name args with h | ⟨v, h⟩
  · rw [h]; exact hR.refl c
  · rw [h]; exact hR.output c v

theorem handle_identifier_closed {R : compile_process → compile_process → Prop}
    (hR : pass_closed R) (fuel : Nat) (c : compile_process) (t : token) :
    R c (preprocessor_handle_identifier fuel c t).state := by
  unfold preprocessor_handle_identifier
  split
  · exact hR.output c [t]
  · split
    · obtain ⟨n, hn⟩ := macro_call_arguments_state fuel c
      split
      · rename_i heq
        rw [heq] at hn
        simp only [Outcome.state] at hn ⊢
        rw [hn]
        exact hR.moved c n
      · rename_i heq
        rw [heq] at hn
        simp only [Outcome.state] at hn
        exact hR.trans _ _ _ (by rw [hn]; exact hR.moved c n)
          (macro_function_execute_closed hR _ _ _)
    · rw [token_vec_push_dst_eq]
      exact hR.output c _

theorem handle_ifdef_loop_closed {R : compile_process → compile_process → Prop}
    (hR : pass_closed R) {h : compile_process → Option token → Outcome Unit}
    (hh : ∀ c tok, R c (h c tok).state) (d : Option preprocessor_definition) (fuel : Nat)
    (c : compile_process) : R c (preprocessor_handle_ifdef_loop h d fuel c).state := by
  induction fuel generalizing c with
  | zero =>
    rw [preprocessor_handle_ifdef_loop.eq_def]
    split
    · exact hR.refl c
    · simp only
      split <;> exact hashtag_and_identifier_closed hR c _
  | succ f ih =>
    rw [preprocessor_handle_ifdef_loop.eq_def]
    split
    · exact hR.refl c
    · simp only
      have hp := hashtag_and_identifier_closed hR c "endif"
      split
      · exact hp
      · have hn := next_token_closed hR (preprocessor_hashtag_and_identifier c "endif").2
        split
        · have hh1 := hh (preprocessor_next_token
            (preprocessor_hashtag_and_identifier c "endif").2).2
            (preprocessor_next_token (preprocessor_hashtag_and_identifier c "endif").2).1
          split
          · rename_i heq
            rw [heq] at hh1
            exact hR.trans _ _ _ (hR.trans _ _ _ hp hn) hh1
          · rename_i heq
            rw [heq] at hh1
            exact hR.trans _ _ _ (hR.trans _ _ _ (hR.trans _ _ _ hp hn) hh1) (ih _)
        · exact hR.trans _ _ _ (hR.trans _ _ _ hp hn) (ih _)

theorem handle_ifdef_token_closed {R : compile_process → compile_process → Prop}
    (hR : pass_closed R) {h : compile_process → Option token → Outcome Unit}
    (hh : ∀ c tok, R c (h c tok).state) (fuel : Nat) (c : compile_process) :
    R c (preprocessor_handle_ifdef_token h fuel c).state := by
  unfold preprocessor_handle_ifdef_token
  simp only
  split
  · exact next_token_closed hR c
  · exact hR.trans _ _ _ (next_token_closed hR c) (handle_ifdef_loop_closed hR hh _ fuel _)

theorem handle_hashtag_token_closed {R : compile_process → compile_process → Prop}
    (hR : pass_closed R) {h : compile_process → Option token → Outcome Unit}
    (hh : ∀ c tok, R c (h c tok).state) (fuel : Nat) (c : compile_process) :
    R c (preprocessor_handle_hashtag_token h fuel c).state := by
  unfold preprocessor_handle_hashtag_token
  simp only
  have hn := next_token_closed hR c
  split
  · exact hn
  · split
    · have h1 := handle_definition_token_closed hR fuel (preprocessor_next_token c).2
      split
      · rename_i heq
        rw [heq] at h1
        exact hR.trans _ _ _ hn h1
      · rename_i heq
        rw [heq] at h1
        exact hR.trans _ _ _ hn h1
    · split
      · have h1 := handle_ifdef_token_closed hR hh fuel (preprocessor_next_token c).2
        split
        · rename_i heq
          rw [heq] at h1
          exact hR.trans _ _ _ hn h1
        · rename_i heq
          rw [heq] at h1
          exact hR.trans _ _ _ hn h1
      · exact hn

theorem handle_symbol_closed {R : compile_process → compile_process → Prop}
    (hR : pass_closed R) {h : compile_process → Option token → Outcome Unit}
    (hh : ∀ c tok, R c (h c tok).state) (fuel : Nat) (c : compile_process) (t : token) :
    R c (preprocessor_handle_symbol h fuel c t).state := by
  unfold preprocessor_handle_symbol
  simp only
  by_cases hc : t.cval? = some '#'
  · simp only [hc, ↓reduceIte]
    have h1 := handle_hashtag_token_closed hR hh fuel c
    split
    · rename_i heq
      rw [heq] at h1
      exact h1
    · rename_i heq
      rw [heq] at h1
      split
      · exact hR.trans _ _ _ h1 (hR.output _ [t])
      · exact h1
  · simp only [hc, ↓reduceIte, Bool.not_false]
    exact hR.output c [t]

theorem handle_token_closed {R : compile_process → compile_process → Prop}
    (hR : pass_closed R) (fuel : Nat) :
    ∀ c tok, R c (preprocessor_handle_token fuel c tok).state := by
  induction fuel with
  | zero =>
    intro c tok
    exact hR.refl c
  | succ f ih =>
    intro c tok
    cases tok with
    | none => exact hR.refl c
    | some t =>
      cases t with
      | symbol ch => exact handle_symbol_closed hR ih f c (symbol ch)
      | identifier s => exact handle_identifier_closed hR f c _
      | newline => exact hR.refl c
      | number n => exact hR.output c [number n]
      | operator s => exact hR.output c [operator s]
      | string s => exact hR.output c [token.string s]

theorem run_loop_closed {R : compile_process → compile_process → Prop}
    (hR : pass_closed R) (fuel : Nat) (c : compile_process) (tok : Option token) :
    R c (preprocessor_run_loop fuel c tok).state := by
  induction fuel generalizing c tok with
  | zero => cases tok <;> exact hR.refl c
  | succ f ih =>
    cases tok with
    | none => exact hR.refl c
    | some t =>
      rw [run_loop_step]
      have h1 := handle_token_closed hR (f + 2) c (some t)
      split
      · rename_i heq
        rw [heq] at h1
        exact h1
      · rename_i heq
        rw [heq] at h1
        exact hR.trans _ _ _ (hR.trans _ _ _ h1 (next_token_closed hR _)) (ih _ _)

theorem run_closed {R : compile_process → compile_process → Prop}
    (hR : pass_closed R) (c : compile_process) :
    R (set_cursor c (vector_set_peek_pointer c.token_vec_original 0))
      (preprocessor_run c).state := by
  unfold preprocessor_run
  simp only
  exact hR.trans _ _ _ (next_token_closed hR _) (run_loop_closed hR _ _ _)

/-! ## The kind of a definition -/

theorem definition_create_kind (name : Option String) (value : List token)
    (arguments : List String) :
    kind_invariant (preprocessor_definition_create name value arguments) ∧
    (preprocessor_definition_create name value arguments).arguments = arguments := by
  cases arguments with
  | nil => simp [kind_invariant, preprocessor_definition_create]
  | cons a r => simp [kind_invariant, preprocessor_definition_create]

theorem kind_invariant_closed :
    pass_closed (fun c c' => (∀ d ∈ c.preprocessor.definitions, kind_invariant d) →
      ∀ d ∈ c'.preprocessor.definitions, kind_invariant d) where
  refl := fun _ h => h
  trans := fun _ _ _ h1 h2 h => h2 (h1 h)
  moved := fun _ _ h => h
  output := fun _ _ h => h
  defined := by
    intro c name value arguments h d hd
    simp only [with_definition, List.mem_append, List.mem_singleton] at hd
    rcases hd with hd | hd
    · exact h d hd
    · rw [hd]
      exact (definition_create_kind name value arguments).1

theorem handle_token_define_empty_parameters (fuel : Nat) (c : compile_process) (F : String)
    (V rest : List token) (hV : verbatim_value V)
    (hr : remaining c = identifier "define" :: identifier F :: operator "(" ::
      symbol ')' :: (V ++ newline :: rest))
    (hf : V.length + 1 ≤ fuel) :
    preprocessor_handle_token (fuel + 1) c (some (symbol '#')) =
      .ok () (with_definition (advance c (V.length + 5))
        (preprocessor_definition_create (some F) V [])) := by
  have hr3 : remaining (advance c 3) = symbol ')' :: (V ++ newline :: rest) := by
    rw [← advance_advance c 1 2, ← advance_advance (advance c 1) 1 1]
    exact remaining_advance_one (remaining_advance_one (remaining_advance_one hr))
  have hr4 := remaining_advance_one hr3
  have hloop : preprocessor_handle_definition_arguments_loop fuel (advance (advance c 3) 1)
      (some (symbol ')')) [] = .ok [] (advance (advance c 3) 1) := by
    rw [preprocessor_handle_definition_arguments_loop.eq_def]
    simp [token_is_symbol]
  rw [handle_token_define_parameters fuel c F _ hr, next_token_cons hr3]
  simp only
  rw [hloop]
  simp only
  rw [multi_value_insert_verbatim V fuel _ [] rest hV hr4 hf]
  simp only [List.nil_append, advance_advance]
  rw [show 3 + 1 + (V.length + 1) = V.length + 5 by omega]

/-- C14: definition kind invariant.  Every definition that
`preprocessor_definition_create` builds is function-like if and only if its
parameter list is not empty.  Hence, from a table whose entries satisfy this,
every entry of the table that `preprocessor_run` ends with, on success or at a
halt, satisfies it.  In particular `#define F ( ) V` is stored with an empty
parameter list and the kind of an object macro. -/
theorem definition_kind_invariant (c : compile_process)
    (h : ∀ d ∈ c.preprocessor.definitions, kind_invariant d) :
    (∀ name value arguments,
      kind_invariant (preprocessor_definition_create name value arguments) ∧
      (preprocessor_definition_create name value arguments).arguments = arguments) ∧
    (∀ d ∈ (preprocessor_run c).state.preprocessor.definitions, kind_invariant d) ∧
    (∀ (fuel : Nat) (x : compile_process) (F : String) (V rest : List token),
      verbatim_value V →
      remaining x = identifier "define" :: identifier F :: operator "(" :: symbol ')' ::
        (V ++ newline :: rest) →
      V.length + 1 ≤ fuel →
      preprocessor_handle_token (fuel + 1) x (some (symbol '#')) =
        .ok () (with_definition (advance x (V.length + 5))
          (preprocessor_definition_create (some F) V [])) ∧
      (preprocessor_definition_create (some F) V []).type =
        PREPROCESSOR_DEFINITION_STANDARD) :=
  ⟨definition_create_kind, run_closed kind_invariant_closed c h,
    fun fuel x F V rest hV hr hf =>
      ⟨handle_token_define_empty_parameters fuel x F V rest hV hr hf, rfl⟩⟩

/-- C14 at the pass over `#define F ( ) 1` and `#define G ( a ) a` from the empty
table: `F` is stored as an object macro, `G` as a function-like one, and each
entry satisfies the invariant. -/
theorem definition_kind_invariant_witness :
    (preprocessor_run (state_of [symbol '#', identifier "define", identifier "F",
      operator "(", symbol ')', number 1, newline, symbol '#', identifier "define",
      identifier "G", operator "(", identifier "a", symbol ')', identifier "a", newline]
      0 [] [] [])).state.preprocessor.definitions =
      [{ type := PREPROCESSOR_DEFINITION_STANDARD, name := some "F", value := [number 1],
         arguments := [] },
       { type := PREPROCESSOR_DEFINITION_MACRO_FUNCTION, name := some "G",
         value := [identifier "a"], arguments := ["a"] }] ∧
    ∀ d ∈ (preprocessor_run (state_of [symbol '#', identifier "define", identifier "F",
      operator "(", symbol ')', number 1, newline, symbol '#', identifier "define",
      identifier "G", operator "(", identifier "a", symbol ')', identifier "a", newline]
      0 [] [] [])).state.preprocessor.definitions, kind_invariant d :=
  ⟨by decide,
    (definition_kind_invariant (state_of [symbol '#', identifier "define", identifier "F",
      operator "(", symbol ')', number 1, newline, symbol '#', identifier "define",
      identifier "G", operator "(", identifier "a", symbol ')', identifier "a", newline]
      0 [] [] []) (fun d hd => by cases hd)).2.1⟩

/-- C17, the code at `# define F ( a , ) 1`: the parameter position after the `,`
holds the `)` symbol, which is not an identifier, yet the pass succeeds and
stores `F` with the one parameter `a`: after the `,` is skipped the loop
condition takes the `)` for the end of the list before the identifier test is
reached.  Any other token there is refused: `# define F ( a , 5 ) 1` halts with
the identifier diagnostic and stores nothing. -/
theorem trailing_comma_parameter_list_accepted :
    preprocessor_run (state_of [symbol '#', identifier "define", identifier "F",
      operator "(", identifier "a", operator ",", symbol ')', number 1, newline] 0 [] [] []) =
    .ok () (state_of [symbol '#', identifier "define", identifier "F",
      operator "(", identifier "a", operator ",", symbol ')', number 1, newline] 9 [] []
      [{ type := PREPROCESSOR_DEFINITION_MACRO_FUNCTION, name := some "F",
         value := [number 1], arguments := ["a"] }]) ∧
    preprocessor_run (state_of [symbol '#', identifier "define", identifier "F",
      operator "(", identifier "a", operator ",", number 5, symbol ')', number 1, newline]
      0 [] [] []) =
    .halt .no_identifier_in_definition (state_of [symbol '#', identifier "define",
      identifier "F", operator "(", identifier "a", operator ",", number 5, symbol ')',
      number 1, newline] 7 [] [] []) := by
  decide

/-! ## Input that ends inside a directive -/

/-- C21, the code at an input that ends inside a directive, for every initial
cursor position, destination and table: with `#` as the last token the keyword
test reads the kind of the absent token after it; with `# define` as the last
two tokens the name is read from the absent name token; with the parameter
list of `# define NAME (` cut off by the end of the input the loop over the
parameters reads the kind of the absent token.  None of the three is a declared
diagnostic: each run stops at the read through the absent token. -/
theorem absent_token_is_read (p : Nat) (saves : List Nat) (dst : List token)
    (defs : List preprocessor_definition) :
    preprocessor_run (state_of [symbol '#'] p saves dst defs) =
      .halt .null_dereference (state_of [symbol '#'] 1 saves dst defs) ∧
    preprocessor_run (state_of [symbol '#', identifier "define"] p saves dst defs) =
      .halt .null_dereference (state_of [symbol '#', identifier "define"] 2 saves dst defs) ∧
    preprocessor_run (state_of [symbol '#', identifier "define", identifier "NAME",
        operator "("] p saves dst defs) =
      .halt .null_dereference (state_of [symbol '#', identifier "define", identifier "NAME",
        operator "("] 4 saves dst defs) :=
  ⟨rfl, rfl, rfl⟩

/-! ## Skipping does not track nesting -/

theorem handle_token_unhandled_directive (k : Nat) (c : compile_process) (s : String)
    (rest : List token) (hr : remaining c = identifier s :: rest)
    (hd : s ≠ "define") (hi : s ≠ "ifdef") :
    preprocessor_handle_token (k + 1) c (some (symbol '#')) =
      .ok () (with_output (advance c 1) [symbol '#']) := by
  have h1 : preprocessor_token_is_define (identifier s) = false := by
    simp [preprocessor_token_is_define, preprocessor_token_is_preprocessor_keyword, S_EQ,
      token.sval?, hd]
  have h2 : preprocessor_token_is_ifdef (identifier s) = false := by
    simp [preprocessor_token_is_ifdef, preprocessor_token_is_preprocessor_keyword, S_EQ,
      token.sval?, hi]
  simp [preprocessor_handle_token, preprocessor_handle_symbol, token.cval?,
    preprocessor_handle_hashtag_token, next_token_cons hr, h1, h2, preprocessor_token_push_dst,
    with_output]

theorem not_endif_pair_nested (M : String) {inner : List token}
    (h : ¬ endif_pair <:+: inner) :
    ¬ endif_pair <:+: symbol '#' :: identifier "ifdef" :: identifier M :: inner := by
  intro hi
  rcases List.infix_cons_iff.1 hi with hp | hi
  · obtain ⟨t, ht⟩ := hp
    simp [endif_pair] at ht
  rcases List.infix_cons_iff.1 hi with hp | hi
  · obtain ⟨t, ht⟩ := hp
    simp [endif_pair] at ht
  rcases List.infix_cons_iff.1 hi with hp | hi
  · obtain ⟨t, ht⟩ := hp
    simp [endif_pair] at ht
  exact h hi

theorem handle_token_skip_nested (fuel : Nat) (c : compile_process) (N M : String)
    (inner cont : List token)
    (hundef : preprocessor_get_definition c.preprocessor.definitions (some N) = none)
    (hno : ¬ endif_pair <:+: inner)
    (hr : remaining c = identifier "ifdef" :: identifier N :: symbol '#' ::
      identifier "ifdef" :: identifier M ::
        (inner ++ symbol '#' :: identifier "endif" :: cont))
    (hf : inner.length + 3 ≤ fuel) :
    preprocessor_handle_token (fuel + 1) c (some (symbol '#')) =
      .ok () (advance c (inner.length + 7)) := by
  have hr1 := remaining_advance_one hr
  have hr2 : remaining (advance (advance c 1) 1) =
      (symbol '#' :: identifier "ifdef" :: identifier M :: inner) ++
        symbol '#' :: identifier "endif" :: cont := remaining_advance_one hr1
  have hd : preprocessor_token_is_define (identifier "ifdef") = false := by decide
  have hi : preprocessor_token_is_ifdef (identifier "ifdef") = true := by decide
  have hu : preprocessor_get_definition (advance (advance c 1) 1).preprocessor.definitions
      (some N) = none := hundef
  simp only [preprocessor_handle_token, preprocessor_handle_symbol, token.cval?, ↓reduceIte,
    preprocessor_handle_hashtag_token, next_token_cons hr, hd, hi, Bool.false_eq_true,
    preprocessor_handle_ifdef_token, next_token_cons hr1, compiler_preprocessor, token.sval?,
    hu, handle_ifdef_loop_skip _ _ cont fuel _ (not_endif_pair_nested M hno) hr2
      (by simpa using hf)]
  simp only [Bool.not_true, Bool.false_eq_true, ↓reduceIte, advance_advance, List.length_cons]
  rw [show 1 + 1 + (inner.length + 1 + 1 + 1 + 2) = inner.length + 7 by omega]

theorem run_loop_none (f : Nat) (c : compile_process) :
    preprocessor_run_loop f c none = .ok () c := by
  cases f <;> rfl

theorem run_nested_skip (defs : List preprocessor_definition) (dst : List token)
    (saves : List Nat) (p : Nat) (N M a b x : String)
    (hN : preprocessor_get_definition defs (some N) = none)
    (hb : preprocessor_get_definition defs (some b) = none)
    (hx : preprocessor_get_definition defs (some x) = none) :
    preprocessor_run (state_of [symbol '#', identifier "ifdef", identifier N, symbol '#',
      identifier "ifdef", identifier M, identifier a, symbol '#', identifier "endif",
      identifier b, symbol '#', identifier "endif", identifier x] p saves dst defs) =
    .ok () (state_of [symbol '#', identifier "ifdef", identifier N, symbol '#',
      identifier "ifdef", identifier M, identifier a, symbol '#', identifier "endif",
      identifier b, symbol '#', identifier "endif", identifier x] 13 saves
      (dst ++ [identifier b, symbol '#', identifier x]) defs) := by
  generalize hL : [symbol '#', identifier "ifdef", identifier N, symbol '#',
      identifier "ifdef", identifier M, identifier a, symbol '#', identifier "endif",
      identifier b, symbol '#', identifier "endif", identifier x] = L
  have hlen : L.length = 13 := by rw [← hL]; rfl
  have hrem : ∀ k dst' tl, L.drop k = tl →
      remaining (with_output (advance (state_of L 0 saves dst defs) k) dst') = tl := by
    intro k dst' tl h
    simp [remaining, advance, with_output, state_of, h]
  have hib : inert defs (identifier b) := ⟨by simp, fun s hs => by cases hs; exact hb⟩
  have hix : inert defs (identifier x) := ⟨by simp, fun s hs => by cases hs; exact hx⟩
  have h0 : remaining (state_of L 0 saves dst defs) = symbol '#' :: L.drop 1 :=
    hrem 0 [] _ (by rw [← hL]; rfl)
  have h1 : remaining (advance (state_of L 0 saves dst defs) 1) =
      identifier "ifdef" :: identifier N :: symbol '#' :: identifier "ifdef" ::
        identifier M :: ([identifier a] ++ symbol '#' :: identifier "endif" ::
          [identifier b, symbol '#', identifier "endif", identifier x]) :=
    hrem 1 [] _ (by rw [← hL]; rfl)
  have h9 : remaining (advance (state_of L 0 saves dst defs) 9) =
      identifier b :: L.drop 10 := hrem 9 [] _ (by rw [← hL]; rfl)
  have h10 : remaining (with_output (advance (state_of L 0 saves dst defs) 10)
      [identifier b]) = symbol '#' :: L.drop 11 := hrem 10 _ _ (by rw [← hL]; rfl)
  have h11 : remaining (with_output (advance (state_of L 0 saves dst defs) 11)
      [identifier b]) = identifier "endif" :: L.drop 12 := hrem 11 _ _ (by rw [← hL]; rfl)
  have h12 : remaining (with_output (advance (state_of L 0 saves dst defs) 12)
      [identifier b, symbol '#']) = identifier x :: L.drop 13 :=
    hrem 12 _ _ (by rw [← hL]; rfl)
  have h13 : remaining (with_output (advance (state_of L 0 saves dst defs) 13)
      [identifier b, symbol '#', identifier x]) = [] := hrem 13 _ _ (by rw [← hL]; rfl)
  have hskip := handle_token_skip_nested 13 (advance (state_of L 0 saves dst defs) 1) N M
    [identifier a] [identifier b, symbol '#', identifier "endif", identifier x] hN
    (fun h => by have := h.length_le; simp [endif_pair] at this) h1 (by simp)
  unfold preprocessor_run vector_set_peek_pointer
  show preprocessor_run_loop L.length (preprocessor_next_token (state_of L 0 saves dst defs)).2
    (preprocessor_next_token (state_of L 0 saves dst defs)).1 = _
  rw [hlen, next_token_cons h0]
  simp only
  rw [run_loop_step, hskip]
  simp only [advance_advance, List.length_singleton]
  rw [next_token_cons h9]
  simp only [advance_advance]
  rw [run_loop_step, handle_token_inert _ _ _ hib]
  simp only [reduceCtorEq, ↓reduceIte]
  rw [next_token_cons h10]
  simp only [advance_with_output, advance_advance, Nat.reduceAdd]
  rw [run_loop_step, handle_token_unhandled_directive _ _ "endif" _ h11 (by decide) (by decide)]
  simp only [advance_with_output, advance_advance, with_output_with_output, Nat.reduceAdd,
    List.cons_append, List.nil_append]
  rw [next_token_cons h12]
  simp only [advance_with_output, advance_advance, Nat.reduceAdd]
  rw [run_loop_step, handle_token_inert _ _ _ hix]
  simp only [reduceCtorEq, ↓reduceIte, with_output_with_output, Nat.reduceAdd,
    List.cons_append, List.nil_append]
  rw [next_token_nil h13, run_loop_none]
  simp [with_output, advance, state_of]

/-- C24: skipping does not track nesting.  In a table where `N` has no
definition, dispatching the `#` of `# ifdef N # ifdef M inner # endif cont`,
with no adjacent `#` `endif` pair inside `inner`, ends just past the first
`# endif`: the inner `# ifdef M` is skipped as plain tokens, whether `M` is
defined or not, and `cont` is what is left on the cursor.  So the pass over
`# ifdef N # ifdef M a # endif b # endif x` (with `b` and `x` not defined)
dispatches `b`, the outer `#` (which takes its `endif` with it) and `x` at the
enclosing level, and appends `b # x` to the destination. -/
theorem skipping_ignores_nesting (fuel : Nat) (c : compile_process) (N M a b x : String)
    (inner cont : List token) (defs : List preprocessor_definition) (dst : List token)
    (saves : List Nat) (p : Nat)
    (hundef : preprocessor_get_definition c.preprocessor.definitions (some N) = none)
    (hno : ¬ endif_pair <:+: inner)
    (hr : remaining c = identifier "ifdef" :: identifier N :: symbol '#' ::
      identifier "ifdef" :: identifier M ::
        (inner ++ symbol '#' :: identifier "endif" :: cont))
    (hf : inner.length + 3 ≤ fuel)
    (hN : preprocessor_get_definition defs (some N) = none)
    (hb : preprocessor_get_definition defs (some b) = none)
    (hx : preprocessor_get_definition defs (some x) = none) :
    preprocessor_handle_token (fuel + 1) c (some (symbol '#')) =
      .ok () (advance c (inner.length + 7)) ∧
    remaining (advance c (inner.length + 7)) = cont ∧
    preprocessor_run (state_of [symbol '#', identifier "ifdef", identifier N, symbol '#',
      identifier "ifdef", identifier M, identifier a, symbol '#', identifier "endif",
      identifier b, symbol '#', identifier "endif", identifier x] p saves dst defs) =
    .ok () (state_of [symbol '#', identifier "ifdef", identifier N, symbol '#',
      identifier "ifdef", identifier M, identifier a, symbol '#', identifier "endif",
      identifier b, symbol '#', identifier "endif", identifier x] 13 saves
      (dst ++ [identifier b, symbol '#', identifier x]) defs) := by
  refine ⟨handle_token_skip_nested fuel c N M inner cont hundef hno hr hf, ?_,
    run_nested_skip defs dst saves p N M a b x hN hb hx⟩
  have := @remaining_advance_append c
    (identifier "ifdef" :: identifier N :: symbol '#' :: identifier "ifdef" :: identifier M ::
      (inner ++ [symbol '#', identifier "endif"])) cont (by simpa using hr)
  rw [← this]
  congr 2
  simp

/-- C24 at `# ifdef N # ifdef M a # endif b # endif c` with `M` defined and `N`,
`b`, `c` not. -/
theorem skipping_ignores_nesting_witness :
    preprocessor_handle_token 5
      (state_of [symbol '#', identifier "ifdef", identifier "N", symbol '#',
        identifier "ifdef", identifier "M", identifier "a", symbol '#', identifier "endif",
        identifier "b", symbol '#', identifier "endif", identifier "c"] 1 [] [] [example_M])
      (some (symbol '#')) =
      .ok () (advance (state_of [symbol '#', identifier "ifdef", identifier "N", symbol '#',
        identifier "ifdef", identifier "M", identifier "a", symbol '#', identifier "endif",
        identifier "b", symbol '#', identifier "endif", identifier "c"] 1 [] [] [example_M])
        (1 + 7)) ∧
    preprocessor_run (state_of [symbol '#', identifier "ifdef", identifier "N", symbol '#',
      identifier "ifdef", identifier "M", identifier "a", symbol '#', identifier "endif",
      identifier "b", symbol '#', identifier "endif", identifier "c"] 0 [] [] [example_M]) =
    .ok () (state_of [symbol '#', identifier "ifdef", identifier "N", symbol '#',
      identifier "ifdef", identifier "M", identifier "a", symbol '#', identifier "endif",
      identifier "b", symbol '#', identifier "endif", identifier "c"] 13 []
      [identifier "b", symbol '#', identifier "c"] [example_M]) :=
  have h := skipping_ignores_nesting 4
    (state_of [symbol '#', identifier "ifdef", identifier "N", symbol '#',
      identifier "ifdef", identifier "M", identifier "a", symbol '#', identifier "endif",
      identifier "b", symbol '#', identifier "endif", identifier "c"] 1 [] [] [example_M])
    "N" "M" "a" "b" "c" [identifier "a"]
    [identifier "b", symbol '#', identifier "endif", identifier "c"] [example_M] [] [] 0
    (by decide) (by decide) rfl (by decide) (by decide) (by decide) (by decide)
  ⟨h.1, h.2.2⟩

/-! ## The faults a step can end in -/

theorem multi_value_insert_loop_only_fuel (fuel : Nat) (c : compile_process)
    (tok : Option token) (v : List token) {e : Fault}
    (h : (preprocessor_multi_value_insert_loop fuel c tok v).fault? = some e) :
    e = .out_of_fuel := by
  induction fuel generalizing c tok v with
  | zero =>
    cases tok <;> simp [preprocessor_multi_value_insert_loop, Outcome.fault?] at h
    exact h.symm
  | succ f ih =>
    cases tok with
    | none => simp [preprocessor_multi_value_insert_loop, Outcome.fault?] at h
    | some t =>
      simp only [preprocessor_multi_value_insert_loop] at h
      split at h
      · simp [Outcome.fault?] at h
      · split at h
        · exact ih _ _ _ h
        · exact ih _ _ _ h

theorem macro_call_arguments_loop_only_fuel (fuel : Nat) (c : compile_process)
    (vv : List token) (args : preprocessor_function_arguments) (tok : Option token) {e : Fault}
    (h : (preprocessor_handle_identifier_macro_call_arguments_loop fuel c vv args tok).fault? =
      some e) :
    e = .out_of_fuel := by
  induction fuel generalizing c vv args tok with
  | zero =>
    cases tok <;>
      simp [preprocessor_handle_identifier_macro_call_arguments_loop, Outcome.fault?] at h
    exact h.symm
  | succ f ih =>
    cases tok with
    | none =>
      simp [preprocessor_handle_identifier_macro_call_arguments_loop, Outcome.fault?] at h
    | some t =>
      simp only [preprocessor_handle_identifier_macro_call_arguments_loop] at h
      exact ih _ _ _ _ h

theorem definition_arguments_loop_not_found (fuel : Nat) (c : compile_process)
    (tok : Option token) (args : List String) :
    (preprocessor_handle_definition_arguments_loop fuel c tok args).fault? ≠
      some .definition_not_found := by
  induction fuel generalizing c tok args with
  | zero =>
    rw [preprocessor_handle_definition_arguments_loop.eq_def]
    split <;> simp [Outcome.fault?]
  | succ f ih =>
    rw [preprocessor_handle_definition_arguments_loop.eq_def]
    split
    · simp [Outcome.fault?]
    · simp only
      split
      · simp [Outcome.fault?]
      · split
        · simp [Outcome.fault?]
        · split
          · simp [Outcome.fault?]
          · exact ih _ _ _
      · simp [Outcome.fault?]

theorem handle_definition_token_not_found (fuel : Nat) (c : compile_process) :
    (preprocessor_handle_definition_token fuel c).fault? ≠ some .definition_not_found := by
  unfold preprocessor_handle_definition_token
  simp only
  generalize hp : (if token_is_operator
      (preprocessor_next_token_no_increment (preprocessor_next_token c).2) "(" = true then
      preprocessor_handle_definition_arguments_loop fuel
        (preprocessor_next_token (preprocessor_next_token (preprocessor_next_token c).2).2).2
        (preprocessor_next_token (preprocessor_next_token (preprocessor_next_token c).2).2).1 []
      else Outcome.ok [] (preprocessor_next_token c).2) = parsed
  have hpf : parsed.fault? ≠ some .definition_not_found := by
    rw [← hp]
    split
    · exact definition_arguments_loop_not_found _ _ _ _
    · simp [Outcome.fault?]
  cases parsed with
  | halt e c1 => exact hpf
  | ok args c2 =>
    simp only
    cases hm : preprocessor_multi_value_insert_to_vector fuel c2 [] with
    | halt e c3 =>
      have := @multi_value_insert_loop_only_fuel fuel (preprocessor_next_token c2).2
        (preprocessor_next_token c2).1 [] e (by
          have h := hm
          unfold preprocessor_multi_value_insert_to_vector at h
          simp only at h
          rw [h]; rfl)
      subst this
      simp [Outcome.fault?]
    | ok v c3 =>
      simp only
      split <;> simp [Outcome.fault?]

theorem execute_loop_not_found (c : compile_process) (d : preprocessor_definition)
    (args : preprocessor_function_arguments) (v target : List token) :
    (preprocessor_macro_function_execute_loop c d args v target).fault? ≠
      some .definition_not_found := by
  induction v generalizing target with
  | nil => simp [preprocessor_macro_function_execute_loop, Outcome.fault?]
  | cons t r ih =>
    cases t with
    | identifier s =>
      simp only [preprocessor_macro_function_execute_loop]
      split
      · split
        · simp [Outcome.fault?]
        · exact ih _
      · exact ih _
    | _ => simp only [preprocessor_macro_function_execute_loop]; exact ih _

theorem macro_function_execute_found (c : compile_process) (name : Option String)
    (args : preprocessor_function_arguments) (d : preprocessor_definition)
    (hd : preprocessor_get_definition c.preprocessor.definitions name = some d) :
    (preprocessor_macro_function_execute c name args).fault? ≠ some .definition_not_found := by
  unfold preprocessor_macro_function_execute compiler_preprocessor
  rw [hd]
  simp only
  split
  · simp [Outcome.fault?]
  · split
    · simp [Outcome.fault?]
    · have := execute_loop_not_found c d args d.value []
      split
      · rename_i heq
        rw [heq] at this
        exact this
      · simp [Outcome.fault?]

theorem handle_identifier_not_found (fuel : Nat) (c : compile_process) (t : token) :
    (preprocessor_handle_identifier fuel c t).fault? ≠ some .definition_not_found := by
  unfold preprocessor_handle_identifier
  split
  · simp [Outcome.fault?]
  · rename_i d hd
    split
    · obtain ⟨n, hn⟩ := macro_call_arguments_state fuel c
      split
      · rename_i e c1 heq
        have := @macro_call_arguments_loop_only_fuel fuel
          (preprocessor_next_token (preprocessor_next_token c).2).2 []
          preprocessor_function_arguments_create
          (preprocessor_next_token (preprocessor_next_token c).2).1 e (by
            have h := heq
            unfold preprocessor_handle_identifier_macro_call_arguments at h
            simp only at h
            rw [h]; rfl)
        subst this
        simp [Outcome.fault?]
      · rename_i arguments c1 heq
        rw [heq] at hn
        simp only [Outcome.state] at hn
        subst hn
        exact macro_function_execute_found _ _ _ d hd
    · simp [Outcome.fault?]


theorem handle_ifdef_loop_not_found {h : compile_process → Option token → Outcome Unit}
    (hh : ∀ c tok, (h c tok).fault? ≠ some .definition_not_found)
    (d : Option preprocessor_definition) (fuel : Nat) (c : compile_process) :
    (preprocessor_handle_ifdef_loop h d fuel c).fault? ≠ some .definition_not_found := by
  induction fuel generalizing c with
  | zero =>
    rw [preprocessor_handle_ifdef_loop.eq_def]
    split
    · simp [Outcome.fault?]
    · simp only
      split <;> simp [Outcome.fault?]
  | succ f ih =>
    rw [preprocessor_handle_ifdef_loop.eq_def]
    split
    · simp [Outcome.fault?]
    · simp only
      split
      · simp [Outcome.fault?]
      · split
        · split
          · rename_i heq
            have := hh (preprocessor_next_token (preprocessor_hashtag_and_identifier c "endif").2).2
              (preprocessor_next_token (preprocessor_hashtag_and_identifier c "endif").2).1
            rw [heq] at this
            exact this
          · exact ih _
        · exact ih _

theorem handle_ifdef_token_not_found {h : compile_process → Option token → Outcome Unit}
    (hh : ∀ c tok, (h c tok).fault? ≠ some .definition_not_found)
    (fuel : Nat) (c : compile_process) :
    (preprocessor_handle_ifdef_token h fuel c).fault? ≠ some .definition_not_found := by
  unfold preprocessor_handle_ifdef_token
  simp only
  split
  · simp [Outcome.fault?]
  · exact handle_ifdef_loop_not_found hh _ _ _

theorem handle_hashtag_token_not_found {h : compile_process → Option token → Outcome Unit}
    (hh : ∀ c tok, (h c tok).fault? ≠ some .definition_not_found)
    (fuel : Nat) (c : compile_process) :
    (preprocessor_handle_hashtag_token h fuel c).fault? ≠ some .definition_not_found := by
  unfold preprocessor_handle_hashtag_token
  simp only
  split
  · simp [Outcome.fault?]
  · split
    · have h1 := handle_definition_token_not_found fuel (preprocessor_next_token c).2
      split
      · rename_i heq
        rw [heq] at h1
        exact h1
      · simp [Outcome.fault?]
    · split
      · have h1 := handle_ifdef_token_not_found hh fuel (preprocessor_next_token c).2
        split
        · rename_i heq
          rw [heq] at h1
          exact h1
        · simp [Outcome.fault?]
      · simp [Outcome.fault?]

theorem handle_symbol_not_found {h : compile_process → Option token → Outcome Unit}
    (hh : ∀ c tok, (h c tok).fault? ≠ some .definition_not_found)
    (fuel : Nat) (c : compile_process) (t : token) :
    (preprocessor_handle_symbol h fuel c t).fault? ≠ some .definition_not_found := by
  unfold preprocessor_handle_symbol
  simp only
  by_cases hc : t.cval? = some '#'
  · simp only [hc, ↓reduceIte]
    have h1 := handle_hashtag_token_not_found hh fuel c
    split
    · rename_i heq
      rw [heq] at h1
      exact h1
    · split <;> simp [Outcome.fault?]
  · simp [hc, Outcome.fault?]

theorem handle_token_not_found (F : Nat) (c : compile_process) (tok : Option token) :
    (preprocessor_handle_token F c tok).fault? ≠ some .definition_not_found := by
  induction F generalizing c tok with
  | zero => simp [preprocessor_handle_token, Outcome.fault?]
  | succ f ih =>
    cases tok with
    | none => simp [preprocessor_handle_token, Outcome.fault?]
    | some t =>
      cases t with
      | symbol ch => exact handle_symbol_not_found ih f c (symbol ch)
      | identifier s => exact handle_identifier_not_found f c _
      | newline => simp [preprocessor_handle_token, Outcome.fault?]
      | number n => simp [preprocessor_handle_token, Outcome.fault?]
      | operator s => simp [preprocessor_handle_token, Outcome.fault?]
      | string s => simp [preprocessor_handle_token, Outcome.fault?]

theorem run_loop_not_found (fuel : Nat) (c : compile_process) (tok : Option token) :
    (preprocessor_run_loop fuel c tok).fault? ≠ some .definition_not_found := by
  induction fuel generalizing c tok with
  | zero => cases tok <;> simp [preprocessor_run_loop, Outcome.fault?]
  | succ f ih =>
    cases tok with
    | none => simp [preprocessor_run_loop, Outcome.fault?]
    | some t =>
      rw [run_loop_step]
      have h1 := handle_token_not_found (f + 2) c (some t)
      split
      · rename_i heq
        rw [heq] at h1
        exact h1
      · exact ih _ _


/-- C23: the `Definition was not found` failure is unreachable through dispatch.
No pass and no call of `preprocessor_handle_identifier`, on any input, table and
step budget, halts with it: the name handed to
`preprocessor_macro_function_execute` was looked up in the same table just
before.  An identifier `s` without a definition that is followed by `(` is
copied to the destination with the cursor left at the `(`, and the pass over
`s ( 1 )` appends the four tokens unchanged. -/
theorem definition_not_found_unreachable (c c1 c2 : compile_process) (fuel k : Nat)
    (t : token) (s : String) (rest : List token) (defs : List preprocessor_definition)
    (dst : List token) (saves : List Nat) (p : Nat)
    (hundef : preprocessor_get_definition c2.preprocessor.definitions (some s) = none)
    (hr : remaining c2 = operator "(" :: rest)
    (hs : preprocessor_get_definition defs (some s) = none) :
    (preprocessor_run c).fault? ≠ some .definition_not_found ∧
    (preprocessor_handle_identifier fuel c1 t).fault? ≠ some .definition_not_found ∧
    preprocessor_handle_token (k + 1) c2 (some (identifier s)) =
      .ok () (with_output c2 [identifier s]) ∧
    remaining (with_output c2 [identifier s]) = operator "(" :: rest ∧
    preprocessor_run
      (state_of [identifier s, operator "(", number 1, symbol ')'] p saves dst defs) =
    .ok () (state_of [identifier s, operator "(", number 1, symbol ')'] 4 saves
      (dst ++ [identifier s, operator "(", number 1, symbol ')']) defs) := by
  have hi : inert c2.preprocessor.definitions (identifier s) :=
    ⟨by simp, fun s' hs' => by cases hs'; exact hundef⟩
  refine ⟨run_loop_not_found _ _ _, handle_identifier_not_found fuel c1 t, ?_, hr, ?_⟩
  · rw [handle_token_inert k c2 _ hi]
    simp
  · rw [run_inert defs dst saves p _ (by
      intro u hu
      simp only [List.mem_cons, List.mem_singleton, List.not_mem_nil, or_false] at hu
      rcases hu with h | h | h | h <;> subst h
      · exact ⟨by simp, fun s' hs' => by cases hs'; exact hs⟩
      all_goals exact ⟨by decide, fun s' hs' => by cases hs'⟩)]
    rfl

/-- C23 at `foo ( 1 )` with only `X` defined. -/
theorem definition_not_found_unreachable_witness :
    preprocessor_handle_token 1
      (state_of [identifier "foo", operator "(", number 1, symbol ')'] 1 [] [] [example_X])
      (some (identifier "foo")) =
      .ok () (with_output
        (state_of [identifier "foo", operator "(", number 1, symbol ')'] 1 [] [] [example_X])
        [identifier "foo"]) ∧
    preprocessor_run
      (state_of [identifier "foo", operator "(", number 1, symbol ')'] 0 [] [] [example_X]) =
    .ok () (state_of [identifier "foo", operator "(", number 1, symbol ')'] 4 []
      [identifier "foo", operator "(", number 1, symbol ')'] [example_X]) :=
  have h := definition_not_found_unreachable (state_of [] 0 [] [] []) (state_of [] 0 [] [] [])
    (state_of [identifier "foo", operator "(", number 1, symbol ')'] 1 [] [] [example_X])
    0 0 newline "foo" [number 1, symbol ')'] [example_X] [] [] 0
    (by decide) rfl (by decide)
  ⟨h.2.2.1, h.2.2.2.2⟩

/-! ## Termination -/

theorem run_loop_fuel (fuel : Nat) (c : compile_process) (tok : Option token)
    (h : tok = none ∨ rlen c + 1 ≤ fuel) :
    (preprocessor_run_loop fuel c tok).fault? ≠ some .out_of_fuel := by
  induction fuel generalizing c tok with
  | zero =>
    rcases h with h | h
    · subst h; simp [preprocessor_run_loop, Outcome.fault?]
    · omega
  | succ f ih =>
    cases tok with
    | none => simp [preprocessor_run_loop, Outcome.fault?]
    | some t =>
      have hf : rlen c ≤ f := by
        rcases h with h | h
        · cases h
        · omega
      rw [run_loop_step]
      have hh := handle_token_handler_ok (f + 2) c (some t)
      split
      · rename_i heq
        rw [heq] at hh
        exact hh.2 (by omega)
      · rename_i c1 heq
        rw [heq] at hh
        apply ih
        apply fuel_of_next
        have := hh.1.rlen_le
        simp only [Outcome.state] at this
        omega

theorem run_fuel (c : compile_process) :
    (preprocessor_run c).fault? ≠ some .out_of_fuel := by
  unfold preprocessor_run
  simp only
  apply run_loop_fuel
  apply fuel_of_next
  simp [rlen, remaining, vector_set_peek_pointer]

theorem multi_value_insert_loop_more_fuel (fuel : Nat) (c : compile_process)
    (tok : Option token) (v : List token)
    (h : (preprocessor_multi_value_insert_loop fuel c tok v).fault? ≠ some .out_of_fuel) :
    preprocessor_multi_value_insert_loop (fuel + 1) c tok v =
      preprocessor_multi_value_insert_loop fuel c tok v := by
  induction fuel generalizing c tok v with
  | zero =>
    cases tok with
    | none => rfl
    | some t => simp [preprocessor_multi_value_insert_loop, Outcome.fault?] at h
  | succ f ih =>
    cases tok with
    | none => rfl
    | some t =>
      rw [preprocessor_multi_value_insert_loop] at h
      rw [preprocessor_multi_value_insert_loop, preprocessor_multi_value_insert_loop]
      split_ifs at h ⊢
      · rfl
      · exact ih _ _ _ h
      · exact ih _ _ _ h

theorem multi_value_insert_to_vector_more_fuel (fuel : Nat) (c : compile_process)
    (v : List token)
    (h : (preprocessor_multi_value_insert_to_vector fuel c v).fault? ≠ some .out_of_fuel) :
    preprocessor_multi_value_insert_to_vector (fuel + 1) c v =
      preprocessor_multi_value_insert_to_vector fuel c v :=
  multi_value_insert_loop_more_fuel fuel _ _ v h

theorem definition_arguments_loop_more_fuel (fuel : Nat) (c : compile_process)
    (tok : Option token) (args : List String)
    (h : (preprocessor_handle_definition_arguments_loop fuel c tok args).fault? ≠
      some .out_of_fuel) :
    preprocessor_handle_definition_arguments_loop (fuel + 1) c tok args =
      preprocessor_handle_definition_arguments_loop fuel c tok args := by
  induction fuel generalizing c tok args with
  | zero =>
    rw [preprocessor_handle_definition_arguments_loop.eq_def] at h
    rw [preprocessor_handle_definition_arguments_loop.eq_def,
      preprocessor_handle_definition_arguments_loop.eq_def 0]
    split_ifs at h ⊢
    · rfl
    · simp [Outcome.fault?] at h
  | succ f ih =>
    rw [preprocessor_handle_definition_arguments_loop.eq_def] at h
    rw [preprocessor_handle_definition_arguments_loop.eq_def,
      preprocessor_handle_definition_arguments_loop.eq_def (f + 1)]
    split_ifs at h ⊢
    · rfl
    · simp only at h ⊢
      cases tok with
      | none => rfl
      | some t =>
        cases t with
        | identifier s =>
          simp only at h ⊢
          split_ifs at h ⊢
          · rfl
          · rfl
          · exact ih _ _ _ h
        | _ => rfl

theorem macro_call_arguments_loop_more_fuel (fuel : Nat) (c : compile_process)
    (vv : List token) (args : preprocessor_function_arguments) (tok : Option token)
    (h : (preprocessor_handle_identifier_macro_call_arguments_loop fuel c vv args tok).fault? ≠
      some .out_of_fuel) :
    preprocessor_handle_identifier_macro_call_arguments_loop (fuel + 1) c vv args tok =
      preprocessor_handle_identifier_macro_call_arguments_loop fuel c vv args tok := by
  induction fuel generalizing c vv args tok with
  | zero =>
    cases tok with
    | none => rfl
    | some t =>
      simp [preprocessor_handle_identifier_macro_call_arguments_loop, Outcome.fault?] at h
  | succ f ih =>
    cases tok with
    | none => rfl
    | some t =>
      rw [preprocessor_handle_identifier_macro_call_arguments_loop] at h
      rw [preprocessor_handle_identifier_macro_call_arguments_loop,
        preprocessor_handle_identifier_macro_call_arguments_loop]
      exact ih _ _ _ _ h

theorem macro_call_arguments_more_fuel (fuel : Nat) (c : compile_process)
    (h : (preprocessor_handle_identifier_macro_call_arguments fuel c).fault? ≠
      some .out_of_fuel) :
    preprocessor_handle_identifier_macro_call_arguments (fuel + 1) c =
      preprocessor_handle_identifier_macro_call_arguments fuel c :=
  macro_call_arguments_loop_more_fuel fuel _ _ _ _ h


theorem handle_definition_token_more_fuel (fuel : Nat) (c : compile_process)
    (h : (preprocessor_handle_definition_token fuel c).fault? ≠ some .out_of_fuel) :
    preprocessor_handle_definition_token (fuel + 1) c =
      preprocessor_handle_definition_token fuel c := by
  unfold preprocessor_handle_definition_token at h ⊢
  simp only at h ⊢
  have hp : (if token_is_operator
      (preprocessor_next_token_no_increment (preprocessor_next_token c).2) "(" = true then
      preprocessor_handle_definition_arguments_loop (fuel + 1)
        (preprocessor_next_token (preprocessor_next_token (preprocessor_next_token c).2).2).2
        (preprocessor_next_token (preprocessor_next_token (preprocessor_next_token c).2).2).1 []
      else Outcome.ok [] (preprocessor_next_token c).2) =
      (if token_is_operator
      (preprocessor_next_token_no_increment (preprocessor_next_token c).2) "(" = true then
      preprocessor_handle_definition_arguments_loop fuel
        (preprocessor_next_token (preprocessor_next_token (preprocessor_next_token c).2).2).2
        (preprocessor_next_token (preprocessor_next_token (preprocessor_next_token c).2).2).1 []
      else Outcome.ok [] (preprocessor_next_token c).2) := by
    split_ifs at h ⊢
    · apply definition_arguments_loop_more_fuel
      revert h
      cases preprocessor_handle_definition_arguments_loop fuel
        (preprocessor_next_token (preprocessor_next_token (preprocessor_next_token c).2).2).2
        (preprocessor_next_token (preprocessor_next_token (preprocessor_next_token c).2).2).1 []
        <;> simp [Outcome.fault?]
    · rfl
  rw [hp]
  generalize (if token_is_operator
      (preprocessor_next_token_no_increment (preprocessor_next_token c).2) "(" = true then
      preprocessor_handle_definition_arguments_loop fuel
        (preprocessor_next_token (preprocessor_next_token (preprocessor_next_token c).2).2).2
        (preprocessor_next_token (preprocessor_next_token (preprocessor_next_token c).2).2).1 []
      else Outcome.ok [] (preprocessor_next_token c).2) = parsed at h ⊢
  cases parsed with
  | halt e c1 => rfl
  | ok arguments c2 =>
    simp only at h ⊢
    rw [multi_value_insert_to_vector_more_fuel fuel c2 []]
    revert h
    cases preprocessor_multi_value_insert_to_vector fuel c2 [] <;> simp [Outcome.fault?]

theorem handle_identifier_more_fuel (fuel : Nat) (c : compile_process) (t : token)
    (h : (preprocessor_handle_identifier fuel c t).fault? ≠ some .out_of_fuel) :
    preprocessor_handle_identifier (fuel + 1) c t = preprocessor_handle_identifier fuel c t := by
  unfold preprocessor_handle_identifier at h ⊢
  cases hd : preprocessor_get_definition c.preprocessor.definitions t.sval? with
  | none => rfl
  | some d =>
    simp only [hd] at h ⊢
    split_ifs at h ⊢
    · rw [macro_call_arguments_more_fuel fuel c]
      revert h
      cases preprocessor_handle_identifier_macro_call_arguments fuel c <;>
        simp [Outcome.fault?]
    · rfl


theorem handle_ifdef_loop_more_fuel {h h' : compile_process → Option token → Outcome Unit}
    (hh : ∀ c tok, (h c tok).fault? ≠ some .out_of_fuel → h' c tok = h c tok)
    (d : Option preprocessor_definition) (fuel : Nat) (c : compile_process)
    (hf : (preprocessor_handle_ifdef_loop h d fuel c).fault? ≠ some .out_of_fuel) :
    preprocessor_handle_ifdef_loop h' d (fuel + 1) c =
      preprocessor_handle_ifdef_loop h d fuel c := by
  induction fuel generalizing c with
  | zero =>
    rw [preprocessor_handle_ifdef_loop.eq_def] at hf
    rw [preprocessor_handle_ifdef_loop.eq_def, preprocessor_handle_ifdef_loop.eq_def h]
    simp only at hf ⊢
    split_ifs at hf ⊢
    · rfl
    · rfl
    · simp [Outcome.fault?] at hf
    · simp [Outcome.fault?] at hf
  | succ f ih =>
    rw [preprocessor_handle_ifdef_loop.eq_def] at hf
    rw [preprocessor_handle_ifdef_loop.eq_def, preprocessor_handle_ifdef_loop.eq_def h]
    simp only at hf ⊢
    split_ifs at hf ⊢
    · rfl
    · rfl
    · have hn : (h (preprocessor_next_token
          (preprocessor_hashtag_and_identifier c "endif").2).2
          (preprocessor_next_token
            (preprocessor_hashtag_and_identifier c "endif").2).1).fault? ≠
            some .out_of_fuel := by
        revert hf
        cases h (preprocessor_next_token
          (preprocessor_hashtag_and_identifier c "endif").2).2
          (preprocessor_next_token
            (preprocessor_hashtag_and_identifier c "endif").2).1 <;> simp [Outcome.fault?]
      rw [hh _ _ hn]
      revert hf
      cases h (preprocessor_next_token
          (preprocessor_hashtag_and_identifier c "endif").2).2
          (preprocessor_next_token
            (preprocessor_hashtag_and_identifier c "endif").2).1 with
      | halt e c1 => intro _; rfl
      | ok u c1 => intro hf; exact ih c1 hf
    · exact ih _ hf

theorem handle_ifdef_token_more_fuel {h h' : compile_process → Option token → Outcome Unit}
    (hh : ∀ c tok, (h c tok).fault? ≠ some .out_of_fuel → h' c tok = h c tok)
    (fuel : Nat) (c : compile_process)
    (hf : (preprocessor_handle_ifdef_token h fuel c).fault? ≠ some .out_of_fuel) :
    preprocessor_handle_ifdef_token h' (fuel + 1) c =
      preprocessor_handle_ifdef_token h fuel c := by
  unfold preprocessor_handle_ifdef_token at hf ⊢
  simp only at hf ⊢
  cases hn : (preprocessor_next_token c).1 with
  | none => rfl
  | some t =>
    simp only [hn] at hf ⊢
    exact handle_ifdef_loop_more_fuel hh _ _ _ hf

theorem handle_hashtag_token_more_fuel {h h' : compile_process → Option token → Outcome Unit}
    (hh : ∀ c tok, (h c tok).fault? ≠ some .out_of_fuel → h' c tok = h c tok)
    (fuel : Nat) (c : compile_process)
    (hf : (preprocessor_handle_hashtag_token h fuel c).fault? ≠ some .out_of_fuel) :
    preprocessor_handle_hashtag_token h' (fuel + 1) c =
      preprocessor_handle_hashtag_token h fuel c := by
  unfold preprocessor_handle_hashtag_token at hf ⊢
  simp only at hf ⊢
  cases hn : (preprocessor_next_token c).1 with
  | none => rfl
  | some t =>
    simp only [hn] at hf ⊢
    split_ifs at hf ⊢
    · rw [handle_definition_token_more_fuel fuel]
      revert hf
      cases preprocessor_handle_definition_token fuel (preprocessor_next_token c).2 <;>
        simp [Outcome.fault?]
    · rw [handle_ifdef_token_more_fuel hh fuel]
      revert hf
      cases preprocessor_handle_ifdef_token h fuel (preprocessor_next_token c).2 <;>
        simp [Outcome.fault?]
    · rfl

theorem handle_symbol_more_fuel {h h' : compile_process → Option token → Outcome Unit}
    (hh : ∀ c tok, (h c tok).fault? ≠ some .out_of_fuel → h' c tok = h c tok)
    (fuel : Nat) (c : compile_process) (t : token)
    (hf : (preprocessor_handle_symbol h fuel c t).fault? ≠ some .out_of_fuel) :
    preprocessor_handle_symbol h' (fuel + 1) c t = preprocessor_handle_symbol h fuel c t := by
  unfold preprocessor_handle_symbol at hf ⊢
  simp only at hf ⊢
  by_cases hc : t.cval? = some '#'
  · simp only [hc, ↓reduceIte] at hf ⊢
    rw [handle_hashtag_token_more_fuel hh fuel]
    revert hf
    cases preprocessor_handle_hashtag_token h fuel c <;> simp [Outcome.fault?]
  · simp only [hc, ↓reduceIte]

theorem handle_token_more_fuel (F : Nat) (c : compile_process) (tok : Option token)
    (hf : (preprocessor_handle_token F c tok).fault? ≠ some .out_of_fuel) :
    preprocessor_handle_token (F + 1) c tok = preprocessor_handle_token F c tok := by
  induction F generalizing c tok with
  | zero => simp [preprocessor_handle_token, Outcome.fault?] at hf
  | succ f ih =>
    cases tok with
    | none => rfl
    | some t =>
      cases t with
      | symbol ch => exact handle_symbol_more_fuel ih f c (symbol ch) hf
      | identifier s => exact handle_identifier_more_fuel f c _ hf
      | newline => rfl
      | number n => rfl
      | operator s => rfl
      | string s => rfl

theorem run_loop_more_fuel (fuel : Nat) (c : compile_process) (tok : Option token)
    (hf : (preprocessor_run_loop fuel c tok).fault? ≠ some .out_of_fuel) :
    preprocessor_run_loop (fuel + 1) c tok = preprocessor_run_loop fuel c tok := by
  induction fuel generalizing c tok with
  | zero =>
    cases tok with
    | none => rfl
    | some t => simp [preprocessor_run_loop, Outcome.fault?] at hf
  | succ f ih =>
    cases tok with
    | none => rfl
    | some t =>
      rw [run_loop_step] at hf
      rw [run_loop_step, run_loop_step]
      have hn : (preprocessor_handle_token (f + 2) c (some t)).fault? ≠ some .out_of_fuel := by
        revert hf
        cases preprocessor_handle_token (f + 2) c (some t) <;> simp [Outcome.fault?]
      rw [handle_token_more_fuel (f + 2) c _ hn]
      revert hf
      cases preprocessor_handle_token (f + 2) c (some t) with
      | halt e c1 => intro _; rfl
      | ok u c1 => intro hf; exact ih _ _ hf

theorem run_loop_stable (fuel extra : Nat) (c : compile_process) (tok : Option token)
    (hf : (preprocessor_run_loop fuel c tok).fault? ≠ some .out_of_fuel) :
    preprocessor_run_loop (fuel + extra) c tok = preprocessor_run_loop fuel c tok := by
  induction extra with
  | zero => rfl
  | succ n ih =>
    rw [← Nat.add_assoc, run_loop_more_fuel (fuel + n) c tok (by rw [ih]; exact hf), ih]

theorem handle_token_stable (F extra : Nat) (c : compile_process) (tok : Option token)
    (hf : (preprocessor_handle_token F c tok).fault? ≠ some .out_of_fuel) :
    preprocessor_handle_token (F + extra) c tok = preprocessor_handle_token F c tok := by
  induction extra with
  | zero => rfl
  | succ n ih =>
    rw [← Nat.add_assoc, handle_token_more_fuel (F + n) c tok (by rw [ih]; exact hf), ih]


/-- C22: termination.  For every state `c` (any finite input, any table)
`preprocessor_run` ends, completing or halting at a fault of the code, without
exhausting its step budget, and a larger budget gives the same result.  The
budget that suffices is the number of tokens left: from every state `c1` with
fewer than `F` tokens left, dispatching one token (the conditional-block loop
and its re-entry into the dispatcher included), the conditional-block handler,
the argument-list loop, the parameter-list loop and the value-collection loop
all end within `F` iterations, each iteration taking a token from the input. -/
theorem preprocessor_run_terminates (c c1 : compile_process) (F extra : Nat)
    (tok : Option token) (args : List String) (v : List token) (hF : rlen c1 + 1 ≤ F) :
    (preprocessor_run c).fault? ≠ some .out_of_fuel ∧
    preprocessor_run_loop (c.token_vec_original.data.length + extra)
      (preprocessor_next_token
        (set_cursor c (vector_set_peek_pointer c.token_vec_original 0))).2
      (preprocessor_next_token
        (set_cursor c (vector_set_peek_pointer c.token_vec_original 0))).1 =
      preprocessor_run c ∧
    (preprocessor_handle_token F c1 tok).fault? ≠ some .out_of_fuel ∧
    preprocessor_handle_token (F + extra) c1 tok = preprocessor_handle_token F c1 tok ∧
    (preprocessor_handle_ifdef_token (preprocessor_handle_token F) F c1).fault? ≠
      some .out_of_fuel ∧
    (preprocessor_handle_identifier_macro_call_arguments F c1).fault? = none ∧
    (preprocessor_handle_definition_arguments_loop F c1 tok args).fault? ≠
      some .out_of_fuel ∧
    (preprocessor_multi_value_insert_to_vector F c1 v).fault? = none := by
  have hh := handle_token_handler_ok F
  refine ⟨run_fuel c, run_loop_stable _ extra _ _ (run_fuel c), (hh c1 tok).2 hF,
    handle_token_stable F extra c1 tok ((hh c1 tok).2 hF),
    (handle_ifdef_token_follows hh F c1).2 (by omega) (Nat.le_refl _),
    macro_call_arguments_fault F c1 (by omega),
    definition_arguments_loop_fuel F c1 tok args hF,
    multi_value_insert_to_vector_fault F c1 v (by omega)⟩

/-- C22 at the input `# ifdef X F ( X ) # endif # define Y ( a ) a` with `X` and
`F` defined. -/
theorem preprocessor_run_terminates_witness :
    (preprocessor_run (state_of [symbol '#', identifier "ifdef", identifier "X",
      identifier "F", operator "(", identifier "X", symbol ')', symbol '#',
      identifier "endif", symbol '#', identifier "define", identifier "Y", operator "(",
      identifier "a", symbol ')', identifier "a"] 0 [] []
      [example_X, example_F])).fault? ≠ some .out_of_fuel ∧
    (preprocessor_handle_token 16 (state_of [symbol '#', identifier "ifdef", identifier "X",
      identifier "F", operator "(", identifier "X", symbol ')', symbol '#',
      identifier "endif", symbol '#', identifier "define", identifier "Y", operator "(",
      identifier "a", symbol ')', identifier "a"] 1 [] [] [example_X, example_F])
      (some (symbol '#'))).fault? ≠ some .out_of_fuel :=
  have h := preprocessor_run_terminates
    (state_of [symbol '#', identifier "ifdef", identifier "X",
      identifier "F", operator "(", identifier "X", symbol ')', symbol '#',
      identifier "endif", symbol '#', identifier "define", identifier "Y", operator "(",
      identifier "a", symbol ')', identifier "a"] 0 [] [] [example_X, example_F])
    (state_of [symbol '#', identifier "ifdef", identifier "X",
      identifier "F", operator "(", identifier "X", symbol ')', symbol '#',
      identifier "endif", symbol '#', identifier "define", identifier "Y", operator "(",
      identifier "a", symbol ')', identifier "a"] 1 [] [] [example_X, example_F])
    16 0 (some (symbol '#')) [] [] (by decide)
  ⟨h.1, h.2.2.1⟩

/-! ## Lookup after a redefinition -/

theorem follows_closed : pass_closed follows where
  refl := follows.refl
  trans := fun _ _ _ h1 h2 => h1.trans h2
  moved := follows_advance
  output := fun c v => follows_push_dst c v
  defined := fun c name value arguments =>
    follows_push_definition c (preprocessor_definition_create name value arguments)

theorem run_after_define (defs : List preprocessor_definition) (dst : List token)
    (saves : List Nat) (p : Nat) (N : String) (V1 rest : List token)
    (hfresh : preprocessor_get_definition defs (some N) = none)
    (hV1 : verbatim_value V1) (hopen1 : V1.head? ≠ some (operator "(")) :
    preprocessor_get_definition
      (preprocessor_run (state_of (define_line N V1 ++ rest) p saves dst
        defs)).state.preprocessor.definitions (some N) =
      some (preprocessor_definition_create (some N) V1 []) := by
  obtain ⟨c0, hc0⟩ : ∃ c0 : compile_process,
      state_of (define_line N V1 ++ rest) 0 saves dst defs = c0 := ⟨_, rfl⟩
  have hr0 : remaining c0 = symbol '#' :: identifier "define" :: identifier N ::
      (V1 ++ newline :: rest) := by
    subst hc0
    simp [remaining, define_line, state_of]
  have hd0 : c0.preprocessor.definitions = defs := by subst hc0; rfl
  have hlen : (define_line N V1 ++ rest).length = (V1.length + rest.length + 3) + 1 := by
    simp [define_line]; omega
  have hrun : preprocessor_run (state_of (define_line N V1 ++ rest) p saves dst defs) =
      preprocessor_run_loop (define_line N V1 ++ rest).length (preprocessor_next_token c0).2
        (preprocessor_next_token c0).1 := by
    rw [← hc0]; rfl
  rw [hrun, hlen, next_token_cons hr0]
  have hr1 := remaining_advance_one hr0
  simp only
  rw [run_loop_step, handle_token_define_object _ (advance c0 1) N V1 rest hV1 hopen1 hr1
    (by omega)]
  simp only
  generalize hc1 : with_definition (advance (advance c0 1) (V1.length + 3))
    (preprocessor_definition_create (some N) V1 []) = c1
  have hd1 : c1.preprocessor.definitions =
      defs ++ [preprocessor_definition_create (some N) V1 []] := by
    subst hc1; rw [← hd0]; rfl
  have hf : follows c1 (preprocessor_run_loop (V1.length + rest.length + 3)
      (preprocessor_next_token c1).2 (preprocessor_next_token c1).1).state :=
    (next_token_follows c1).trans (run_loop_closed follows_closed _ _ _)
  obtain ⟨more, hmore⟩ := hf.defs_grows
  rw [← hmore, hd1]
  apply get_definition_append_of_some
  rw [get_definition_append_of_none hfresh]
  simp [preprocessor_get_definition, preprocessor_definition_create, S_EQ]

/-- C1, as stated, fails for values that are not taken verbatim, and for a name
that is defined already.  With `V1 = ( x ) + 1` the `(` opens a parameter list
and `N` is stored function-like with value `+ 1`; with `V1 = ( 1 )` the pass
halts in the parameter list and stores nothing; with `V1 = 1 \ newline 2` the
continuation is dropped and the value `1 2` is stored; with a newline inside
`V1 = 1 newline 2` the value ends at it, `1` is stored and `2` is copied to the
destination; and in a table that defines `N` as `0` lookup still returns that
definition.  In each case lookup of `N` after the two directives does not give
a definition with value `V1`. -/
theorem lookup_first_wins_counterexample :
    (preprocessor_run (state_of (define_line "N" [operator "(", identifier "x", symbol ')',
        operator "+", number 1] ++ define_line "N" [number 2]) 0 [] [] []) =
      .ok () (state_of (define_line "N" [operator "(", identifier "x", symbol ')',
        operator "+", number 1] ++ define_line "N" [number 2]) 14 [] []
        [{ type := PREPROCESSOR_DEFINITION_MACRO_FUNCTION, name := some "N",
           value := [operator "+", number 1], arguments := ["x"] },
         { type := PREPROCESSOR_DEFINITION_STANDARD, name := some "N", value := [number 2],
           arguments := [] }]) ∧
      preprocessor_get_definition
        [{ type := PREPROCESSOR_DEFINITION_MACRO_FUNCTION, name := some "N",
           value := [operator "+", number 1], arguments := ["x"] },
         { type := PREPROCESSOR_DEFINITION_STANDARD, name := some "N", value := [number 2],
           arguments := [] }] (some "N") =
        some { type := PREPROCESSOR_DEFINITION_MACRO_FUNCTION, name := some "N",
               value := [operator "+", number 1], arguments := ["x"] } ∧
      [operator "+", number 1] ≠
        [operator "(", identifier "x", symbol ')', operator "+", number 1]) ∧
    (preprocessor_run (state_of (define_line "N" [operator "(", number 1, symbol ')'] ++
        define_line "N" [number 2]) 0 [] [] []) =
      .halt .no_identifier_in_definition
        (state_of (define_line "N" [operator "(", number 1, symbol ')'] ++
          define_line "N" [number 2]) 5 [] [] []) ∧
      preprocessor_get_definition [] (some "N") = none) ∧
    (preprocessor_run (state_of (define_line "N" [number 1, symbol '\\', newline, number 2] ++
        define_line "N" [number 3]) 0 [] [] []) =
      .ok () (state_of (define_line "N" [number 1, symbol '\\', newline, number 2] ++
        define_line "N" [number 3]) 13 [] []
        [{ type := PREPROCESSOR_DEFINITION_STANDARD, name := some "N",
           value := [number 1, number 2], arguments := [] },
         { type := PREPROCESSOR_DEFINITION_STANDARD, name := some "N", value := [number 3],
           arguments := [] }]) ∧
      [number 1, number 2] ≠ [number 1, symbol '\\', newline, number 2]) ∧
    (preprocessor_run (state_of (define_line "N" [number 1, newline, number 2] ++
        define_line "N" [number 3]) 0 [] [] []) =
      .ok () (state_of (define_line "N" [number 1, newline, number 2] ++
        define_line "N" [number 3]) 12 [] [number 2]
        [{ type := PREPROCESSOR_DEFINITION_STANDARD, name := some "N", value := [number 1],
           arguments := [] },
         { type := PREPROCESSOR_DEFINITION_STANDARD, name := some "N", value := [number 3],
           arguments := [] }]) ∧
      [number 1] ≠ [number 1, newline, number 2]) ∧
    (preprocessor_run (state_of (define_line "N" [number 1] ++ define_line "N" [number 2])
        0 [] []
        [{ type := PREPROCESSOR_DEFINITION_STANDARD, name := some "N", value := [number 0],
           arguments := [] }]) =
      .ok () (state_of (define_line "N" [number 1] ++ define_line "N" [number 2]) 10 [] []
        [{ type := PREPROCESSOR_DEFINITION_STANDARD, name := some "N", value := [number 0],
           arguments := [] },
         { type := PREPROCESSOR_DEFINITION_STANDARD, name := some "N", value := [number 1],
           arguments := [] },
         { type := PREPROCESSOR_DEFINITION_STANDARD, name := some "N", value := [number 2],
           arguments := [] }]) ∧
      preprocessor_get_definition
        [{ type := PREPROCESSOR_DEFINITION_STANDARD, name := some "N", value := [number 0],
           arguments := [] },
         { type := PREPROCESSOR_DEFINITION_STANDARD, name := some "N", value := [number 1],
           arguments := [] },
         { type := PREPROCESSOR_DEFINITION_STANDARD, name := some "N", value := [number 2],
           arguments := [] }] (some "N") =
        some { type := PREPROCESSOR_DEFINITION_STANDARD, name := some "N",
               value := [number 0], arguments := [] }) := by
  decide

/-- C1, amended: lookup is first-wins.  `preprocessor_get_definition` returns `d`
exactly when `d` is in the table, is named `name`, and no entry before it is
named `name`; it returns nothing exactly when no entry is named `name`.
Consequently, from a table in which `N` has no definition and for a value `V1`
that holds no newline, no `\` and does not open with `(`: whatever follows the
line `#define N V1`, in particular a line `#define N V2` with any `V2`, the
pass ends in a state where lookup of `N` returns the definition with value
`V1`; and when `V2` is such a value too, the pass over the two lines completes
with the two definitions appended to the table in that order. -/
theorem lookup_first_wins (defs : List preprocessor_definition) (dst : List token)
    (saves : List Nat) (p : Nat) (N : String) (V1 : List token)
    (hfresh : preprocessor_get_definition defs (some N) = none)
    (hV1 : verbatim_value V1) (hopen1 : V1.head? ≠ some (operator "(")) :
    (∀ (table : List preprocessor_definition) (name : String) (d : preprocessor_definition),
      preprocessor_get_definition table (some name) = some d ↔
        ∃ pre post, table = pre ++ d :: post ∧ d.name = some name ∧
          ∀ x ∈ pre, x.name ≠ some name) ∧
    (∀ (table : List preprocessor_definition) (name : String),
      preprocessor_get_definition table (some name) = none ↔
        ∀ x ∈ table, x.name ≠ some name) ∧
    (∀ V2 rest : List token,
      preprocessor_get_definition
        (preprocessor_run (state_of (define_line N V1 ++ (define_line N V2 ++ rest)) p saves
          dst defs)).state.preprocessor.definitions (some N) =
        some (preprocessor_definition_create (some N) V1 [])) ∧
    (preprocessor_definition_create (some N) V1 []).value = V1 ∧
    (∀ V2 : List token, verbatim_value V2 → V2.head? ≠ some (operator "(") →
      preprocessor_run (state_of (define_line N V1 ++ define_line N V2) p saves dst defs) =
        .ok () (state_of (define_line N V1 ++ define_line N V2)
          (define_line N V1 ++ define_line N V2).length saves dst
          (defs ++ [preprocessor_definition_create (some N) V1 [],
            preprocessor_definition_create (some N) V2 []])) ∧
      preprocessor_get_definition
        (defs ++ [preprocessor_definition_create (some N) V1 [],
          preprocessor_definition_create (some N) V2 []]) (some N) =
        some (preprocessor_definition_create (some N) V1 [])) := by
  refine ⟨get_definition_eq_some_iff, get_definition_eq_none_iff,
    fun V2 rest => run_after_define defs dst saves p N V1 _ hfresh hV1 hopen1, rfl,
    fun V2 hV2 hopen2 => ⟨run_two_defines defs dst saves p N V1 V2 hV1 hV2 hopen1 hopen2, ?_⟩⟩
  rw [get_definition_append_of_none hfresh]
  simp [preprocessor_get_definition, preprocessor_definition_create, S_EQ]

/-- C1 amended, at `#define N 1` on an empty table, followed by `#define N 2`, and
followed by `#define N ( 1 )`: lookup of `N` gives the definition with value
`1`. -/
theorem lookup_first_wins_witness :
    preprocessor_run (state_of (define_line "N" [number 1] ++ define_line "N" [number 2])
        0 [] [] []) =
      .ok () (state_of (define_line "N" [number 1] ++ define_line "N" [number 2]) 10 [] []
        [preprocessor_definition_create (some "N") [number 1] [],
          preprocessor_definition_create (some "N") [number 2] []]) ∧
    preprocessor_get_definition
      [preprocessor_definition_create (some "N") [number 1] [],
        preprocessor_definition_create (some "N") [number 2] []] (some "N") =
      some (preprocessor_definition_create (some "N") [number 1] []) ∧
    preprocessor_get_definition
      (preprocessor_run (state_of (define_line "N" [number 1] ++
        (define_line "N" [operator "(", number 1, symbol ')'] ++ [])) 0 [] []
        [])).state.preprocessor.definitions (some "N") =
      some (preprocessor_definition_create (some "N") [number 1] []) :=
  have h := lookup_first_wins [] [] [] 0 "N" [number 1] rfl
    (by intro t ht; simp at ht; subst ht; exact ⟨by decide, by decide⟩) (by decide)
  have h2 := h.2.2.2.2 [number 2]
    (by intro t ht; simp at ht; subst ht; exact ⟨by decide, by decide⟩) (by decide)
  ⟨h2.1, h2.2, h.2.2.1 [operator "(", number 1, symbol ')'] []⟩

/-! ## Parameter names longer than an element of the parameter vector -/

/-- C2, the code at `# define F ( abcdefghi , x ) abcdefghi + x`, newline,
`F ( 1 , 2 )`: the element of the parameter vector keeps the first 8 characters
of `abcdefghi` and no terminator, so the string read at it runs on into the
element of `x` and is `abcdefghx`; the identifier `abcdefghi` of the replacement
matches no parameter and is appended as it stands, while `x` is replaced by
`2`.  With the names of the spec, `# define ADD ( a , b ) a + b` and
`ADD ( 1 , 2 )`, the pass appends `1 + 2`. -/
theorem long_parameter_not_substituted :
    preprocessor_run (state_of [symbol '#', identifier "define", identifier "F", operator "(",
      identifier "abcdefghi", operator ",", identifier "x", symbol ')',
      identifier "abcdefghi", operator "+", identifier "x", newline,
      identifier "F", operator "(", number 1, operator ",", number 2, symbol ')'] 0 [] [] []) =
    .ok () (state_of [symbol '#', identifier "define", identifier "F", operator "(",
      identifier "abcdefghi", operator ",", identifier "x", symbol ')',
      identifier "abcdefghi", operator "+", identifier "x", newline,
      identifier "F", operator "(", number 1, operator ",", number 2, symbol ')'] 18 []
      [identifier "abcdefghi", operator "+", number 2]
      [{ type := PREPROCESSOR_DEFINITION_MACRO_FUNCTION, name := some "F",
         value := [identifier "abcdefghi", operator "+", identifier "x"],
         arguments := ["abcdefgh", "x"] }]) ∧
    preprocessor_run (state_of [symbol '#', identifier "define", identifier "ADD", operator "(",
      identifier "a", operator ",", identifier "b", symbol ')',
      identifier "a", operator "+", identifier "b", newline,
      identifier "ADD", operator "(", number 1, operator ",", number 2, symbol ')'] 0 [] [] []) =
    .ok () (state_of [symbol '#', identifier "define", identifier "ADD", operator "(",
      identifier "a", operator ",", identifier "b", symbol ')',
      identifier "a", operator "+", identifier "b", newline,
      identifier "ADD", operator "(", number 1, operator ",", number 2, symbol ')'] 18 []
      [number 1, operator "+", number 2] [example_ADD]) := by
  decide

/-- C11, the code at `# define M 9`, newline,
`# define F ( abcdefghi , x ) abcdefghi`, newline, `F ( M , 2 )`: the parameter
`abcdefghi` is not recognised in the replacement, so the call appends the
identifier `abcdefghi` and the argument token `M` does not reach the
destination.  With the parameter named `a` the same call appends the
identifier `M` itself, not its replacement `9`. -/
theorem long_parameter_call_loses_argument :
    preprocessor_run (state_of [symbol '#', identifier "define", identifier "M", number 9,
      newline, symbol '#', identifier "define", identifier "F", operator "(",
      identifier "abcdefghi", operator ",", identifier "x", symbol ')',
      identifier "abcdefghi", newline,
      identifier "F", operator "(", identifier "M", operator ",", number 2, symbol ')']
      0 [] [] []) =
    .ok () (state_of [symbol '#', identifier "define", identifier "M", number 9,
      newline, symbol '#', identifier "define", identifier "F", operator "(",
      identifier "abcdefghi", operator ",", identifier "x", symbol ')',
      identifier "abcdefghi", newline,
      identifier "F", operator "(", identifier "M", operator ",", number 2, symbol ')']
      21 [] [identifier "abcdefghi"]
      [example_M,
       { type := PREPROCESSOR_DEFINITION_MACRO_FUNCTION, name := some "F",
         value := [identifier "abcdefghi"], arguments := ["abcdefgh", "x"] }]) ∧
    preprocessor_run (state_of [symbol '#', identifier "define", identifier "M", number 9,
      newline, symbol '#', identifier "define", identifier "F", operator "(",
      identifier "a", operator ",", identifier "x", symbol ')',
      identifier "a", newline,
      identifier "F", operator "(", identifier "M", operator ",", number 2, symbol ')']
      0 [] [] []) =
    .ok () (state_of [symbol '#', identifier "define", identifier "M", number 9,
      newline, symbol '#', identifier "define", identifier "F", operator "(",
      identifier "a", operator ",", identifier "x", symbol ')',
      identifier "a", newline,
      identifier "F", operator "(", identifier "M", operator ",", number 2, symbol ')']
      21 [] [identifier "M"]
      [example_M,
       { type := PREPROCESSOR_DEFINITION_MACRO_FUNCTION, name := some "F",
         value := [identifier "a"], arguments := ["a", "x"] }]) := by
  decide

end DragonCompiler
